import Mathlib

/-!
# popts: matching, extraction and validation engine

Shallow embedding of `src/opt.h`, `src/opt.inl.h`, `src/opts.h` and
`src/opts.inl.h`.

* The token sequence `argv_t = vector<string>` is a `List String`.
* An `argv_t::const_iterator` is the index of the token it points to, a `Nat`
  in `0..N`; the past-the-end iterator `argv.cend()` is `N = argv.length`.
  `++it`, `std::next` are `+ 1`; `--it`, `std::prev` are `- 1`.
* A `deque<T>` is a `List T`; `push_back` appends at the end.
* The optional diagnostic sink `std::ostream *out` is a flag `out : Bool`
  (`false` is `nullptr`) together with the text written, which the queries
  return next to their boolean.
* `Options::HasErrorMatches` with a sink reads the token at a duplicated
  position; at `m_argv.cend()` that read is undefined, and the embedding
  returns a third component telling that the run stopped there.
* `size_t` values that the code only compares (`m_count`) are `Nat`.
* `assert` is a value of `Except`: a function that contains one takes the flag
  `NDEBUG` (assertions compiled out) and returns `Except.error` where the
  debug build aborts.
* The `long double` arithmetic of the duration converter (`std::from_chars`
  and the conversion between `std::chrono` periods) is a parameter of
  `durationFromString`; what the text is matched against is modelled in full.
* A `std::stringstream` written with `<<` is the `String` of what was written.
-/

namespace popts

/-! ## `opt.h`: one option definition -/

/-- The base class `struct Option` of `opt.h`. -/
structure Option where
  m_names : List String
  m_description : String
  m_defaultString : String
  m_count : Nat
  m_isFlag : Bool
  m_matches : List Nat
  m_parseErrors : List Nat
  deriving Repr, DecidableEq

/-- The constant `Option::Single`. -/
def Option.Single : Nat := 1

/-- The constant `Option::Many`, the largest `size_t` (64 bit). -/
def Option.Many : Nat := 2 ^ 64 - 1

/-- The three static members of `OptionImpl<T>` that depend on the value type:
`FlagMatchValue()`, `FromString(data, out)` (returned as the pair of the
success flag and the value left in `out`) and `ToString(data)`. -/
class Converter (T : Type) where
  FlagMatchValue : T
  FromString : String → Bool × T
  ToString : T → String

/-- The derived class `OptionImpl<T>` of `opt.h`. -/
structure OptionImpl (T : Type) extends Option where
  m_storage : List T
  m_defaultArgument : T

/-! ## `opt.inl.h` -/

/-- The call `std::find_first_of(first, to, names.cbegin(), names.cend())` with
`to = argv.cend()`: the index of the first token at or after `first` that equals
one of `names`, and `argv.length` when there is none. -/
def find_first_of (argv : List String) (first : Nat) (names : List String) : Nat :=
  first + (argv.drop first).findIdx (fun t => decide (t ∈ names))

/-- The `for (auto match = from;;)` loop of `Option::ParseMatches`. The first
argument bounds the number of iterations; `match_` is the loop iterator. -/
def Option.ParseMatches.loop (argv names : List String) :
    Nat → Nat → List Nat → List Nat
  | 0, _, m_matches => m_matches
  | fuel + 1, match_, m_matches =>
    let found := find_first_of argv match_ names
    if found = argv.length then
      m_matches
    else
      Option.ParseMatches.loop argv names fuel (found + 1) (m_matches ++ [found + 1])

/-- The method `Option::ParseMatches`: `from = std::next(argv.cbegin())` is
index `1`. The loop runs at most `argv.length` times on a non-empty `argv`
(see `ParseMatches_loop_fuel`). -/
def Option.ParseMatches (self : Option) (argv : List String) : Option :=
  { self with
    m_matches := Option.ParseMatches.loop argv self.m_names argv.length 1 self.m_matches }

/-- The specialisation `OptionImpl<std::string>`: `FromString` copies the text
and succeeds, `ToString` goes through a string stream, `FlagMatchValue` is
`T()`. -/
instance : Converter String where
  FlagMatchValue := ""
  FromString data := (true, data)
  ToString data := data

/-- The literal list `truthy` of `OptionImpl<bool>::FromString`. -/
def truthy : List String := ["true", "1", "on", "yes", "y"]

/-- The literal list `falsy` of `OptionImpl<bool>::FromString`. -/
def falsy : List String := ["false", "0", "off", "no", "n"]

/-- The specialisation `OptionImpl<bool>::FromString`. -/
def boolFromString (data : String) : Bool × Bool :=
  let lowerdata : String := ⟨data.data.map Char.toLower⟩
  if lowerdata ∈ truthy then (true, true)
  else if lowerdata ∈ falsy then (true, false)
  else (false, true)

/-- The specialisation `OptionImpl<bool>`: `FlagMatchValue` is `true`;
`ToString` streams the value without `boolalpha`. -/
instance : Converter Bool where
  FlagMatchValue := true
  FromString := boolFromString
  ToString data := if data then "1" else "0"

/-- The loop `for (auto match : m_matches)` of `OptionImpl<T>::ParseArguments`
(value options), threading `m_storage` and `m_parseErrors`. -/
def OptionImpl.ParseArguments.loop {T : Type} [Converter T] (argv : List String) :
    List Nat → List T → List Nat → List T × List Nat
  | [], m_storage, m_parseErrors => (m_storage, m_parseErrors)
  | match_ :: rest, m_storage, m_parseErrors =>
    if match_ ≠ argv.length then
      let r := (Converter.FromString (argv.getD match_ "") : Bool × T)
      if r.1 then
        OptionImpl.ParseArguments.loop argv rest (m_storage ++ [r.2]) m_parseErrors
      else
        OptionImpl.ParseArguments.loop argv rest m_storage (m_parseErrors ++ [match_])
    else
      OptionImpl.ParseArguments.loop argv rest m_storage (m_parseErrors ++ [match_])

/-- The method `OptionImpl<T>::ParseArguments`. -/
def OptionImpl.ParseArguments {T : Type} [Converter T] (self : OptionImpl T)
    (argv : List String) : OptionImpl T :=
  let base := self.toOption.ParseMatches argv
  let filled : List T × List Nat :=
    if base.m_isFlag then
      (List.replicate base.m_matches.length Converter.FlagMatchValue, [])
    else
      OptionImpl.ParseArguments.loop argv base.m_matches [] []
  { toOption := { base with m_parseErrors := filled.2 }
    m_storage :=
      if base.m_count = Option.Single then filled.1 ++ [self.m_defaultArgument]
      else filled.1
    m_defaultArgument := self.m_defaultArgument }

/-! ## `opts.h`, `opts.inl.h`: the registry -/

/-- The class `Options`: the token sequence, the tail cursor and the registered
definitions (their `Option` base part, which is all the queries read). -/
structure Options where
  m_argv : List String
  m_tail : Nat
  m_options : List Option
  deriving Repr, DecidableEq

/-- The constructor `Options::Options(const argv_t &argv)`; `m_tail` starts at
`m_argv.cbegin()`. -/
def Options.new (argv : List String) : Options :=
  { m_argv := argv, m_tail := 0, m_options := [] }

/-- The method `Options::AddOption` without its debug-only assertion: returns
the registry after the registration and the new definition. -/
def Options.AddOption {T : Type} [Converter T] (self : Options) (names : List String)
    (defaultArgument : T) (description : String) (count : Nat) (isFlag : Bool) :
    Options × OptionImpl T :=
  let created : OptionImpl T :=
    { m_names := names
      m_description := description
      m_defaultString := Converter.ToString defaultArgument
      m_count := count
      m_isFlag := isFlag
      m_matches := []
      m_parseErrors := []
      m_storage := []
      m_defaultArgument := defaultArgument }
  let option := created.ParseArguments self.m_argv
  let tail :=
    if option.m_matches.length > 0 then
      max (option.m_matches.getLastD 0 + 1) self.m_tail
    else self.m_tail
  ({ self with m_options := self.m_options ++ [option.toOption], m_tail := tail }, option)

/-- The call `deque::front()`: the first element, `none` on an empty deque
(where the source's behaviour is undefined). -/
def front {T : Type} (d : List T) := d.head?

/-- The method `Options::MakeOption<T>`. -/
def Options.MakeOption {T : Type} [Converter T] (self : Options) (names : List String)
    (defaultArgument : T) (description : String) :=
  let r := self.AddOption names defaultArgument description Option.Single false
  (r.1, front r.2.m_storage)

/-- The method `Options::MakeOptions<T>`; `dflt` is the value `T()`. -/
def Options.MakeOptions {T : Type} [Converter T] (self : Options) (names : List String)
    (dflt : T) (description : String) : Options × List T :=
  let r := self.AddOption names dflt description Option.Many false
  (r.1, r.2.m_storage)

/-- The method `Options::String`, defined by `DEFINE_OPTION_FUNC(string, String)`
(the trailing underscore keeps the type `String` visible inside `Options`). -/
def Options.String_ (self : Options) (names : List String) (defaultArgument : String)
    (description : String) :=
  self.MakeOption names defaultArgument description

/-- The method `Options::Strings`, defined by `DEFINE_OPTION_FUNC(string, String)`. -/
def Options.Strings (self : Options) (names : List String) (description : String) :
    Options × List String :=
  self.MakeOptions names "" description

/-- The method `Options::Flag`. -/
def Options.Flag (self : Options) (names : List String) (description : String) :=
  let r := self.AddOption names false description Option.Single true
  (r.1, front r.2.m_storage)

/-- The method `Options::Flags`. -/
def Options.Flags (self : Options) (names : List String) (description : String) :
    Options × List Bool :=
  let r := self.AddOption names false description Option.Many true
  (r.1, r.2.m_storage)

/-- The loop `while (currentName != end)` of `Options::HasDuplicateNames` over the
sorted names; the list is the range from `currentName` to `end` at the loop
head. The first argument bounds the number of iterations. Returns `hasDuplicates` and the text written. -/
def Options.HasDuplicateNames.loop (out : Bool) :
    Nat → List String → Bool → String → Bool × String
  | 0, _, hasDuplicates, text => (hasDuplicates, text)
  | _ + 1, [], hasDuplicates, text => (hasDuplicates, text)
  | _ + 1, [_], hasDuplicates, text => (hasDuplicates, text)
  | fuel + 1, prevName :: currentName :: rest, hasDuplicates, text =>
    if prevName = currentName then
      if out then
        Options.HasDuplicateNames.loop out fuel
          ((currentName :: rest).dropWhile (fun name => decide (name = prevName)))
          true (text ++ "Duplicate name: " ++ currentName ++ "\n")
      else (true, text)
    else
      Options.HasDuplicateNames.loop out fuel (currentName :: rest) hasDuplicates text

/-- The method `Options::HasDuplicateNames`. `std::sort` on strings orders them
by `operator<`, the lexicographic order of their characters. -/
def Options.HasDuplicateNames (self : Options) (out : Bool) : Bool × String :=
  let names := self.m_options.flatMap (fun option => option.m_names)
  let sorted := names.insertionSort (fun a b => a.data ≤ b.data)
  Options.HasDuplicateNames.loop out sorted.length sorted false ""

/-- The lambda `quotedArgument` of `Options::HasErrorMatches`. -/
def Options.HasErrorMatches.quotedArgument (argv : List String) (it : Nat) : String :=
  if it = argv.length then "<null>" else "'" ++ argv.getD it "" ++ "'"

/-- The text written by the lambda `commentSeparatedList` of
`Options::HasErrorMatches`. -/
def Options.HasErrorMatches.commentSeparatedList (argv : List String) :
    List Nat → String
  | [] => ""
  | first :: rest =>
    rest.foldl (fun s it => s ++ ", " ++ Options.HasErrorMatches.quotedArgument argv it)
      (Options.HasErrorMatches.quotedArgument argv first)

/-- The block "Check for errors" of the loop body of `Options::HasErrorMatches`:
returns `hasErrors`, the text written so far and whether the loop is left by
`break`. -/
def Options.HasErrorMatches.checkErrors (argv : List String) (out : Bool)
    (option : Option) (hasErrors : Bool) (text : String) : Bool × String × Bool :=
  if option.m_parseErrors ≠ [] then
    if !out then (true, text, true)
    else
      (true,
       text ++ "error matches for option '" ++ option.m_names.headD "" ++ "': "
         ++ Options.HasErrorMatches.commentSeparatedList argv option.m_parseErrors ++ "\n",
       false)
  else (hasErrors, text, false)

/-- The block "Check if only one is allowed" of the loop body of
`Options::HasErrorMatches`: returns `hasErrors`, the text written so far and
whether the loop is left by `break`. -/
def Options.HasErrorMatches.checkSingle (argv : List String) (out : Bool)
    (option : Option) (hasErrors : Bool) (text : String) : Bool × String × Bool :=
  if option.m_count = Option.Single ∧ option.m_matches.length > 1 then
    if !out then (true, text, true)
    else
      (true,
       text ++ "multiple matches for single option '" ++ option.m_names.headD "" ++ "'"
         ++ (if !option.m_isFlag then
               ": " ++ Options.HasErrorMatches.commentSeparatedList argv option.m_matches
             else "")
         ++ "\n",
       false)
  else (hasErrors, text, false)

/-- The block "Check if match has been used as a argument value": the loop
`for (auto match : option->m_matches)` pushing onto `allMatches`. -/
def Options.HasErrorMatches.pushMatches (option : Option) : List Nat → List Nat → List Nat
  | [], allMatches => allMatches
  | match_ :: rest, allMatches =>
    let pushed := if !option.m_isFlag then allMatches ++ [match_] else allMatches
    Options.HasErrorMatches.pushMatches option rest (pushed ++ [match_ - 1])

/-- The loop `for (const std::unique_ptr<Option> &option : m_options)` of
`Options::HasErrorMatches`, threading `hasErrors`, `allMatches` and the text
written. -/
def Options.HasErrorMatches.options (argv : List String) (out : Bool) :
    List Option → Bool → List Nat → String → Bool × List Nat × String
  | [], hasErrors, allMatches, text => (hasErrors, allMatches, text)
  | option :: rest, hasErrors, allMatches, text =>
    let c1 := Options.HasErrorMatches.checkErrors argv out option hasErrors text
    if c1.2.2 then (c1.1, allMatches, c1.2.1)
    else
      let c2 := Options.HasErrorMatches.checkSingle argv out option c1.1 c1.2.1
      if c2.2.2 then (c2.1, allMatches, c2.2.1)
      else
        Options.HasErrorMatches.options argv out rest c2.1
          (Options.HasErrorMatches.pushMatches option option.m_matches allMatches) c2.2.1

/-- The distance from the start of `l` to the first element that equals its
successor, `l.length` when there is none. -/
def adjacent_find.offset {α : Type} [DecidableEq α] : List α → Nat
  | [] => 0
  | [_] => 1
  | a :: b :: rest => if a = b then 0 else adjacent_find.offset (b :: rest) + 1

/-- The call `std::adjacent_find(first, l.cend())` on iterators into `l`. -/
def adjacent_find {α : Type} [DecidableEq α] (l : List α) (first : Nat) : Nat :=
  first + adjacent_find.offset (l.drop first)

/-- The loop `while (duplicateIt != allMatches.cend())` of
`Options::HasErrorMatches`. The first argument bounds the number of
iterations. With a sink the body reads `**duplicateIt`, the token at the
duplicated position `*duplicateIt`; at `m_argv.cend()` there is no token and
the behaviour of the source is undefined. Returns `hasErrors`, the text
written, and whether the loop stopped at such a read instead of running to its
end (the first two components are then the state before the statement that
reads). -/
def Options.HasErrorMatches.duplicates (argv : List String) (out : Bool)
    (allMatches : List Nat) : Nat → Nat → Bool → String → Bool × String × Bool
  | 0, _, hasErrors, text => (hasErrors, text, false)
  | fuel + 1, duplicateIt, hasErrors, text =>
    if duplicateIt = allMatches.length then (hasErrors, text, false)
    else if !out then (true, text, false)
    else if allMatches.getD duplicateIt 0 < argv.length then
      Options.HasErrorMatches.duplicates argv out allMatches fuel
        (adjacent_find allMatches (duplicateIt + 1)) true
        (text ++ "Name consumed as argument before: '"
          ++ argv.getD (allMatches.getD duplicateIt 0) "" ++ "'\n")
    else (true, text, true)

/-- The method `Options::HasErrorMatches`: the boolean `hasErrors`, the text
written to the sink, and whether the run stopped at the undefined read of the
loop over the duplicates. When the third component is `false` the method
returns the first; when it is `true` the method does not return, and the first
two components are the state at the read. -/
def Options.HasErrorMatches (self : Options) (out : Bool) : Bool × String × Bool :=
  let st := Options.HasErrorMatches.options self.m_argv out self.m_options false [] ""
  let allMatches := st.2.1.insertionSort (fun a b => a ≤ b)
  Options.HasErrorMatches.duplicates self.m_argv out allMatches (allMatches.length + 1)
    (adjacent_find allMatches 0) st.1 st.2.2

/-- The macro `assert(expression)` of `<cassert>`: it expands to nothing when
`NDEBUG` is defined (release build); otherwise (debug build) the program is
aborted when the expression is false. -/
def assert (NDEBUG : Bool) (expression : Bool) : Except String Unit :=
  if NDEBUG || expression then Except.ok () else Except.error "Assertion failed"

/-- The method `Options::AddOption` with its closing
`assert(!HasDuplicateNames())`; `NDEBUG` tells whether assertions are compiled
out. -/
def Options.AddOption.asserted {T : Type} [Converter T] (NDEBUG : Bool) (self : Options)
    (names : List String) (defaultArgument : T) (description : String) (count : Nat)
    (isFlag : Bool) : Except String (Options × OptionImpl T) :=
  let r := self.AddOption names defaultArgument description count isFlag
  match assert NDEBUG (!(r.1.HasDuplicateNames false).1) with
  | Except.error e => Except.error e
  | Except.ok _ => Except.ok r

/-- The inner loop `for (auto it = option->m_matches.cbegin(); ...)` of
`Options::HasConsistentTail`, pushing onto `allConsumed`. -/
def Options.HasConsistentTail.consume (NDEBUG : Bool) (argv : List String)
    (option : Option) : List Nat → List Nat → Except String (List Nat)
  | [], allConsumed => Except.ok allConsumed
  | it :: rest, allConsumed =>
    if !option.m_isFlag then
      match assert NDEBUG (decide (it ≠ argv.length)) with
      | Except.error e => Except.error e
      | Except.ok _ =>
        Options.HasConsistentTail.consume NDEBUG argv option rest
          (allConsumed ++ [it - 1] ++ [it])
    else
      Options.HasConsistentTail.consume NDEBUG argv option rest (allConsumed ++ [it - 1])

/-- The outer loop `for (const auto &option : m_options)` of
`Options::HasConsistentTail`. -/
def Options.HasConsistentTail.options (NDEBUG : Bool) (argv : List String) :
    List Option → List Nat → Except String (List Nat)
  | [], allConsumed => Except.ok allConsumed
  | option :: rest, allConsumed =>
    match Options.HasConsistentTail.consume NDEBUG argv option option.m_matches
        allConsumed with
    | Except.error e => Except.error e
    | Except.ok pushed => Options.HasConsistentTail.options NDEBUG argv rest pushed

/-- The idiom `c.erase(std::unique(c.begin(), c.end()), c.end())`: of every run
of equal consecutive elements one is kept. -/
def unique {α : Type} [DecidableEq α] : List α → List α
  | [] => []
  | [a] => [a]
  | a :: b :: rest => if a = b then unique (b :: rest) else a :: unique (b :: rest)

/-- The text written by the loop `while (nextArgv != *nextArg && nextArgv !=
m_argv.cend())` of `Options::HasConsistentTail`. -/
def Options.HasConsistentTail.unparsed (argv : List String) (nextArgv nextArg : Nat) :
    String :=
  ((List.range' nextArgv (argv.length - nextArgv)).takeWhile
      (fun i => decide (i ≠ nextArg))).foldl
    (fun text i => text ++ "unparsed argument '" ++ argv.getD i "" ++ "' before parsed '"
      ++ argv.getD nextArg "" ++ "'\n") ""

/-- The loop `for (; nextArg != end; ++nextArg, ++it)` of
`Options::HasConsistentTail`; the list is the range from `it` to `end`.
Returns `hasHoles` and the text written. -/
def Options.HasConsistentTail.loop (argv : List String) (out : Bool) :
    List Nat → Bool → String → Bool × String
  | [], hasHoles, text => (hasHoles, text)
  | [_], hasHoles, text => (hasHoles, text)
  | it :: nextArg :: rest, hasHoles, text =>
    let nextArgv := it + 1
    if nextArgv = argv.length then (hasHoles, text)
    else if nextArg ≠ nextArgv then
      if !out then (true, text)
      else
        Options.HasConsistentTail.loop argv out (nextArg :: rest) true
          (text ++ Options.HasConsistentTail.unparsed argv nextArgv nextArg)
    else Options.HasConsistentTail.loop argv out (nextArg :: rest) hasHoles text

/-- The method `Options::HasConsistentTail`: an abort on a failed assertion, or
the boolean returned and the text written to the sink. -/
def Options.HasConsistentTail (self : Options) (NDEBUG out : Bool) :
    Except String (Bool × String) :=
  match Options.HasConsistentTail.options NDEBUG self.m_argv self.m_options [] with
  | Except.error e => Except.error e
  | Except.ok allConsumed =>
    if allConsumed.length = 0 then Except.ok (true, "")
    else
      let sorted := unique (allConsumed.insertionSort (fun a b => a ≤ b))
      let r := Options.HasConsistentTail.loop self.m_argv out sorted false ""
      Except.ok (!r.1, r.2)

/-- The struct `Options::tail_t`: a pair of iterators into the token sequence. -/
structure Options.tail_t where
  m_cbegin : Nat
  m_cend : Nat
  deriving Repr, DecidableEq

/-- The method `Options::Tail`. -/
def Options.Tail (self : Options) : Options.tail_t :=
  { m_cbegin := self.m_tail, m_cend := self.m_argv.length }

/-- The call `std::regex_match(data, m, durationRe)` for the pattern
`(\d+)(d|h|m|s|ms|ns)`: whether the whole text matches, with the sub-matches
`m[1]` and `m[2]`. ECMAScript matching backtracks in priority order: the greedy
`\d+` first takes the whole run of leading digits and gives one digit back on
every backtrack (never its last), and after it one of the alternatives has to
be all that remains of the text. -/
def regex_match_duration (data : String) : Bool × String × String :=
  let run := (data.data.takeWhile Char.isDigit).length
  let found := ((List.range run).map (fun k => run - k)).find?
    (fun n => decide ((⟨data.data.drop n⟩ : String) ∈ ["d", "h", "m", "s", "ms", "ns"]))
  match found with
  | some n => (true, ⟨data.data.take n⟩, ⟨data.data.drop n⟩)
  | none => (false, "", "")

/-- The specialisation `OptionImpl<duration_t>::FromString`; `out` is the
content of the reference on entry. The `long double` arithmetic is a
parameter: `from_chars numbers` is the value `std::from_chars` stores for the
digits, and `seconds num den value` is the conversion of
`std::chrono::duration<long double, std::ratio<num, den>>(value)` to
`duration_t`, a `long double` number of seconds. -/
def durationFromString {LD : Type} (from_chars : String → LD)
    (seconds : Nat → Nat → LD → LD) (data : String) (out : LD) : Bool × LD :=
  let m := regex_match_duration data
  if !m.1 then (false, out)
  else
    let numbers := m.2.1
    let unit := m.2.2
    let value := from_chars numbers
    if unit = "d" then (true, seconds 86400 1 value)
    else if unit = "h" then (true, seconds 3600 1 value)
    else if unit = "m" then (true, seconds 60 1 value)
    else if unit = "s" then (true, seconds 1 1 value)
    else if unit = "ms" then (true, seconds 1 1000 value)
    else if unit = "ns" then (true, seconds 1 1000000000 value)
    else (false, out)

/-- The names of one definition as `Options::Description` writes them: the
first name, then every further name after `", "`. On an empty name list, where
the source reads `*nameIt` at the end of the list (undefined), nothing is
written. -/
def Options.Description.names : List String → String
  | [] => ""
  | first :: rest => rest.foldl (fun ss name => ss ++ ", " ++ name) first

/-- The text pushed onto `namesAndDefaults` for one definition by the first
loop of `Options::Description`. The second condition is the source's
`!option->m_isFlag == option->m_count == Option::Single`, which C++ reads as
`((!m_isFlag) == m_count) == Single` with the booleans converted to integers. -/
def Options.Description.namesAndDefaults (option : Option) : String :=
  let ss := Options.Description.names option.m_names
  let ss := if option.m_count > Option.Single then ss ++ " (...)" else ss
  if (decide ((!option.m_isFlag).toNat = option.m_count)).toNat = Option.Single then
    ss ++ " [=" ++ option.m_defaultString ++ "]"
  else ss

/-- The value `cmdName` of `Options::Description`: what follows the last `/`
or `\` of `m_argv[0]`, all of it when there is none. -/
def Options.Description.cmdName (argv0 : String) : String :=
  ⟨(argv0.data.reverse.takeWhile
      (fun c => decide (c ≠ Char.ofNat 47 ∧ c ≠ Char.ofNat 92))).reverse⟩

/-- The output of `ss << std::left << std::setw(width) << text`: the text
padded with blanks on the right up to `width` bytes. -/
def Options.Description.left (width : Nat) (text : String) : String :=
  text ++ ⟨List.replicate (width - text.utf8ByteSize) (Char.ofNat 32)⟩

/-- The second loop `for (const auto &option : m_options)` of
`Options::Description`; the second list is the range from `nameIt` on. -/
def Options.Description.lines (colWidth : Nat) : List Option → List String → String → String
  | option :: rest, name :: names, ss =>
    Options.Description.lines colWidth rest names
      (ss ++ Options.Description.left (colWidth + 4) name ++ option.m_description ++ "\n")
  | _, _, ss => ss

/-- The method `Options::Description`. Where the source's behaviour is
undefined the embedding takes a default: `m_argv[0]` is the empty text on an
empty token sequence, and `colWidth` is `0` on a registry without definitions
(the source reads the size at the end iterator `std::max_element` returns). -/
def Options.Description (self : Options) : String :=
  let namesAndDefaults := self.m_options.map Options.Description.namesAndDefaults
  let ss := "Usage '" ++ Options.Description.cmdName (self.m_argv.getD 0 "") ++ "' [options]\n"
  let colWidth := (namesAndDefaults.map String.utf8ByteSize).foldl max 0
  Options.Description.lines colWidth self.m_options namesAndDefaults ss

/-- The registries a program can build: the constructor followed by any number
of registrations (every public registration function is a call of
`AddOption`). -/
inductive Options.Reachable : Options → Prop
  | new (argv : List String) : Options.Reachable (Options.new argv)
  | AddOption {T : Type} [Converter T] (self : Options) (names : List String)
      (defaultArgument : T) (description : String) (count : Nat) (isFlag : Bool) :
      Options.Reachable self →
      Options.Reachable (self.AddOption names defaultArgument description count isFlag).1

/-! ## Auxiliary definitions used in the proofs -/

/-- Auxiliary for proofs: the one-pass scan of the tokens `ts` that start at
index `pos`, recording one past every token that is a name. -/
def scanFrom (names : List String) : List String → Nat → List Nat
  | [], _ => []
  | t :: ts, pos =>
    if t ∈ names then (pos + 1) :: scanFrom names ts (pos + 1)
    else scanFrom names ts (pos + 1)

/-- Auxiliary for proofs: the indices `p` with `1 ≤ p < N` whose token is one of
`names`, in increasing order. -/
def namePositions (argv names : List String) : List Nat :=
  (List.range argv.length).filter (fun p => decide (1 ≤ p ∧ argv.getD p "" ∈ names))

/-- Auxiliary for proofs: the positions one definition pushes onto `allMatches`
in `Options::HasErrorMatches`. -/
def claimed (o : Option) : List Nat :=
  o.m_matches.flatMap (fun m => if o.m_isFlag then [m - 1] else [m, m - 1])

/-- Auxiliary for proofs: the first two fault classes of
`Options::HasErrorMatches` for one definition. -/
def faulty (o : Option) : Prop :=
  o.m_parseErrors ≠ [] ∨ (o.m_count = Option.Single ∧ 1 < o.m_matches.length)

/-- Auxiliary for proofs: the value positions claimed by the value options. -/
def valuePositions (opts : List Option) : List Nat :=
  opts.flatMap (fun o => if o.m_isFlag then [] else o.m_matches)

/-- Auxiliary for proofs: the name positions claimed by all definitions. -/
def nameClaims (opts : List Option) : List Nat :=
  opts.flatMap (fun o => o.m_matches.map (fun m => m - 1))

/-- Auxiliary for proofs: the positions one definition pushes onto
`allConsumed` in `Options::HasConsistentTail`. -/
def consumed (o : Option) : List Nat :=
  o.m_matches.flatMap (fun m => if o.m_isFlag then [m - 1] else [m - 1, m])

/-- Auxiliary for proofs: every assertion `*it != m_argv.cend()` evaluated by
`Options::HasConsistentTail` holds. -/
def tailAsserted (argv : List String) (opts : List Option) : Prop :=
  ∀ o ∈ opts, o.m_isFlag = false → argv.length ∉ o.m_matches

/-- The tail cursor recomputed on demand from the finalized definitions: the
largest `last match position + 1` over the definitions that have at least one
match, and `0` (the start of the tokens) when there is none. -/
def recomputedTail (options : List Option) : Nat :=
  ((options.filter (fun option => decide (option.m_matches ≠ []))).map
    (fun option => option.m_matches.getLastD 0 + 1)).foldr max 0

/-- Auxiliary for proofs: registering a list of string value options in order.
Each is given by its names, whether it is multi-valued (registered with
`Options::Strings`) or not (registered with `Options::String`), its default
(read by `Options::String` only) and its description. -/
def registerStringOptions (self : Options) :
    List (List String × Bool × String × String) → Options
  | [] => self
  | d :: rest =>
    registerStringOptions
      (if d.2.1 then (self.Strings d.1 d.2.2.2).1 else (self.String_ d.1 d.2.2.1 d.2.2.2).1)
      rest

/-- Auxiliary for proofs: whether a list has two equal neighbours that are a
position `N` or beyond. -/
def pastEndPair (N : Nat) : List Nat → Bool
  | a :: b :: rest => (decide (a = b) && decide (N ≤ a)) || pastEndPair N (b :: rest)
  | _ => false

/-! ## Scanning: `Option::ParseMatches` -/

theorem scanFrom_findIdx_eq (names : List String) (l : List String) (pos : Nat)
    (h : l.findIdx (fun t => decide (t ∈ names)) = l.length) :
    scanFrom names l pos = [] := by
  induction l generalizing pos with
  | nil => rfl
  | cons t ts ih =>
    rw [List.findIdx_cons] at h
    by_cases ht : t ∈ names
    · simp [ht] at h
    · have h2 : ts.findIdx (fun t => decide (t ∈ names)) = ts.length := by
        simpa [ht] using h
      simp [scanFrom, ht, ih (pos + 1) h2]

theorem scanFrom_findIdx_lt (names : List String) (l : List String) (pos : Nat)
    (h : l.findIdx (fun t => decide (t ∈ names)) ≠ l.length) :
    scanFrom names l pos =
      (pos + l.findIdx (fun t => decide (t ∈ names)) + 1) ::
        scanFrom names (l.drop (l.findIdx (fun t => decide (t ∈ names)) + 1))
          (pos + l.findIdx (fun t => decide (t ∈ names)) + 1) := by
  induction l generalizing pos with
  | nil => simp at h
  | cons t ts ih =>
    rw [List.findIdx_cons] at h
    rw [List.findIdx_cons]
    by_cases ht : t ∈ names
    · simp [ht, scanFrom]
    · have h2 : ts.findIdx (fun t => decide (t ∈ names)) ≠ ts.length := by
        intro h3; apply h; simp only [ht, decide_False, cond_false, h3, List.length_cons]
      simp only [ht, decide_False, cond_false, scanFrom, if_false, List.drop_succ_cons]
      rw [ih (pos + 1) h2]
      simp only [Nat.add_assoc, Nat.add_comm 1]

theorem ParseMatches_loop_fuel (argv names : List String) (fuel m : Nat) (acc : List Nat)
    (hm : m ≤ argv.length) (hfuel : argv.length - m + 1 ≤ fuel) :
    Option.ParseMatches.loop argv names fuel m acc = acc ++ scanFrom names (argv.drop m) m := by
  induction fuel generalizing m acc with
  | zero => omega
  | succ fuel ih =>
    simp only [Option.ParseMatches.loop, find_first_of]
    have hlen : (argv.drop m).length = argv.length - m := by simp
    have hle : (argv.drop m).findIdx (fun t => decide (t ∈ names)) ≤ argv.length - m := by
      rw [← hlen]; exact List.findIdx_le_length _
    by_cases hfound : (argv.drop m).findIdx (fun t => decide (t ∈ names)) = (argv.drop m).length
    · rw [scanFrom_findIdx_eq names _ m hfound]
      have : m + (argv.drop m).findIdx (fun t => decide (t ∈ names)) = argv.length := by
        rw [hfound, hlen]; omega
      simp [this]
    · have hne : m + (argv.drop m).findIdx (fun t => decide (t ∈ names)) ≠ argv.length := by
        intro h; apply hfound; rw [hlen]; omega
      rw [if_neg hne, ih _ _ (by omega) (by omega), scanFrom_findIdx_lt names _ m hfound]
      simp [List.drop_drop, Nat.add_assoc, Nat.add_comm, Nat.add_left_comm]

theorem scanFrom_eq_range (names : List String) (l : List String) (pos : Nat) :
    scanFrom names l pos =
      ((List.range l.length).filter (fun i => decide (l.getD i "" ∈ names))).map
        (fun i => i + pos + 1) := by
  induction l generalizing pos with
  | nil => rfl
  | cons t ts ih =>
    simp only [scanFrom, List.length_cons, List.range_succ_eq_map, List.filter_cons,
      List.getD_cons_zero, List.filter_map, ih (pos + 1)]
    have hfun : ((fun i => decide ((t :: ts).getD i "" ∈ names)) ∘ Nat.succ) =
        (fun i => decide (ts.getD i "" ∈ names)) := by
      funext i; simp
    rw [hfun]
    by_cases ht : t ∈ names
    · simp [ht, List.map_map, Function.comp_def, Nat.add_assoc, Nat.add_comm, Nat.add_left_comm]
    · simp [ht, List.map_map, Function.comp_def, Nat.add_assoc, Nat.add_comm, Nat.add_left_comm]

theorem scanFrom_tail_eq (names : List String) (prog : String) (args : List String) :
    scanFrom names args 1 = (namePositions (prog :: args) names).map (fun p => p + 1) := by
  rw [scanFrom_eq_range]
  simp only [namePositions, List.length_cons, List.range_succ_eq_map, List.filter_cons,
    List.filter_map, List.map_map]
  have hfun : ((fun p => decide (1 ≤ p ∧ (prog :: args).getD p "" ∈ names)) ∘ Nat.succ) =
      (fun i => decide (args.getD i "" ∈ names)) := by
    funext i; simp
  rw [hfun]
  simp [Function.comp_def]

/-- The matches recorded by `Option::ParseMatches` on a non-empty token
sequence: one past every index `p ≥ 1` whose token is a name, in increasing
order, appended to what `m_matches` already held. -/
theorem ParseMatches_matches (o : Option) (argv : List String) (hN : argv ≠ []) :
    (o.ParseMatches argv).m_matches =
      o.m_matches ++ (namePositions argv o.m_names).map (fun p => p + 1) := by
  cases argv with
  | nil => exact absurd rfl hN
  | cons prog args =>
    simp only [Option.ParseMatches]
    rw [ParseMatches_loop_fuel _ _ _ _ _ (by simp) (by simp)]
    simp only [List.drop_succ_cons, List.drop_zero]
    rw [scanFrom_tail_eq]

theorem mem_namePositions (argv names : List String) (p : Nat) :
    p ∈ namePositions argv names ↔ 1 ≤ p ∧ p < argv.length ∧ argv.getD p "" ∈ names := by
  simp only [namePositions, List.mem_filter, List.mem_range, decide_eq_true_eq]
  tauto

theorem namePositions_sorted (argv names : List String) :
    (namePositions argv names).Sorted (fun a b => a < b) := by
  unfold namePositions
  exact (List.pairwise_lt_range _).sublist (List.filter_sublist _)

theorem namePositions_nodup (argv names : List String) :
    (namePositions argv names).Nodup :=
  (List.nodup_range _).sublist (List.filter_sublist _)

/-! ## Conversion: `OptionImpl<T>::ParseArguments` and `Options::AddOption` -/

theorem ParseArguments_loop_eq {T : Type} [Converter T] (argv : List String)
    (ms : List Nat) (st : List T) (er : List Nat) :
    OptionImpl.ParseArguments.loop argv ms st er =
      (st ++ (ms.filter (fun m => decide (m ≠ argv.length) &&
                (Converter.FromString (argv.getD m "") : Bool × T).1)).map
              (fun m => (Converter.FromString (argv.getD m "") : Bool × T).2),
       er ++ ms.filter (fun m => !(decide (m ≠ argv.length) &&
                (Converter.FromString (argv.getD m "") : Bool × T).1))) := by
  induction ms generalizing st er with
  | nil => simp [OptionImpl.ParseArguments.loop]
  | cons m rest ih =>
    simp only [OptionImpl.ParseArguments.loop, ih, List.filter_cons]
    by_cases hm : m = argv.length
    · simp [hm]
    · by_cases hok : (Converter.FromString (argv.getD m "") : Bool × T).1 = true
      · simp only [ne_eq, hm, not_false_eq_true, hok, if_true, decide_True, Bool.and_self,
          Bool.not_true, List.map_cons, List.append_assoc, List.singleton_append]
        simp
      · simp only [ne_eq, hm, not_false_eq_true, hok, if_true, if_false, decide_True,
          Bool.true_and, List.append_assoc, List.singleton_append]
        simp [hok]

theorem AddOption_matches {T : Type} [Converter T] (self : Options) (names : List String)
    (dflt : T) (description : String) (count : Nat) (isFlag : Bool)
    (hN : self.m_argv ≠ []) :
    (self.AddOption names dflt description count isFlag).2.m_matches =
      (namePositions self.m_argv names).map (fun p => p + 1) := by
  simp only [Options.AddOption, OptionImpl.ParseArguments]
  rw [ParseMatches_matches _ _ hN]
  simp

theorem AddOption_fields {T : Type} [Converter T] (self : Options) (names : List String)
    (dflt : T) (description : String) (count : Nat) (isFlag : Bool) :
    (self.AddOption names dflt description count isFlag).2.m_names = names ∧
    (self.AddOption names dflt description count isFlag).2.m_count = count ∧
    (self.AddOption names dflt description count isFlag).2.m_isFlag = isFlag ∧
    (self.AddOption names dflt description count isFlag).1.m_argv = self.m_argv ∧
    (self.AddOption names dflt description count isFlag).1.m_options =
      self.m_options ++ [(self.AddOption names dflt description count isFlag).2.toOption] := by
  simp [Options.AddOption, OptionImpl.ParseArguments, Option.ParseMatches]

theorem AddOption_value_storage {T : Type} [Converter T] (self : Options)
    (names : List String) (dflt : T) (description : String) (count : Nat) :
    (self.AddOption names dflt description count false).2.m_storage =
      (((self.AddOption names dflt description count false).2.m_matches.filter
          (fun m => decide (m ≠ self.m_argv.length) &&
            (Converter.FromString (self.m_argv.getD m "") : Bool × T).1)).map
        (fun m => (Converter.FromString (self.m_argv.getD m "") : Bool × T).2))
      ++ (if count = Option.Single then [dflt] else []) := by
  simp only [Options.AddOption, OptionImpl.ParseArguments, Option.ParseMatches,
    ParseArguments_loop_eq]
  by_cases hc : count = Option.Single <;> simp [hc]

theorem AddOption_value_parseErrors {T : Type} [Converter T] (self : Options)
    (names : List String) (dflt : T) (description : String) (count : Nat) :
    (self.AddOption names dflt description count false).2.m_parseErrors =
      (self.AddOption names dflt description count false).2.m_matches.filter
          (fun m => !(decide (m ≠ self.m_argv.length) &&
            (Converter.FromString (self.m_argv.getD m "") : Bool × T).1)) := by
  simp only [Options.AddOption, OptionImpl.ParseArguments, Option.ParseMatches,
    ParseArguments_loop_eq]
  simp

theorem AddOption_flag_storage {T : Type} [Converter T] (self : Options)
    (names : List String) (dflt : T) (description : String) (count : Nat) :
    (self.AddOption names dflt description count true).2.m_storage =
      List.replicate (self.AddOption names dflt description count true).2.m_matches.length
        (Converter.FlagMatchValue : T)
      ++ (if count = Option.Single then [dflt] else []) ∧
    (self.AddOption names dflt description count true).2.m_parseErrors = [] := by
  simp only [Options.AddOption, OptionImpl.ParseArguments, Option.ParseMatches]
  by_cases hc : count = Option.Single <;> simp [hc]

theorem mem_AddOption_matches {T : Type} [Converter T] (self : Options) (names : List String)
    (dflt : T) (description : String) (count : Nat) (isFlag : Bool)
    (hN : self.m_argv ≠ []) (m : Nat) :
    m ∈ (self.AddOption names dflt description count isFlag).2.m_matches ↔
      ∃ p, 1 ≤ p ∧ p < self.m_argv.length ∧ self.m_argv.getD p "" ∈ names ∧ m = p + 1 := by
  rw [AddOption_matches _ _ _ _ _ _ hN, List.mem_map]
  constructor
  · rintro ⟨p, hp, rfl⟩
    rw [mem_namePositions] at hp
    exact ⟨p, hp.1, hp.2.1, hp.2.2, rfl⟩
  · rintro ⟨p, h1, h2, h3, rfl⟩
    exact ⟨p, (mem_namePositions _ _ _).2 ⟨h1, h2, h3⟩, rfl⟩

/-! ## Claims about one definition -/

theorem AddOption_matches_le {T : Type} [Converter T] (self : Options) (names : List String)
    (dflt : T) (description : String) (count : Nat) (isFlag : Bool)
    (hN : self.m_argv ≠ []) (m : Nat)
    (hm : m ∈ (self.AddOption names dflt description count isFlag).2.m_matches) :
    2 ≤ m ∧ m ≤ self.m_argv.length := by
  obtain ⟨p, h1, h2, _, rfl⟩ := (mem_AddOption_matches self names dflt description count isFlag hN m).1 hm
  omega

theorem head?_map_append_singleton {α β : Type} (f : α → β) (l : List α) (d : β) :
    (l.map f ++ [d]).head? = some (match l.head? with | some a => f a | none => d) := by
  cases l <;> simp

/-- The result of registering a value option, in closed form. -/
theorem AddOption_value_result {T : Type} [Converter T] (self : Options)
    (names : List String) (dflt : T) (description : String) (count : Nat)
    (hN : 1 ≤ self.m_argv.length) :
    (self.AddOption names dflt description count false).2.m_matches =
      ((List.range self.m_argv.length).filter
        (fun p => decide (1 ≤ p ∧ self.m_argv.getD p "" ∈ names))).map (fun p => p + 1) ∧
    (self.AddOption names dflt description count false).2.m_storage =
      ((self.AddOption names dflt description count false).2.m_matches.filter
          (fun m => decide (m < self.m_argv.length) &&
            (Converter.FromString (self.m_argv.getD m "") : Bool × T).1)).map
        (fun m => (Converter.FromString (self.m_argv.getD m "") : Bool × T).2)
      ++ (if count = Option.Single then [dflt] else []) ∧
    (self.AddOption names dflt description count false).2.m_parseErrors =
      (self.AddOption names dflt description count false).2.m_matches.filter
          (fun m => decide (m = self.m_argv.length) ||
            !(Converter.FromString (self.m_argv.getD m "") : Bool × T).1) ∧
    (self.MakeOption names dflt description).2 =
      some (match (self.AddOption names dflt description Option.Single false).2.m_matches.find?
                (fun m => decide (m < self.m_argv.length) &&
                  (Converter.FromString (self.m_argv.getD m "") : Bool × T).1) with
            | some m => (Converter.FromString (self.m_argv.getD m "") : Bool × T).2
            | none => dflt) := by
  have hne : self.m_argv ≠ [] := by
    intro h; rw [h] at hN; simp at hN
  have hfilter : ∀ c : Nat,
      (self.AddOption names dflt description c false).2.m_matches.filter
          (fun m => decide (m ≠ self.m_argv.length) &&
            (Converter.FromString (self.m_argv.getD m "") : Bool × T).1) =
      (self.AddOption names dflt description c false).2.m_matches.filter
          (fun m => decide (m < self.m_argv.length) &&
            (Converter.FromString (self.m_argv.getD m "") : Bool × T).1) := by
    intro c
    apply List.filter_congr
    intro m hm
    have hle := (AddOption_matches_le self names dflt description c false hne m hm).2
    have : decide (m ≠ self.m_argv.length) = decide (m < self.m_argv.length) := by
      apply decide_eq_decide.2; omega
    rw [this]
  refine ⟨AddOption_matches self names dflt description count false hne, ?_, ?_, ?_⟩
  · rw [AddOption_value_storage, hfilter]
  · rw [AddOption_value_parseErrors]
    apply List.filter_congr
    intro m _
    by_cases h : m = self.m_argv.length <;> simp [h]
  · simp only [Options.MakeOption, front]
    rw [AddOption_value_storage, hfilter, if_pos rfl, head?_map_append_singleton,
      List.filter_head?]
    generalize List.find? _ _ = found
    cases found <;> rfl

/-- C1: for a value (non-flag) definition registered on a token sequence of
length `N ≥ 1`, the matches are one past every name index `p ≥ 1` in increasing
order; the result list is the converted values of the match positions `m < N`
whose token converts, in match order, followed by the default iff the arity is
`Single`; `parse_errors` is the match positions `m` with `m = N` or a failing
conversion, in match order; and `MakeOption` returns the first successfully
converted matched value when there is one and the default otherwise. -/
theorem C1_value_option_result {T : Type} [Converter T] (self : Options)
    (names : List String) (dflt : T) (description : String) (count : Nat)
    (hN : 1 ≤ self.m_argv.length) :
    (self.AddOption names dflt description count false).2.m_matches =
      ((List.range self.m_argv.length).filter
        (fun p => decide (1 ≤ p ∧ self.m_argv.getD p "" ∈ names))).map (fun p => p + 1) ∧
    (self.AddOption names dflt description count false).2.m_storage =
      ((self.AddOption names dflt description count false).2.m_matches.filter
          (fun m => decide (m < self.m_argv.length) &&
            (Converter.FromString (self.m_argv.getD m "") : Bool × T).1)).map
        (fun m => (Converter.FromString (self.m_argv.getD m "") : Bool × T).2)
      ++ (if count = Option.Single then [dflt] else []) ∧
    (self.AddOption names dflt description count false).2.m_parseErrors =
      (self.AddOption names dflt description count false).2.m_matches.filter
          (fun m => decide (m = self.m_argv.length) ||
            !(Converter.FromString (self.m_argv.getD m "") : Bool × T).1) ∧
    (self.MakeOption names dflt description).2 =
      some (match (self.AddOption names dflt description Option.Single false).2.m_matches.find?
                (fun m => decide (m < self.m_argv.length) &&
                  (Converter.FromString (self.m_argv.getD m "") : Bool × T).1) with
            | some m => (Converter.FromString (self.m_argv.getD m "") : Bool × T).2
            | none => dflt) :=
  AddOption_value_result self names dflt description count hN

/-- Witness of C1 on the test "Duplicate matches / Options". -/
theorem C1_value_option_result_witness :
    ((Options.new ["path/cmd", "-f", "-f", "-o", "x", "-o", "y", "-u"]).MakeOption
        ["-o"] "" "").2 = some "x" :=
  (C1_value_option_result (Options.new ["path/cmd", "-f", "-f", "-o", "x", "-o", "y", "-u"])
    ["-o"] "" "" Option.Single (by decide)).2.2.2

/-- C2 (as stated) fails: on `cmd -u` the `Single` string option `-u` with
default `foobar` has a match (position `2`, one past the final token) and its
result list is the default alone; and on `cmd -b maybe` the `Single` boolean
option `-b` with default `false` has a match at the token `maybe`, which does
not convert, and its result list is the default alone. -/
theorem C2_first_element_counterexample :
    (((Options.new ["cmd", "-u"]).AddOption ["-u"] "foobar" "" Option.Single false).2.m_matches
        = [2] ∧
      ((Options.new ["cmd", "-u"]).AddOption ["-u"] "foobar" "" Option.Single false).2.m_storage
        = ["foobar"]) ∧
    (((Options.new ["cmd", "-b", "maybe"]).AddOption ["-b"] false "" Option.Single false).2.m_matches
        = [2] ∧
      (Converter.FromString "maybe" : Bool × Bool) = (false, true) ∧
      ((Options.new ["cmd", "-b", "maybe"]).AddOption ["-b"] false "" Option.Single false).2.m_storage
        = [false]) := by
  decide

/-- C2 (amended): for a `Single` definition on a token sequence of length
`N ≥ 1`: with no match the result list is exactly the default; for a flag with a
match the first element is the flag-match value; for a value option the first
element is the converted value of the first match position `m < N` whose token
converts, when there is one, and the result list is exactly the default when
no match converts. -/
theorem C2_single_result_amended {T : Type} [Converter T] (self : Options)
    (names : List String) (dflt : T) (description : String) (isFlag : Bool)
    (hN : 1 ≤ self.m_argv.length) :
    ((self.AddOption names dflt description Option.Single isFlag).2.m_matches = [] →
      (self.AddOption names dflt description Option.Single isFlag).2.m_storage = [dflt]) ∧
    (isFlag = true →
      (self.AddOption names dflt description Option.Single isFlag).2.m_matches ≠ [] →
      (self.AddOption names dflt description Option.Single isFlag).2.m_storage.head? =
        some Converter.FlagMatchValue) ∧
    (isFlag = false → ∀ m,
      (self.AddOption names dflt description Option.Single isFlag).2.m_matches.find?
          (fun m => decide (m < self.m_argv.length) &&
            (Converter.FromString (self.m_argv.getD m "") : Bool × T).1) = some m →
      (self.AddOption names dflt description Option.Single isFlag).2.m_storage.head? =
        some (Converter.FromString (self.m_argv.getD m "") : Bool × T).2) ∧
    (isFlag = false →
      (self.AddOption names dflt description Option.Single isFlag).2.m_matches.find?
          (fun m => decide (m < self.m_argv.length) &&
            (Converter.FromString (self.m_argv.getD m "") : Bool × T).1) = none →
      (self.AddOption names dflt description Option.Single isFlag).2.m_storage = [dflt]) := by
  have hC1 := AddOption_value_result self names dflt description Option.Single hN
  refine ⟨?_, ?_, ?_, ?_⟩
  · intro hm
    cases isFlag with
    | true =>
      rw [(AddOption_flag_storage self names dflt description Option.Single).1, hm]
      simp
    | false =>
      rw [hC1.2.1, hm]
      simp
  · intro hf hm
    subst hf
    rw [(AddOption_flag_storage self names dflt description Option.Single).1]
    cases hms : (self.AddOption names dflt description Option.Single true).2.m_matches with
    | nil => exact absurd hms hm
    | cons a l => simp [List.replicate_succ]
  · intro hf m hfind
    subst hf
    rw [hC1.2.1, if_pos rfl, head?_map_append_singleton, List.filter_head?, hfind]
  · intro hf hfind
    subst hf
    rw [hC1.2.1, if_pos rfl]
    have : (self.AddOption names dflt description Option.Single false).2.m_matches.filter
          (fun m => decide (m < self.m_argv.length) &&
            (Converter.FromString (self.m_argv.getD m "") : Bool × T).1) = [] := by
      rw [List.filter_eq_nil_iff]
      intro a ha
      exact List.find?_eq_none.1 hfind a ha
    rw [this]
    rfl

/-- Witness of C2 (amended) on the test "Parse single strings". -/
theorem C2_single_result_amended_witness :
    ((Options.new ["path/cmd", "-f", "fn", "--alt", "fn2"]).AddOption
        ["-x", "--alt"] "yy" "yy" Option.Single false).2.m_storage.head? = some "fn2" :=
  (C2_single_result_amended (Options.new ["path/cmd", "-f", "fn", "--alt", "fn2"])
    ["-x", "--alt"] "yy" "yy" false (by decide)).2.2.1 rfl 4 (by decide)

/-- C3: on a token sequence of length `N ≥ 1` the list returned by `Strings` is
exactly the tokens `t[p+1]`, in increasing `p`, over the indices `p ≥ 1` with
`t[p]` one of the names and `p + 1 < N`; `prog -f a -f b` yields `[a, b]`. -/
theorem C3_strings_result (self : Options) (names : List String) (description : String)
    (hN : 1 ≤ self.m_argv.length) :
    (self.Strings names description).2 =
      ((List.range self.m_argv.length).filter
        (fun p => decide (1 ≤ p ∧ self.m_argv.getD p "" ∈ names ∧ p + 1 < self.m_argv.length))).map
        (fun p => self.m_argv.getD (p + 1) "") ∧
    ((Options.new ["prog", "-f", "a", "-f", "b"]).Strings ["-f"] "").2 = ["a", "b"] := by
  refine ⟨?_, by decide⟩
  have hC1 := AddOption_value_result self names "" description Option.Many hN
  simp only [Options.Strings, Options.MakeOptions]
  rw [hC1.2.1, hC1.1]
  have hMany : ¬ (Option.Many = Option.Single) := by decide
  rw [if_neg hMany, List.append_nil, List.filter_map, List.map_map, List.filter_filter]
  congr 1
  apply List.filter_congr
  intro p _
  simp only [Function.comp_apply, Converter.FromString, Bool.and_true]
  rw [Bool.eq_iff_iff]
  simp only [Bool.and_eq_true, decide_eq_true_eq]
  tauto

/-- Witness of C3 on the test "Parse multiple strings". -/
theorem C3_strings_result_witness :
    ((Options.new ["path/cmd", "-f", "fn", "-f", "fn2"]).Strings ["-f"] "xx").2
      = ["fn", "fn2"] :=
  (C3_strings_result (Options.new ["path/cmd", "-f", "fn", "-f", "fn2"]) ["-f"] "xx"
    (by decide)).1

theorem namePositions_ne_nil_iff (argv names : List String) :
    namePositions argv names ≠ [] ↔
      ∃ p, 1 ≤ p ∧ p < argv.length ∧ argv.getD p "" ∈ names := by
  constructor
  · intro h
    obtain ⟨p, hp⟩ := List.exists_mem_of_ne_nil _ h
    exact ⟨p, (mem_namePositions _ _ _).1 hp⟩
  · rintro ⟨p, hp⟩ h
    have := (mem_namePositions argv names p).2 hp
    rw [h] at this
    simp at this

/-- C4: for a flag definition on a token sequence of length `N ≥ 1`, exactly one
match is recorded per index `p` with `1 ≤ p < N` and `t[p]` one of the names
(the match positions are one past these indices, in increasing order), and
there are no parse errors; `Flags` returns one `true` per such index; `Flag`
returns `true` iff such an index exists and `false` otherwise. -/
theorem C4_flag_result (self : Options) (names : List String) (description : String)
    (count : Nat) (hN : 1 ≤ self.m_argv.length) :
    (self.AddOption names false description count true).2.m_matches =
      ((List.range self.m_argv.length).filter
        (fun p => decide (1 ≤ p ∧ self.m_argv.getD p "" ∈ names))).map (fun p => p + 1) ∧
    (self.AddOption names false description count true).2.m_parseErrors = [] ∧
    (self.Flags names description).2 =
      List.replicate ((List.range self.m_argv.length).filter
        (fun p => decide (1 ≤ p ∧ self.m_argv.getD p "" ∈ names))).length true ∧
    ((self.Flag names description).2 = some true ↔
      ∃ p, 1 ≤ p ∧ p < self.m_argv.length ∧ self.m_argv.getD p "" ∈ names) ∧
    ((self.Flag names description).2 = some false ↔
      ¬ ∃ p, 1 ≤ p ∧ p < self.m_argv.length ∧ self.m_argv.getD p "" ∈ names) := by
  have hne : self.m_argv ≠ [] := by
    intro h; rw [h] at hN; simp at hN
  have hMany : ¬ (Option.Many = Option.Single) := by decide
  have hflag : (self.Flag names description).2 =
      some (decide (namePositions self.m_argv names ≠ [])) := by
    simp only [Options.Flag, front]
    rw [(AddOption_flag_storage self names false description Option.Single).1,
      AddOption_matches _ _ _ _ _ _ hne, if_pos rfl]
    cases h : namePositions self.m_argv names with
    | nil => simp
    | cons a l => simp [List.replicate_succ, Converter.FlagMatchValue]
  refine ⟨AddOption_matches _ _ _ _ _ _ hne,
    (AddOption_flag_storage self names false description count).2, ?_, ?_, ?_⟩
  · simp only [Options.Flags]
    rw [(AddOption_flag_storage self names false description Option.Many).1,
      AddOption_matches _ _ _ _ _ _ hne, if_neg hMany]
    simp [namePositions, Converter.FlagMatchValue]
  · rw [hflag, ← namePositions_ne_nil_iff]
    simp
  · rw [hflag, ← namePositions_ne_nil_iff]
    simp

/-- Witness of C4 on the test "Parse flags". -/
theorem C4_flag_result_witness :
    ((Options.new ["path/cmd", "-f", "-v", "-v", "-v"]).Flags ["-v"] "flags").2
      = [true, true, true] :=
  (C4_flag_result (Options.new ["path/cmd", "-f", "-v", "-v", "-v"]) ["-v"] "flags"
    Option.Many (by decide)).2.2.1

/-- C5 (as stated) fails: on `cmd -o -o x` the definition `-o` records the
match positions `2` and `3`: the token at position `2`, the value position of
the first hit, is examined again and matched as a name. -/
theorem C5_cursor_counterexample :
    ((Options.new ["cmd", "-o", "-o", "x"]).AddOption ["-o"] "" "" Option.Many false).2.m_matches
      = [2, 3] ∧
    ¬ (∀ m ∈ ((Options.new ["cmd", "-o", "-o", "x"]).AddOption ["-o"] "" ""
                Option.Many false).2.m_matches,
        m + 1 ∉ ((Options.new ["cmd", "-o", "-o", "x"]).AddOption ["-o"] "" ""
                Option.Many false).2.m_matches) := by
  decide

/-- C5 (amended): in the scan of one definition on a token sequence of length
`N ≥ 1`, the match position `p + 1` is recorded for every index `p` with
`1 ≤ p < N` whose token is one of the names and for nothing else: the cursor
advances past `p` only, so the token at `p + 1` is examined as a name too, and
when `t[p]` and `t[p+1]` are both names both `p + 1` and `p + 2` are
recorded. -/
theorem C5_cursor_amended {T : Type} [Converter T] (self : Options) (names : List String)
    (dflt : T) (description : String) (count : Nat) (isFlag : Bool)
    (hN : 1 ≤ self.m_argv.length) :
    (∀ m, m ∈ (self.AddOption names dflt description count isFlag).2.m_matches ↔
      ∃ p, 1 ≤ p ∧ p < self.m_argv.length ∧ self.m_argv.getD p "" ∈ names ∧ m = p + 1) ∧
    (∀ p, 1 ≤ p → p + 1 < self.m_argv.length → self.m_argv.getD p "" ∈ names →
      self.m_argv.getD (p + 1) "" ∈ names →
      p + 1 ∈ (self.AddOption names dflt description count isFlag).2.m_matches ∧
      p + 2 ∈ (self.AddOption names dflt description count isFlag).2.m_matches) := by
  have hne : self.m_argv ≠ [] := by
    intro h; rw [h] at hN; simp at hN
  refine ⟨mem_AddOption_matches self names dflt description count isFlag hne, ?_⟩
  intro p h1 h2 h3 h4
  constructor
  · exact (mem_AddOption_matches self names dflt description count isFlag hne _).2
      ⟨p, h1, by omega, h3, rfl⟩
  · exact (mem_AddOption_matches self names dflt description count isFlag hne _).2
      ⟨p + 1, by omega, h2, h4, rfl⟩

/-- Witness of C5 (amended) on `cmd -o -o x`. -/
theorem C5_cursor_amended_witness :
    2 ∈ ((Options.new ["cmd", "-o", "-o", "x"]).AddOption ["-o"] "" "" Option.Many
          false).2.m_matches ∧
    3 ∈ ((Options.new ["cmd", "-o", "-o", "x"]).AddOption ["-o"] "" "" Option.Many
          false).2.m_matches :=
  (C5_cursor_amended (Options.new ["cmd", "-o", "-o", "x"]) ["-o"] "" "" Option.Many false
    (by decide)).2 1 (by decide) (by decide) (by decide) (by decide)

/-- C6: the token at index `0` is never matched: every recorded match position
is at least `2`, and replacing `t[0]` by any other string leaves the
definition (its matches, parse errors and result list) unchanged. -/
theorem C6_program_name_ignored {T : Type} [Converter T] (prog other : String)
    (args : List String) (tail : Nat) (options : List Option) (names : List String)
    (dflt : T) (description : String) (count : Nat) (isFlag : Bool) :
    (∀ m ∈ ((Options.mk (prog :: args) tail options).AddOption names dflt description count
              isFlag).2.m_matches, 2 ≤ m) ∧
    ((Options.mk (other :: args) tail options).AddOption names dflt description count
        isFlag).2.m_matches =
      ((Options.mk (prog :: args) tail options).AddOption names dflt description count
        isFlag).2.m_matches ∧
    ((Options.mk (other :: args) tail options).AddOption names dflt description count
        isFlag).2.m_parseErrors =
      ((Options.mk (prog :: args) tail options).AddOption names dflt description count
        isFlag).2.m_parseErrors ∧
    ((Options.mk (other :: args) tail options).AddOption names dflt description count
        isFlag).2.m_storage =
      ((Options.mk (prog :: args) tail options).AddOption names dflt description count
        isFlag).2.m_storage := by
  have hm : ∀ s : String,
      ((Options.mk (s :: args) tail options).AddOption names dflt description count
        isFlag).2.m_matches = scanFrom names args 1 := by
    intro s
    rw [AddOption_matches _ _ _ _ _ _ (by simp), scanFrom_tail_eq names s args]
  have hge : ∀ m ∈ scanFrom names args 1, 2 ≤ m := by
    intro m hmem
    rw [scanFrom_tail_eq names prog args, List.mem_map] at hmem
    obtain ⟨p, hp, rfl⟩ := hmem
    have := ((mem_namePositions _ _ _).1 hp).1
    omega
  have hfilter : ∀ s : String, ∀ l : List Nat, (∀ m ∈ l, 2 ≤ m) →
      l.filter (fun m => decide (m ≠ (s :: args).length) &&
            (Converter.FromString ((s :: args).getD m "") : Bool × T).1) =
      l.filter (fun m => decide (m ≠ args.length + 1) &&
            (Converter.FromString (args.getD (m - 1) "") : Bool × T).1) := by
    intro s l hl
    apply List.filter_congr
    intro m hmem
    obtain ⟨k, rfl⟩ : ∃ k, m = k + 1 := ⟨m - 1, by have := hl m hmem; omega⟩
    simp
  have hmap : ∀ s : String, ∀ l : List Nat, (∀ m ∈ l, 2 ≤ m) →
      l.map (fun m => (Converter.FromString ((s :: args).getD m "") : Bool × T).2) =
      l.map (fun m => (Converter.FromString (args.getD (m - 1) "") : Bool × T).2) := by
    intro s l hl
    apply List.map_congr_left
    intro m hmem
    obtain ⟨k, rfl⟩ : ∃ k, m = k + 1 := ⟨m - 1, by have := hl m hmem; omega⟩
    simp
  refine ⟨?_, ?_, ?_, ?_⟩
  · intro m hmem
    rw [hm] at hmem
    exact hge m hmem
  · rw [hm, hm]
  · cases isFlag with
    | true =>
      rw [(AddOption_flag_storage _ _ _ _ _).2, (AddOption_flag_storage _ _ _ _ _).2]
    | false =>
      rw [AddOption_value_parseErrors, AddOption_value_parseErrors, hm, hm]
      simp only [Bool.not_and]
      apply List.filter_congr
      intro m hmem
      obtain ⟨k, rfl⟩ : ∃ k, m = k + 1 := ⟨m - 1, by have := hge m hmem; omega⟩
      simp
  · cases isFlag with
    | true =>
      rw [(AddOption_flag_storage _ _ _ _ _).1, (AddOption_flag_storage _ _ _ _ _).1, hm, hm]
    | false =>
      rw [AddOption_value_storage, AddOption_value_storage, hm, hm]
      show (List.filter (fun m => decide (m ≠ (other :: args).length) && _) _).map _ ++ _ =
        (List.filter (fun m => decide (m ≠ (prog :: args).length) && _) _).map _ ++ _
      rw [hfilter other _ hge, hfilter prog _ hge,
        hmap other _ (fun m h => hge m (List.mem_of_mem_filter h)),
        hmap prog _ (fun m h => hge m (List.mem_of_mem_filter h))]

/-! ## `Options::HasErrorMatches` -/

theorem pushMatches_eq (o : Option) (ms acc : List Nat) :
    Options.HasErrorMatches.pushMatches o ms acc =
      acc ++ ms.flatMap (fun m => if o.m_isFlag then [m - 1] else [m, m - 1]) := by
  induction ms generalizing acc with
  | nil => simp [Options.HasErrorMatches.pushMatches]
  | cons m rest ih =>
    simp only [Options.HasErrorMatches.pushMatches, ih, List.flatMap_cons]
    cases o.m_isFlag <;> simp

theorem options_loop_true (argv : List String) (out : Bool) (opts : List Option)
    (all : List Nat) (text : String) :
    (Options.HasErrorMatches.options argv out opts true all text).1 = true := by
  induction opts generalizing all text with
  | nil => rfl
  | cons o rest ih =>
    simp only [Options.HasErrorMatches.options, Options.HasErrorMatches.checkErrors,
      Options.HasErrorMatches.checkSingle]
    split_ifs <;> simp_all

theorem options_loop_faulty (argv : List String) (out : Bool) (opts : List Option)
    (h : Bool) (all : List Nat) (text : String) (hf : ∃ o ∈ opts, faulty o) :
    (Options.HasErrorMatches.options argv out opts h all text).1 = true := by
  induction opts generalizing h all text with
  | nil => simp at hf
  | cons o rest ih =>
    by_cases ho : faulty o
    · simp only [Options.HasErrorMatches.options, Options.HasErrorMatches.checkErrors,
        Options.HasErrorMatches.checkSingle]
      unfold faulty at ho
      split_ifs <;> simp_all [options_loop_true]
    · have hrest : ∃ o ∈ rest, faulty o := by
        obtain ⟨a, ha, hfa⟩ := hf
        rcases List.mem_cons.1 ha with rfl | ha
        · exact absurd hfa ho
        · exact ⟨a, ha, hfa⟩
      unfold faulty at ho
      push_neg at ho
      have h2 : ¬ (o.m_count = Option.Single ∧ o.m_matches.length > 1) := by
        rintro ⟨ha, hb⟩
        have := ho.2 ha
        omega
      simp only [Options.HasErrorMatches.options, Options.HasErrorMatches.checkErrors,
        Options.HasErrorMatches.checkSingle, ho.1, h2, ne_eq, not_true_eq_false, if_false]
      exact ih _ _ _ hrest

theorem options_loop_clean (argv : List String) (out : Bool) (opts : List Option)
    (h : Bool) (all : List Nat) (text : String) (hf : ∀ o ∈ opts, ¬ faulty o) :
    Options.HasErrorMatches.options argv out opts h all text =
      (h, all ++ opts.flatMap claimed, text) := by
  induction opts generalizing h all text with
  | nil => simp [Options.HasErrorMatches.options]
  | cons o rest ih =>
    have ho := hf o (List.mem_cons_self _ _)
    unfold faulty at ho
    push_neg at ho
    have h1 : o.m_parseErrors = [] := ho.1
    have h2 : ¬ (o.m_count = Option.Single ∧ o.m_matches.length > 1) := by
      rintro ⟨ha, hb⟩
      have := ho.2 ha
      omega
    simp only [Options.HasErrorMatches.options, Options.HasErrorMatches.checkErrors,
      Options.HasErrorMatches.checkSingle, h1, h2, ne_eq, not_true_eq_false, if_false]
    rw [ih _ _ _ (fun a ha => hf a (List.mem_cons_of_mem _ ha)), pushMatches_eq]
    simp [claimed]

theorem duplicates_true (argv : List String) (out : Bool) (L : List Nat) (fuel it : Nat)
    (text : String) :
    (Options.HasErrorMatches.duplicates argv out L fuel it true text).1 = true := by
  induction fuel generalizing it text with
  | zero => rfl
  | succ fuel ih =>
    simp only [Options.HasErrorMatches.duplicates]
    split_ifs <;> simp_all

theorem duplicates_eq (argv : List String) (out : Bool) (L : List Nat) (fuel it : Nat)
    (h : Bool) (text : String) :
    (Options.HasErrorMatches.duplicates argv out L (fuel + 1) it h text).1 =
      (h || decide (it ≠ L.length)) := by
  simp only [Options.HasErrorMatches.duplicates]
  split_ifs <;> simp_all [duplicates_true]

theorem adjacent_find_offset_eq {α : Type} [DecidableEq α] (l : List α) :
    adjacent_find.offset l = l.length ↔ l.Chain' (fun a b => a ≠ b) := by
  induction l with
  | nil => simp [adjacent_find.offset]
  | cons a rest ih =>
    cases rest with
    | nil => simp [adjacent_find.offset]
    | cons b rest =>
      simp only [adjacent_find.offset, List.chain'_cons, List.length_cons]
      by_cases hab : a = b
      · simp [hab]
      · simp only [hab, if_false, ne_eq, not_false_eq_true, true_and]
        rw [← ih]
        simp

theorem adjacent_find_zero {α : Type} [DecidableEq α] (l : List α) :
    adjacent_find l 0 = l.length ↔ l.Chain' (fun a b => a ≠ b) := by
  simp [adjacent_find, adjacent_find_offset_eq]

theorem nodup_of_sorted_chain_ne {α : Type} (r : α → α → Prop)
    (hanti : ∀ a b, r a b → r b a → a = b) (l : List α) (hs : l.Pairwise r)
    (hc : l.Chain' (fun a b => a ≠ b)) : l.Nodup := by
  induction l with
  | nil => exact List.nodup_nil
  | cons a rest ih =>
    rw [List.nodup_cons]
    refine ⟨?_, ih (List.Pairwise.of_cons hs) hc.tail⟩
    cases rest with
    | nil => simp
    | cons b rest =>
      intro hmem
      have hab : a ≠ b := hc.rel_head
      have hrab : r a b := List.rel_of_pairwise_cons hs (List.mem_cons_self _ _)
      rcases List.mem_cons.1 hmem with h | h
      · exact hab h
      · have hrba : r b a := List.rel_of_pairwise_cons (List.Pairwise.of_cons hs) h
        exact hab (hanti a b hrab hrba)

theorem chain_ne_iff_nodup_of_sorted (l : List Nat) (hs : l.Sorted (fun a b => a ≤ b)) :
    l.Chain' (fun a b => a ≠ b) ↔ l.Nodup :=
  ⟨nodup_of_sorted_chain_ne (fun a b => a ≤ b) (fun _ _ h1 h2 => Nat.le_antisymm h1 h2) l hs,
    fun hn => List.Pairwise.chain' hn⟩

/-- The boolean of `Options::HasErrorMatches`, with or without a sink: some
definition has a parse error, or some `Single` definition has more than one
match, or the positions pushed onto `allMatches` contain a duplicate. -/
theorem HasErrorMatches_iff (r : Options) (out : Bool) :
    (r.HasErrorMatches out).1 = true ↔
      (∃ o ∈ r.m_options, faulty o) ∨ ¬ (r.m_options.flatMap claimed).Nodup := by
  by_cases hf : ∃ o ∈ r.m_options, faulty o
  · simp only [hf, true_or, iff_true]
    simp only [Options.HasErrorMatches]
    rw [duplicates_eq, options_loop_faulty _ _ _ _ _ _ hf]
    rfl
  · simp only [hf, false_or]
    have hclean : ∀ o ∈ r.m_options, ¬ faulty o := fun o ho hfo => hf ⟨o, ho, hfo⟩
    simp only [Options.HasErrorMatches]
    rw [duplicates_eq, options_loop_clean _ _ _ _ _ _ hclean]
    simp only [List.nil_append, Bool.false_or, decide_eq_true_eq, ne_eq]
    rw [adjacent_find_zero, chain_ne_iff_nodup_of_sorted _ (List.sorted_insertionSort _ _),
      (List.perm_insertionSort _ _).nodup_iff]

theorem claimed_perm (o : Option) :
    (claimed o).Perm ((if o.m_isFlag then [] else o.m_matches) ++
      o.m_matches.map (fun m => m - 1)) := by
  unfold claimed
  cases o.m_isFlag with
  | true =>
    simp only [if_true, List.nil_append]
    induction o.m_matches with
    | nil => simp
    | cons m rest ih => simpa using ih
  | false =>
    simp only [Bool.false_eq_true, if_false]
    induction o.m_matches with
    | nil => simp
    | cons m rest ih =>
      simp only [List.flatMap_cons, List.map_cons, List.cons_append, List.nil_append]
      refine List.Perm.cons m ?_
      exact (List.Perm.cons (m - 1) ih).trans List.perm_middle.symm

theorem allClaimed_perm (opts : List Option) :
    (opts.flatMap claimed).Perm (valuePositions opts ++ nameClaims opts) := by
  induction opts with
  | nil => simp [valuePositions, nameClaims]
  | cons o rest ih =>
    simp only [List.flatMap_cons, valuePositions, nameClaims] at ih ⊢
    refine ((claimed_perm o).append ih).trans ?_
    simp only [List.append_assoc]
    refine List.Perm.append_left _ ?_
    simp only [← List.append_assoc]
    refine List.Perm.append_right _ ?_
    exact List.perm_append_comm

theorem Reachable_matches (r : Options) (hr : r.Reachable) (hN : r.m_argv ≠ []) :
    ∀ o ∈ r.m_options,
      o.m_matches = (namePositions r.m_argv o.m_names).map (fun p => p + 1) := by
  induction hr with
  | new argv => intro o ho; simp [Options.new] at ho
  | AddOption self names dflt description count isFlag _ ih =>
    obtain ⟨hnames, _, _, hargv, hopts⟩ :=
      AddOption_fields self names dflt description count isFlag
    rw [hargv] at hN ⊢
    intro o ho
    rw [hopts, List.mem_append, List.mem_singleton] at ho
    rcases ho with ho | rfl
    · exact ih hN o ho
    · rw [AddOption_matches _ _ _ _ _ _ hN, hnames]

theorem Reachable_mem_matches (r : Options) (hr : r.Reachable) (o : Option)
    (ho : o ∈ r.m_options) (p : Nat) (h1 : 1 ≤ p) (h2 : p < r.m_argv.length)
    (h3 : r.m_argv.getD p "" ∈ o.m_names) : p + 1 ∈ o.m_matches := by
  have hN : r.m_argv ≠ [] := by
    intro h; rw [h] at h2; simp at h2
  rw [Reachable_matches r hr hN o ho, List.mem_map]
  exact ⟨p, (mem_namePositions _ _ _).2 ⟨h1, h2, h3⟩, rfl⟩

theorem AddOption_matches_sorted {T : Type} [Converter T] (self : Options)
    (names : List String) (dflt : T) (description : String) (count : Nat) (isFlag : Bool)
    (hN : self.m_argv ≠ []) :
    (self.AddOption names dflt description count isFlag).2.m_matches.Pairwise
      (fun a b => a < b) := by
  rw [AddOption_matches _ _ _ _ _ _ hN, List.pairwise_map]
  exact (namePositions_sorted _ _).imp (fun h => Nat.add_lt_add_right h 1)

theorem HasDuplicateNames_loop_true (out : Bool) (fuel : Nat) (l : List String)
    (text : String) :
    (Options.HasDuplicateNames.loop out fuel l true text).1 = true := by
  induction fuel generalizing l text with
  | zero => rfl
  | succ fuel ih =>
    match l with
    | [] => rfl
    | [_] => rfl
    | a :: b :: rest =>
      simp only [Options.HasDuplicateNames.loop]
      split_ifs <;> simp_all

theorem HasDuplicateNames_loop_false (out : Bool) (fuel : Nat) (l : List String)
    (text : String) (hfuel : l.length ≤ fuel) :
    (Options.HasDuplicateNames.loop out fuel l false text).1 = false ↔
      l.Chain' (fun a b => a ≠ b) := by
  induction fuel generalizing l text with
  | zero =>
    have : l = [] := List.length_eq_zero.1 (Nat.le_zero.1 hfuel)
    subst this
    simp [Options.HasDuplicateNames.loop]
  | succ fuel ih =>
    match l with
    | [] => simp [Options.HasDuplicateNames.loop]
    | [_] => simp [Options.HasDuplicateNames.loop]
    | a :: b :: rest =>
      simp only [Options.HasDuplicateNames.loop, List.chain'_cons]
      by_cases hab : a = b
      · simp only [hab, if_true, ne_eq, not_true_eq_false, false_and, iff_false]
        cases out <;> simp [HasDuplicateNames_loop_true]
      · simp only [hab, if_false, ne_eq, not_false_eq_true, true_and]
        exact ih (b :: rest) text (by simpa using hfuel)

theorem names_sorted (l : List String) :
    (l.insertionSort (fun a b => a.data ≤ b.data)).Pairwise (fun a b => a.data ≤ b.data) :=
  @List.sorted_insertionSort String (fun a b => a.data ≤ b.data) _
    ⟨fun a b => le_total a.data b.data⟩ ⟨fun _ _ _ h1 h2 => le_trans h1 h2⟩ l

/-- The boolean of `Options::HasDuplicateNames`, with or without a sink: it is
false exactly when the concatenation of the name lists of all registered
definitions has no repeated string. -/
theorem HasDuplicateNames_false_iff (r : Options) (out : Bool) :
    (r.HasDuplicateNames out).1 = false ↔
      (r.m_options.flatMap (fun option => option.m_names)).Nodup := by
  simp only [Options.HasDuplicateNames]
  rw [HasDuplicateNames_loop_false _ _ _ _ (le_refl _),
    ← (List.perm_insertionSort (fun a b : String => a.data ≤ b.data) _).nodup_iff]
  constructor
  · intro hc
    exact nodup_of_sorted_chain_ne (fun a b : String => a.data ≤ b.data)
      (fun a b h1 h2 => String.ext (le_antisymm h1 h2)) _ (names_sorted _) hc
  · intro hn
    exact List.Pairwise.chain' hn

/-! ## The three fault classes of `Options::HasErrorMatches` -/

theorem Reachable_match_name (r : Options) (hr : r.Reachable) (hN : r.m_argv ≠ [])
    (o : Option) (ho : o ∈ r.m_options) (m : Nat) (hm : m ∈ o.m_matches) :
    1 ≤ m ∧ r.m_argv.getD (m - 1) "" ∈ o.m_names := by
  rw [Reachable_matches r hr hN o ho, List.mem_map] at hm
  obtain ⟨p, hp, rfl⟩ := hm
  exact ⟨by omega, ((mem_namePositions _ _ _).1 hp).2.2⟩

theorem Reachable_matches_nodup (r : Options) (hr : r.Reachable) (hN : r.m_argv ≠ [])
    (o : Option) (ho : o ∈ r.m_options) : o.m_matches.Nodup := by
  rw [Reachable_matches r hr hN o ho]
  exact (namePositions_nodup _ _).map (fun a b h => Nat.add_right_cancel h)

theorem Reachable_nameClaims_nodup (r : Options) (hr : r.Reachable) (hN : r.m_argv ≠ [])
    (hnames : (r.m_options.flatMap (fun option => option.m_names)).Nodup) :
    (nameClaims r.m_options).Nodup := by
  unfold nameClaims
  rw [List.nodup_flatMap] at hnames ⊢
  constructor
  · intro o ho
    rw [Reachable_matches r hr hN o ho, List.map_map]
    have : ((fun m => m - 1) ∘ fun p => p + 1) = id := by
      funext p; simp
    rw [this, List.map_id]
    exact namePositions_nodup _ _
  · refine hnames.2.imp_of_mem ?_
    intro a b ha hb hdis x hxa hxb
    rw [List.mem_map] at hxa hxb
    obtain ⟨m, hm, rfl⟩ := hxa
    obtain ⟨m', hm', heq⟩ := hxb
    have h1 := (Reachable_match_name r hr hN a ha m hm).2
    have h2 := (Reachable_match_name r hr hN b hb m' hm').2
    rw [heq] at h2
    exact hdis h1 h2

theorem Reachable_valuePositions_nodup (r : Options) (hr : r.Reachable)
    (hN : r.m_argv ≠ [])
    (hnames : (r.m_options.flatMap (fun option => option.m_names)).Nodup) :
    (valuePositions r.m_options).Nodup := by
  unfold valuePositions
  rw [List.nodup_flatMap] at hnames ⊢
  constructor
  · intro o ho
    split_ifs
    · exact List.nodup_nil
    · exact Reachable_matches_nodup r hr hN o ho
  · refine hnames.2.imp_of_mem ?_
    intro a b ha hb hdis x hxa hxb
    have hxa' : x ∈ a.m_matches := by
      by_cases hf : a.m_isFlag = true
      · simp [hf] at hxa
      · simpa [hf] using hxa
    have hxb' : x ∈ b.m_matches := by
      by_cases hf : b.m_isFlag = true
      · simp [hf] at hxb
      · simpa [hf] using hxb
    exact hdis (Reachable_match_name r hr hN a ha x hxa').2
      (Reachable_match_name r hr hN b hb x hxb').2

/-- C10: for a registry built by registrations on a token sequence of length
`N ≥ 1` in which `HasDuplicateNames` is false, `HasErrorMatches` is true (with
or without a sink) iff (1) some definition has a non-empty `parse_errors`, or
(2) some `Single` definition has more than one match, or (3) some position is
the value position of a value-option match and also the name position (one
before the match position) of some match. -/
theorem C10_error_matches_iff (r : Options) (hr : r.Reachable)
    (hN : 1 ≤ r.m_argv.length) (out sink : Bool)
    (hdup : (r.HasDuplicateNames sink).1 = false) :
    (r.HasErrorMatches out).1 = true ↔
      (∃ o ∈ r.m_options, o.m_parseErrors ≠ []) ∨
      (∃ o ∈ r.m_options, o.m_count = Option.Single ∧ 1 < o.m_matches.length) ∨
      (∃ pos, (∃ a ∈ r.m_options, a.m_isFlag = false ∧ pos ∈ a.m_matches) ∧
        (∃ b ∈ r.m_options, ∃ m ∈ b.m_matches, pos = m - 1)) := by
  have hne : r.m_argv ≠ [] := by
    intro h; rw [h] at hN; simp at hN
  have hnames := (HasDuplicateNames_false_iff r sink).1 hdup
  have hV := Reachable_valuePositions_nodup r hr hne hnames
  have hNm := Reachable_nameClaims_nodup r hr hne hnames
  have h3 : ¬ (r.m_options.flatMap claimed).Nodup ↔
      (∃ pos, (∃ a ∈ r.m_options, a.m_isFlag = false ∧ pos ∈ a.m_matches) ∧
        (∃ b ∈ r.m_options, ∃ m ∈ b.m_matches, pos = m - 1)) := by
    rw [(allClaimed_perm r.m_options).nodup_iff, List.nodup_append]
    constructor
    · intro h
      have hnd : ∃ pos, pos ∈ valuePositions r.m_options ∧ pos ∈ nameClaims r.m_options := by
        by_contra hcon
        push_neg at hcon
        exact h ⟨hV, hNm, fun x hx hx2 => hcon x hx hx2⟩
      obtain ⟨pos, hv, hn⟩ := hnd
      refine ⟨pos, ?_, ?_⟩
      · simp only [valuePositions, List.mem_flatMap] at hv
        obtain ⟨a, ha, hpa⟩ := hv
        by_cases hf : a.m_isFlag = true
        · simp [hf] at hpa
        · exact ⟨a, ha, by simpa using hf, by simpa [hf] using hpa⟩
      · simp only [nameClaims, List.mem_flatMap, List.mem_map] at hn
        obtain ⟨b, hb, m, hm, rfl⟩ := hn
        exact ⟨b, hb, m, hm, rfl⟩
    · rintro ⟨pos, ⟨a, ha, hf, hpa⟩, ⟨b, hb, m, hm, rfl⟩⟩ hnd
      have hv : m - 1 ∈ valuePositions r.m_options := by
        simp only [valuePositions, List.mem_flatMap]
        exact ⟨a, ha, by simp [hf, hpa]⟩
      have hn : m - 1 ∈ nameClaims r.m_options := by
        simp only [nameClaims, List.mem_flatMap, List.mem_map]
        exact ⟨b, hb, m, hm, rfl⟩
      exact hnd.2.2 hv hn
  rw [HasErrorMatches_iff, h3]
  constructor
  · rintro (⟨o, ho, hf | hf⟩ | h)
    · exact Or.inl ⟨o, ho, hf⟩
    · exact Or.inr (Or.inl ⟨o, ho, hf⟩)
    · exact Or.inr (Or.inr h)
  · rintro (⟨o, ho, hf⟩ | ⟨o, ho, hf⟩ | h)
    · exact Or.inl ⟨o, ho, Or.inl hf⟩
    · exact Or.inl ⟨o, ho, Or.inr hf⟩
    · exact Or.inr h

/-- Witness of C10 on `cmd -f x -g y` with the string options `-f` and `-g`:
no duplicate names, none of the three faults, and `HasErrorMatches` is false. -/
theorem C10_error_matches_iff_witness :
    ((((Options.new ["cmd", "-f", "x", "-g", "y"]).String_ ["-f"] "" "").1.String_
        ["-g"] "" "").1.HasErrorMatches true).1 = true ↔
      (∃ o ∈ (((Options.new ["cmd", "-f", "x", "-g", "y"]).String_ ["-f"] "" "").1.String_
          ["-g"] "" "").1.m_options, o.m_parseErrors ≠ []) ∨
      (∃ o ∈ (((Options.new ["cmd", "-f", "x", "-g", "y"]).String_ ["-f"] "" "").1.String_
          ["-g"] "" "").1.m_options, o.m_count = Option.Single ∧ 1 < o.m_matches.length) ∨
      (∃ pos, (∃ a ∈ (((Options.new ["cmd", "-f", "x", "-g", "y"]).String_ ["-f"] "" "").1.String_
          ["-g"] "" "").1.m_options, a.m_isFlag = false ∧ pos ∈ a.m_matches) ∧
        (∃ b ∈ (((Options.new ["cmd", "-f", "x", "-g", "y"]).String_ ["-f"] "" "").1.String_
          ["-g"] "" "").1.m_options, ∃ m ∈ b.m_matches, pos = m - 1)) :=
  C10_error_matches_iff
    (((Options.new ["cmd", "-f", "x", "-g", "y"]).String_ ["-f"] "" "").1.String_ ["-g"] "" "").1
    (Options.Reachable.AddOption _ ["-g"] "" "" Option.Single false
      (Options.Reachable.AddOption _ ["-f"] "" "" Option.Single false
        (Options.Reachable.new ["cmd", "-f", "x", "-g", "y"])))
    (by decide) true false (by decide)

theorem bool_eq_of_false_iff (a b : Bool) (P : Prop) (h1 : a = false ↔ P)
    (h2 : b = false ↔ P) : a = b := by
  cases a <;> cases b <;> simp_all

/-- A `Single` string option reports the token after the first index that holds
one of its names, when that index has a following token. -/
theorem String_first_value (self : Options) (names : List String) (dflt description : String)
    (p : Nat) (hp : 1 ≤ p) (hnext : p + 1 < self.m_argv.length)
    (hname : self.m_argv.getD p "" ∈ names)
    (hfirst : ∀ i, 1 ≤ i → i < p → self.m_argv.getD i "" ∉ names) :
    (self.String_ names dflt description).2 = some (self.m_argv.getD (p + 1) "") := by
  have hne : self.m_argv ≠ [] := by
    intro h; rw [h] at hnext; simp at hnext
  simp only [Options.String_]
  rw [(AddOption_value_result self names dflt description Option.Single (by omega)).2.2.2]
  have hfind : (self.AddOption names dflt description Option.Single false).2.m_matches.find?
        (fun m => decide (m < self.m_argv.length) &&
          (Converter.FromString (self.m_argv.getD m "") : Bool × String).1) = some (p + 1) := by
    rw [List.find?_eq_some]
    refine ⟨by simp [Converter.FromString]; omega, ?_⟩
    obtain ⟨as, bs, hsplit⟩ := List.append_of_mem
      ((mem_AddOption_matches self names dflt description Option.Single false hne _).2
        ⟨p, hp, by omega, hname, rfl⟩)
    refine ⟨as, bs, hsplit, ?_⟩
    intro a ha
    exfalso
    have hsorted := AddOption_matches_sorted self names dflt description Option.Single false hne
    rw [hsplit, List.pairwise_append] at hsorted
    have hlt : a < p + 1 := hsorted.2.2 a ha (p + 1) (List.mem_cons_self _ _)
    have hain : a ∈ (self.AddOption names dflt description Option.Single false).2.m_matches := by
      rw [hsplit]; exact List.mem_append_left _ ha
    obtain ⟨i, h1, _, h3, rfl⟩ :=
      (mem_AddOption_matches self names dflt description Option.Single false hne a).1 hain
    exact hfirst i h1 (by omega) h3
  rw [hfind]
  rfl

/-! ## `Options::HasConsistentTail` -/

theorem consume_ok (NDEBUG : Bool) (argv : List String) (o : Option) (ms acc : List Nat)
    (h : NDEBUG = true ∨ o.m_isFlag = true ∨ argv.length ∉ ms) :
    Options.HasConsistentTail.consume NDEBUG argv o ms acc =
      Except.ok (acc ++ ms.flatMap (fun m => if o.m_isFlag then [m - 1] else [m - 1, m])) := by
  induction ms generalizing acc with
  | nil => simp [Options.HasConsistentTail.consume]
  | cons m rest ih =>
    have hrest : NDEBUG = true ∨ o.m_isFlag = true ∨ argv.length ∉ rest := by
      rcases h with h | h | h
      · exact Or.inl h
      · exact Or.inr (Or.inl h)
      · exact Or.inr (Or.inr (fun hm => h (List.mem_cons_of_mem _ hm)))
    simp only [Options.HasConsistentTail.consume, ih _ hrest, List.flatMap_cons]
    by_cases hf : o.m_isFlag = true
    · simp [hf]
    · have hassert : assert NDEBUG (decide (m ≠ argv.length)) = Except.ok () := by
        rcases h with h | h | h
        · simp [assert, h]
        · exact absurd h hf
        · have : m ≠ argv.length := fun e => h (e ▸ List.mem_cons_self _ _)
          simp [assert, this]
      have hf2 : o.m_isFlag = false := by simpa using hf
      rw [hassert]
      simp [hf2]

theorem tail_options_ok (NDEBUG : Bool) (argv : List String) (opts : List Option)
    (acc : List Nat) (h : NDEBUG = true ∨ tailAsserted argv opts) :
    Options.HasConsistentTail.options NDEBUG argv opts acc =
      Except.ok (acc ++ opts.flatMap consumed) := by
  induction opts generalizing acc with
  | nil => simp [Options.HasConsistentTail.options]
  | cons o rest ih =>
    have ho : NDEBUG = true ∨ o.m_isFlag = true ∨ argv.length ∉ o.m_matches := by
      rcases h with h | h
      · exact Or.inl h
      · by_cases hf : o.m_isFlag = true
        · exact Or.inr (Or.inl hf)
        · exact Or.inr (Or.inr (h o (List.mem_cons_self _ _) (by simpa using hf)))
    have hrest : NDEBUG = true ∨ tailAsserted argv rest := by
      rcases h with h | h
      · exact Or.inl h
      · exact Or.inr (fun a ha => h a (List.mem_cons_of_mem _ ha))
    simp only [Options.HasConsistentTail.options, consume_ok _ _ _ _ _ ho, ih _ hrest,
      List.flatMap_cons, consumed, List.append_assoc]

theorem tail_loop_true (argv : List String) (out : Bool) (S : List Nat) (text : String) :
    (Options.HasConsistentTail.loop argv out S true text).1 = true := by
  induction S generalizing text with
  | nil => rfl
  | cons a rest ih =>
    cases rest with
    | nil => rfl
    | cons b rest =>
      simp only [Options.HasConsistentTail.loop]
      split_ifs <;> simp_all

theorem tail_loop_sink (argv : List String) (S : List Nat) (h : Bool) (t1 t2 : String) :
    (Options.HasConsistentTail.loop argv true S h t1).1 =
      (Options.HasConsistentTail.loop argv false S h t2).1 := by
  induction S generalizing t1 t2 with
  | nil => rfl
  | cons a rest ih =>
    cases rest with
    | nil => rfl
    | cons b rest =>
      simp only [Options.HasConsistentTail.loop]
      split_ifs <;> first | exact ih _ _ | simp [tail_loop_true]

theorem tail_loop_false_iff (argv : List String) (out : Bool) (S : List Nat) (text : String)
    (hs : S.Pairwise (fun a b => a < b)) (hN : ∀ x ∈ S, x < argv.length) :
    (Options.HasConsistentTail.loop argv out S false text).1 = false ↔
      S.Chain' (fun a b => b = a + 1) := by
  induction S generalizing text with
  | nil => simp [Options.HasConsistentTail.loop]
  | cons a rest ih =>
    cases rest with
    | nil => simp [Options.HasConsistentTail.loop]
    | cons b rest =>
      have hab : a < b := List.rel_of_pairwise_cons hs (List.mem_cons_self _ _)
      have hb : b < argv.length := hN b (by simp)
      have hne : ¬ (a + 1 = argv.length) := by omega
      simp only [Options.HasConsistentTail.loop, hne, if_false, List.chain'_cons]
      by_cases hstep : b = a + 1
      · simp only [hstep, ne_eq, not_true_eq_false, if_false, true_and]
        rw [← hstep]
        exact ih text (List.Pairwise.of_cons hs) (fun x hx => hN x (List.mem_cons_of_mem _ hx))
      · simp only [hstep, ne_eq, not_false_eq_true, if_true, false_and, iff_false]
        cases out <;> simp [tail_loop_true]

theorem mem_unique {α : Type} [DecidableEq α] (l : List α) (x : α) :
    x ∈ unique l ↔ x ∈ l := by
  induction l with
  | nil => simp [unique]
  | cons a rest ih =>
    cases rest with
    | nil => simp [unique]
    | cons b rest =>
      simp only [unique]
      by_cases hab : a = b
      · subst hab
        simp only [if_true, ih, List.mem_cons]
        tauto
      · simp only [hab, if_false, List.mem_cons, ih]

theorem unique_sublist {α : Type} [DecidableEq α] (l : List α) : (unique l).Sublist l := by
  induction l with
  | nil => simp [unique]
  | cons a rest ih =>
    cases rest with
    | nil => simp [unique]
    | cons b rest =>
      simp only [unique]
      by_cases hab : a = b
      · simp only [hab, if_true]
        exact List.Sublist.cons _ (by simpa [hab] using ih)
      · simp only [hab, if_false]
        exact List.Sublist.cons₂ _ ih

theorem unique_head {α : Type} [DecidableEq α] (a : α) (l : List α) :
    ∃ l2, unique (a :: l) = a :: l2 := by
  induction l generalizing a with
  | nil => exact ⟨[], rfl⟩
  | cons b rest ih =>
    simp only [unique]
    by_cases hab : a = b
    · subst hab
      simpa using ih a
    · simp [hab]

theorem unique_chain_ne {α : Type} [DecidableEq α] (l : List α) :
    (unique l).Chain' (fun a b => a ≠ b) := by
  induction l with
  | nil => simp [unique]
  | cons a rest ih =>
    cases rest with
    | nil => simp [unique]
    | cons b rest =>
      simp only [unique]
      by_cases hab : a = b
      · simpa [hab] using ih
      · simp only [hab, if_false]
        obtain ⟨l2, hl2⟩ := unique_head b rest
        rw [hl2] at ih ⊢
        exact List.Chain'.cons hab ih

theorem unique_sort_sorted (l : List Nat) :
    (unique (l.insertionSort (fun a b => a ≤ b))).Pairwise (fun a b => a < b) := by
  have hle : (unique (l.insertionSort (fun a b => a ≤ b))).Pairwise (fun a b => a ≤ b) :=
    List.Pairwise.sublist (unique_sublist _) (List.sorted_insertionSort _ _)
  have hnd := nodup_of_sorted_chain_ne (fun a b : Nat => a ≤ b)
    (fun _ _ h1 h2 => Nat.le_antisymm h1 h2) _ hle (unique_chain_ne _)
  exact (hle.and hnd).imp (fun h => Nat.lt_of_le_of_ne h.1 h.2)

theorem mem_unique_sort (l : List Nat) (x : Nat) :
    x ∈ unique (l.insertionSort (fun a b => a ≤ b)) ↔ x ∈ l := by
  rw [mem_unique, (List.perm_insertionSort _ _).mem_iff]

theorem chain_succ_iff_contiguous (S : List Nat) (hs : S.Pairwise (fun a b => a < b)) :
    S.Chain' (fun a b => b = a + 1) ↔
      ∀ x, (∃ a ∈ S, ∃ b ∈ S, a < x ∧ x < b) → x ∈ S := by
  induction S with
  | nil => simp
  | cons c rest ih =>
    cases rest with
    | nil =>
      simp only [List.chain'_singleton, List.mem_singleton, true_iff]
      rintro x ⟨a, rfl, b, rfl, h1, h2⟩
      omega
    | cons d rest =>
      have hcd : c < d := List.rel_of_pairwise_cons hs (List.mem_cons_self _ _)
      have hd : ∀ y ∈ rest, d < y := fun y hy =>
        List.rel_of_pairwise_cons (List.Pairwise.of_cons hs) hy
      have ih2 := ih (List.Pairwise.of_cons hs)
      rw [List.chain'_cons, ih2]
      constructor
      · rintro ⟨hstep, hcont⟩ x ⟨a, ha, b, hb, h1, h2⟩
        have hxd : d ≤ x := by
          rcases List.mem_cons.1 ha with rfl | ha
          · omega
          · rcases List.mem_cons.1 ha with rfl | ha
            · omega
            · have := hd a ha; omega
        rcases Nat.eq_or_lt_of_le hxd with hx | hx
        · rw [← hx]; simp
        · apply List.mem_cons_of_mem
          apply hcont
          refine ⟨d, List.mem_cons_self _ _, b, ?_, hx, h2⟩
          rcases List.mem_cons.1 hb with rfl | hb
          · omega
          · exact hb
      · intro hcont
        constructor
        · by_contra hstep
          have hmem := hcont (c + 1) ⟨c, by simp, d, by simp, by omega, by omega⟩
          rcases List.mem_cons.1 hmem with h | hmem
          · omega
          · rcases List.mem_cons.1 hmem with h | hmem
            · omega
            · have := hd _ hmem; omega
        · rintro x ⟨a, ha, b, hb, h1, h2⟩
          have hmem := hcont x ⟨a, List.mem_cons_of_mem _ ha, b, List.mem_cons_of_mem _ hb, h1, h2⟩
          rcases List.mem_cons.1 hmem with h | hmem
          · have hca : c < a := by
              rcases List.mem_cons.1 ha with rfl | ha
              · exact hcd
              · have := hd a ha; omega
            omega
          · exact hmem

/-- The result of `Options::HasConsistentTail` when no assertion fails. -/
theorem HasConsistentTail_ok (r : Options) (NDEBUG out : Bool)
    (h : NDEBUG = true ∨ tailAsserted r.m_argv r.m_options) :
    r.HasConsistentTail NDEBUG out =
      Except.ok
        (if (r.m_options.flatMap consumed).length = 0 then (true, "")
         else
          (!(Options.HasConsistentTail.loop r.m_argv out
              (unique ((r.m_options.flatMap consumed).insertionSort (fun a b => a ≤ b)))
              false "").1,
            (Options.HasConsistentTail.loop r.m_argv out
              (unique ((r.m_options.flatMap consumed).insertionSort (fun a b => a ≤ b)))
              false "").2)) := by
  simp only [Options.HasConsistentTail, tail_options_ok _ _ _ _ h, List.nil_append]
  split_ifs <;> rfl

theorem mem_consumed (o : Option) (x : Nat) :
    x ∈ consumed o ↔ ∃ m ∈ o.m_matches, x = m - 1 ∨ (o.m_isFlag = false ∧ x = m) := by
  simp only [consumed, List.mem_flatMap]
  constructor
  · rintro ⟨m, hm, hx⟩
    refine ⟨m, hm, ?_⟩
    by_cases hf : o.m_isFlag = true
    · simp [hf] at hx
      exact Or.inl hx
    · have hf2 : o.m_isFlag = false := by simpa using hf
      simp [hf2] at hx
      rcases hx with hx | hx
      · exact Or.inl hx
      · exact Or.inr ⟨hf2, hx⟩
  · rintro ⟨m, hm, hx | ⟨hf, hx⟩⟩
    · refine ⟨m, hm, ?_⟩
      cases o.m_isFlag <;> simp [hx]
    · exact ⟨m, hm, by simp [hf, hx]⟩

/-- The boolean of `Options::HasConsistentTail` when no assertion fails and
every consumed position is a valid index: false exactly when some position
that was not consumed lies strictly between two consumed ones. -/
theorem HasConsistentTail_false_iff (r : Options) (NDEBUG out : Bool)
    (h : NDEBUG = true ∨ tailAsserted r.m_argv r.m_options)
    (hN : ∀ x ∈ r.m_options.flatMap consumed, x < r.m_argv.length) :
    ∃ res, r.HasConsistentTail NDEBUG out = Except.ok res ∧
      (res.1 = false ↔
        ∃ x, x ∉ r.m_options.flatMap consumed ∧
          ∃ a ∈ r.m_options.flatMap consumed, ∃ b ∈ r.m_options.flatMap consumed,
            a < x ∧ x < b) := by
  refine ⟨_, HasConsistentTail_ok r NDEBUG out h, ?_⟩
  by_cases hC : (r.m_options.flatMap consumed).length = 0
  · have hnil : r.m_options.flatMap consumed = [] := List.length_eq_zero.1 hC
    simp [hnil]
  · rw [if_neg hC]
    have hsorted := unique_sort_sorted (r.m_options.flatMap consumed)
    have hlt : ∀ x ∈ unique ((r.m_options.flatMap consumed).insertionSort (fun a b => a ≤ b)),
        x < r.m_argv.length := fun x hx => hN x ((mem_unique_sort _ x).1 hx)
    have hloop := tail_loop_false_iff r.m_argv out _ "" hsorted hlt
    rw [chain_succ_iff_contiguous _ hsorted] at hloop
    simp only [Bool.not_eq_false']
    rw [← Bool.not_eq_false, hloop]
    constructor
    · intro hcon
      by_contra hno
      apply hcon
      rintro x ⟨a, ha, b, hb, h1, h2⟩
      by_contra hx
      exact hno ⟨x, fun hmem => hx ((mem_unique_sort _ x).2 hmem), a, (mem_unique_sort _ a).1 ha,
        b, (mem_unique_sort _ b).1 hb, h1, h2⟩
    · rintro ⟨x, hx, a, ha, b, hb, h1, h2⟩ hcon
      exact hx ((mem_unique_sort _ x).1
        (hcon x ⟨a, (mem_unique_sort _ a).2 ha, b, (mem_unique_sort _ b).2 hb, h1, h2⟩))

theorem Reachable_tailAsserted (r : Options) (hr : r.Reachable) (hN : r.m_argv ≠ [])
    (hfinal : ∀ o ∈ r.m_options, o.m_isFlag = false →
      r.m_argv.getD (r.m_argv.length - 1) "" ∉ o.m_names) :
    tailAsserted r.m_argv r.m_options := by
  intro o ho hf hmem
  exact hfinal o ho hf (Reachable_match_name r hr hN o ho _ hmem).2

theorem Reachable_consumed_lt (r : Options) (hr : r.Reachable) (hN : r.m_argv ≠ [])
    (hfinal : ∀ o ∈ r.m_options, o.m_isFlag = false →
      r.m_argv.getD (r.m_argv.length - 1) "" ∉ o.m_names) :
    ∀ x ∈ r.m_options.flatMap consumed, x < r.m_argv.length := by
  intro x hx
  rw [List.mem_flatMap] at hx
  obtain ⟨o, ho, hxo⟩ := hx
  obtain ⟨m, hm, hcase⟩ := (mem_consumed o x).1 hxo
  have hm2 := hm
  rw [Reachable_matches r hr hN o ho, List.mem_map] at hm2
  obtain ⟨p, hp, rfl⟩ := hm2
  have hp2 := (mem_namePositions _ _ _).1 hp
  rcases hcase with rfl | ⟨hf, rfl⟩
  · omega
  · have hne : p + 1 ≠ r.m_argv.length := by
      intro heq
      exact Reachable_tailAsserted r hr hN hfinal o ho hf (heq ▸ hm)
    omega

/-- C12: for a registry built by registrations on a token sequence of length
`N ≥ 1` in which no value option has the final token as a name,
`HasConsistentTail` (debug or release build, with or without a sink) returns a
boolean, and it is false iff there is a hole: a position that is not consumed
lying strictly between two consumed positions, where `Consumed` is the name
position of every match and the value position of every value-option match.
Unconsumed tokens after the last consumed position are no hole. Instance: the
flags `-f` and `-g` on `path/cmd -f x -g y` give false. -/
theorem C12_consistent_tail_iff (r : Options) (hr : r.Reachable)
    (hN : 1 ≤ r.m_argv.length) (NDEBUG out : Bool)
    (hfinal : ∀ o ∈ r.m_options, o.m_isFlag = false →
      r.m_argv.getD (r.m_argv.length - 1) "" ∉ o.m_names)
    (Consumed : Nat → Prop)
    (hConsumed : ∀ pos, Consumed pos ↔
      ∃ o ∈ r.m_options, ∃ m ∈ o.m_matches, pos = m - 1 ∨ (o.m_isFlag = false ∧ pos = m)) :
    (∃ res, r.HasConsistentTail NDEBUG out = Except.ok res ∧
      (res.1 = false ↔
        ∃ x, ¬ Consumed x ∧ ∃ a b, Consumed a ∧ Consumed b ∧ a < x ∧ x < b)) ∧
    ((((Options.new ["path/cmd", "-f", "x", "-g", "y"]).Flag ["-f"] "").1.Flag
        ["-g"] "").1.HasConsistentTail false false = Except.ok (false, "")) := by
  refine ⟨?_, rfl⟩
  have hne : r.m_argv ≠ [] := by
    intro h; rw [h] at hN; simp at hN
  have hmem : ∀ pos, Consumed pos ↔ pos ∈ r.m_options.flatMap consumed := by
    intro pos
    rw [hConsumed, List.mem_flatMap]
    constructor
    · rintro ⟨o, ho, hx⟩
      exact ⟨o, ho, (mem_consumed o pos).2 hx⟩
    · rintro ⟨o, ho, hx⟩
      exact ⟨o, ho, (mem_consumed o pos).1 hx⟩
  obtain ⟨res, hres, hiff⟩ := HasConsistentTail_false_iff r NDEBUG out
    (Or.inr (Reachable_tailAsserted r hr hne hfinal)) (Reachable_consumed_lt r hr hne hfinal)
  refine ⟨res, hres, ?_⟩
  rw [hiff]
  constructor
  · rintro ⟨x, hx, a, ha, b, hb, h1, h2⟩
    exact ⟨x, fun hc => hx ((hmem x).1 hc), a, b, (hmem a).2 ha, (hmem b).2 hb, h1, h2⟩
  · rintro ⟨x, hx, a, b, ha, hb, h1, h2⟩
    exact ⟨x, fun hc => hx ((hmem x).2 hc), a, (hmem a).1 ha, b, (hmem b).1 hb, h1, h2⟩

/-- Witness of C12 on `cmd -f x y z -g w` with the string options `-f` and
`-g`: the positions `3` and `4` are a hole and the result is false. -/
theorem C12_consistent_tail_iff_witness :
    ∃ res, (((Options.new ["cmd", "-f", "x", "y", "z", "-g", "w"]).String_ ["-f"] "" "").1.String_
        ["-g"] "" "").1.HasConsistentTail false false = Except.ok res ∧
      (res.1 = false ↔
        ∃ x, ¬ (x ∈ [1, 2, 5, 6]) ∧ ∃ a b, a ∈ [1, 2, 5, 6] ∧ b ∈ [1, 2, 5, 6] ∧ a < x ∧ x < b) :=
  (C12_consistent_tail_iff
    (((Options.new ["cmd", "-f", "x", "y", "z", "-g", "w"]).String_ ["-f"] "" "").1.String_
      ["-g"] "" "").1
    (Options.Reachable.AddOption _ ["-g"] "" "" Option.Single false
      (Options.Reachable.AddOption _ ["-f"] "" "" Option.Single false
        (Options.Reachable.new ["cmd", "-f", "x", "y", "z", "-g", "w"])))
    (by decide) false false (by decide)
    (fun x => x ∈ [1, 2, 5, 6])
    (by
      intro pos
      simp [Options.String_, Options.MakeOption, Options.AddOption, OptionImpl.ParseArguments,
        Option.ParseMatches, Option.ParseMatches.loop, find_first_of, Options.new,
        List.findIdx_cons, Option.Single]
      omega)).1

theorem HasDuplicateNames_true_iff (r : Options) (out : Bool) :
    (r.HasDuplicateNames out).1 = true ↔
      ¬ (r.m_options.flatMap (fun option => option.m_names)).Nodup := by
  rw [← HasDuplicateNames_false_iff r out]
  simp

theorem not_pairwise_disjoint_names_iff (opts : List Option) :
    ¬ opts.Pairwise (fun a b => List.Disjoint a.m_names b.m_names) ↔
      ∃ (i j : Nat) (a b : Option), i < j ∧ opts[i]? = some a ∧ opts[j]? = some b ∧
        ∃ name, name ∈ a.m_names ∧ name ∈ b.m_names := by
  rw [List.pairwise_iff_getElem]
  constructor
  · intro h
    by_contra hno
    apply h
    intro i j hi hj hij name h1 h2
    exact hno ⟨i, j, opts[i], opts[j], hij, List.getElem?_eq_getElem hi,
      List.getElem?_eq_getElem hj, name, h1, h2⟩
  · rintro ⟨i, j, a, b, hij, ha, hb, name, h1, h2⟩ h
    obtain ⟨hi, rfl⟩ := List.getElem?_eq_some.1 ha
    obtain ⟨hj, rfl⟩ := List.getElem?_eq_some.1 hb
    exact h i j hi hj hij h1 h2

/-- C11 (as stated) fails: after the single registration `Flag({"-f", "-f"})`
on `cmd` one definition is registered, so no name is registered by more than
one definition, and `HasDuplicateNames` is true. -/
theorem C11_single_definition_counterexample :
    ((Options.new ["cmd"]).Flag ["-f", "-f"] "").1.m_options.length = 1 ∧
    (((Options.new ["cmd"]).Flag ["-f", "-f"] "").1.HasDuplicateNames false).1 = true := by
  decide

/-- C11 (amended): `HasDuplicateNames` returns true (with or without a sink) iff
some name is registered by two definitions or some definition lists a name
twice; in particular registering two definitions that share a name makes it
true, whatever the token sequence and the registry before. -/
theorem C11_duplicate_names_iff (r : Options) (out : Bool) :
    ((r.HasDuplicateNames out).1 = true ↔
      (∃ (i j : Nat) (a b : Option), i < j ∧ r.m_options[i]? = some a ∧ r.m_options[j]? = some b ∧
        ∃ name, name ∈ a.m_names ∧ name ∈ b.m_names) ∨
      (∃ o ∈ r.m_options, ¬ o.m_names.Nodup)) ∧
    (∀ (T U : Type) [Converter T] [Converter U] (names1 names2 : List String) (d1 : T) (d2 : U)
      (description1 description2 : String) (count1 count2 : Nat) (isFlag1 isFlag2 : Bool)
      (name : String), name ∈ names1 → name ∈ names2 →
      (((r.AddOption names1 d1 description1 count1 isFlag1).1.AddOption names2 d2 description2
        count2 isFlag2).1.HasDuplicateNames out).1 = true) := by
  constructor
  · rw [HasDuplicateNames_true_iff, List.nodup_flatMap, ← not_pairwise_disjoint_names_iff]
    constructor
    · intro h
      by_contra hno
      push_neg at hno
      exact h ⟨hno.2, hno.1⟩
    · rintro (h | ⟨o, ho, hnd⟩) ⟨h1, h2⟩
      · exact h h2
      · exact hnd (h1 o ho)
  · intro T U _ _ names1 names2 d1 d2 description1 description2 count1 count2 isFlag1 isFlag2
      name h1 h2
    rw [HasDuplicateNames_true_iff]
    obtain ⟨hn2, _, _, _, ho2⟩ := AddOption_fields
      (r.AddOption names1 d1 description1 count1 isFlag1).1 names2 d2 description2 count2 isFlag2
    obtain ⟨hn1, _, _, _, ho1⟩ := AddOption_fields r names1 d1 description1 count1 isFlag1
    rw [ho2, ho1]
    simp only [List.flatMap_append, List.flatMap_cons, List.flatMap_nil, List.append_nil, hn1, hn2,
      List.append_assoc]
    intro hnd
    rw [List.nodup_append] at hnd
    exact (List.nodup_append.1 hnd.2.1).2.2 h1 h2

/-- C13: a `Single` string option, registered on any registry over a token
sequence of length `N`, reports the token `t[p+1]` that follows the earliest
index `p ≥ 1` holding one of its names, when that index has a following
token. -/
theorem C13_round_trip (self : Options) (names : List String) (dflt description : String)
    (p : Nat) (hp : 1 ≤ p) (hnext : p + 1 < self.m_argv.length)
    (hname : self.m_argv.getD p "" ∈ names)
    (hfirst : ∀ i, 1 ≤ i → i < p → self.m_argv.getD i "" ∉ names) :
    (self.String_ names dflt description).2 = some (self.m_argv.getD (p + 1) "") ∧
    (self.MakeOption names dflt description).2 = some (self.m_argv.getD (p + 1) "") := by
  have h := String_first_value self names dflt description p hp hnext hname hfirst
  exact ⟨h, h⟩

/-- Witness of C13 on the test "Parse single strings". -/
theorem C13_round_trip_witness :
    (((Options.new ["path/cmd", "-f", "fn", "--alt", "fn2"]).String_ ["-f"] "xx" "xx").1.String_
        ["-x", "--alt"] "yy" "yy").2 = some "fn2" :=
  (C13_round_trip ((Options.new ["path/cmd", "-f", "fn", "--alt", "fn2"]).String_ ["-f"] "xx" "xx").1
    ["-x", "--alt"] "yy" "yy" 3 (by decide) (by decide) (by decide)
    (by
      intro i h1 h2
      interval_cases i <;> decide)).1

/-- C16: after registration on a token sequence of length `N ≥ 1`, every match
position `m` of the definition satisfies `2 ≤ m ≤ N` with `t[m-1]` one of its
names; the matches are strictly increasing, so `N` can only be the last match;
and `parse_errors` is a sub-list of the matches whose entries are `N` or a
valid index. -/
theorem C16_definition_invariant {T : Type} [Converter T] (self : Options)
    (names : List String) (dflt : T) (description : String) (count : Nat) (isFlag : Bool)
    (hN : 1 ≤ self.m_argv.length) :
    (∀ m ∈ (self.AddOption names dflt description count isFlag).2.m_matches,
      2 ≤ m ∧ m ≤ self.m_argv.length ∧ self.m_argv.getD (m - 1) "" ∈ names) ∧
    (self.AddOption names dflt description count isFlag).2.m_matches.Pairwise
      (fun a b => a < b) ∧
    (∀ l1 l2, (self.AddOption names dflt description count isFlag).2.m_matches =
      l1 ++ self.m_argv.length :: l2 → l2 = []) ∧
    (self.AddOption names dflt description count isFlag).2.m_parseErrors.Sublist
      (self.AddOption names dflt description count isFlag).2.m_matches ∧
    (∀ e ∈ (self.AddOption names dflt description count isFlag).2.m_parseErrors,
      e = self.m_argv.length ∨ e < self.m_argv.length) := by
  have hne : self.m_argv ≠ [] := by
    intro h; rw [h] at hN; simp at hN
  have hmem := mem_AddOption_matches self names dflt description count isFlag hne
  have hsorted := AddOption_matches_sorted self names dflt description count isFlag hne
  have hsub : (self.AddOption names dflt description count isFlag).2.m_parseErrors.Sublist
      (self.AddOption names dflt description count isFlag).2.m_matches := by
    cases isFlag with
    | true =>
      rw [(AddOption_flag_storage self names dflt description count).2]
      exact List.nil_sublist _
    | false =>
      rw [AddOption_value_parseErrors]
      exact List.filter_sublist _
  refine ⟨?_, hsorted, ?_, hsub, ?_⟩
  · intro m hm
    obtain ⟨p, h1, h2, h3, rfl⟩ := (hmem m).1 hm
    exact ⟨by omega, by omega, by simpa using h3⟩
  · intro l1 l2 hsplit
    rw [hsplit, List.pairwise_append] at hsorted
    cases l2 with
    | nil => rfl
    | cons x rest =>
      exfalso
      have hx : self.m_argv.length < x :=
        List.rel_of_pairwise_cons hsorted.2.1 (List.mem_cons_self _ _)
      have hxm : x ∈ (self.AddOption names dflt description count isFlag).2.m_matches := by
        rw [hsplit]; simp
      obtain ⟨p, _, h2, _, rfl⟩ := (hmem x).1 hxm
      omega
  · intro e he
    obtain ⟨p, _, h2, _, rfl⟩ := (hmem e).1 (hsub.subset he)
    omega

/-- Witness of C16 on the test "Duplicate matches / Missing argument". -/
theorem C16_definition_invariant_witness :
    ((Options.new ["path/cmd", "-f", "-f", "-o", "x", "-o", "y", "-u"]).AddOption
        ["-u"] "foobar" "" Option.Single false).2.m_parseErrors.Sublist
      ((Options.new ["path/cmd", "-f", "-f", "-o", "x", "-o", "y", "-u"]).AddOption
        ["-u"] "foobar" "" Option.Single false).2.m_matches :=
  (C16_definition_invariant (Options.new ["path/cmd", "-f", "-f", "-o", "x", "-o", "y", "-u"])
    ["-u"] "foobar" "" Option.Single false (by decide)).2.2.2.1

/-! ## Registration: the debug assertion, independence, the tail cursor -/

/-- C15 (code at the failing input): on the command line of the nomenclature
comment of `test.cpp`, `./cmd --name argument --flag positio nal`, with the
string option `--name` and the flag `--flag`, the flag's only match is `4`,
one past its name at index `3`; the tail cursor is `5`, two past the name, and
`Tail` is the range `[5, 6)` holding `nal` alone, although the tokens that
follow the last consumed token are `positio nal`. -/
theorem C15_tail_after_flag :
    ((Options.new ["./cmd", "--name", "argument", "--flag", "positio", "nal"]).AddOption
        ["--flag"] false "" Option.Single true).2.m_matches = [4] ∧
    (((Options.new ["./cmd", "--name", "argument", "--flag", "positio", "nal"]).String_
        ["--name"] "" "").1.Flag ["--flag"] "").1.m_tail = 5 ∧
    (((Options.new ["./cmd", "--name", "argument", "--flag", "positio", "nal"]).String_
        ["--name"] "" "").1.Flag ["--flag"] "").1.Tail = { m_cbegin := 5, m_cend := 6 } ∧
    ["./cmd", "--name", "argument", "--flag", "positio", "nal"].drop 5 = ["nal"] := by
  decide

/-- C19: in a debug build (assertions enabled) a registration fails iff
`HasDuplicateNames` is true for the registry with the new definition added,
that is iff the names registered so far together with the new names contain a
repeated string; without such a repeat the registration succeeds with the
result of the release build, and `HasDuplicateNames` is then false. -/
theorem C19_debug_registration {T : Type} [Converter T] (self : Options)
    (names : List String) (dflt : T) (description : String) (count : Nat) (isFlag : Bool) :
    ((∃ e, Options.AddOption.asserted false self names dflt description count isFlag
        = Except.error e) ↔
      ((self.AddOption names dflt description count isFlag).1.HasDuplicateNames false).1
        = true) ∧
    ((∃ e, Options.AddOption.asserted false self names dflt description count isFlag
        = Except.error e) ↔
      ¬ (self.m_options.flatMap (fun option => option.m_names) ++ names).Nodup) ∧
    ((self.m_options.flatMap (fun option => option.m_names) ++ names).Nodup →
      Options.AddOption.asserted false self names dflt description count isFlag
        = Except.ok (self.AddOption names dflt description count isFlag) ∧
      ∀ out, ((self.AddOption names dflt description count isFlag).1.HasDuplicateNames out).1
        = false) := by
  have hnames : (self.AddOption names dflt description count isFlag).1.m_options.flatMap
      (fun option => option.m_names) =
      self.m_options.flatMap (fun option => option.m_names) ++ names := by
    obtain ⟨hn, _, _, _, ho⟩ := AddOption_fields self names dflt description count isFlag
    rw [ho]
    simp [hn]
  have hfail : (∃ e, Options.AddOption.asserted false self names dflt description count isFlag
        = Except.error e) ↔
      ((self.AddOption names dflt description count isFlag).1.HasDuplicateNames false).1
        = true := by
    simp only [Options.AddOption.asserted, assert]
    cases h : ((self.AddOption names dflt description count isFlag).1.HasDuplicateNames false).1
    · simp
    · simp
  refine ⟨hfail, ?_, ?_⟩
  · rw [hfail, HasDuplicateNames_true_iff, hnames]
  · intro hnd
    have hfalse : ∀ out,
        ((self.AddOption names dflt description count isFlag).1.HasDuplicateNames out).1
          = false := by
      intro out
      rw [HasDuplicateNames_false_iff, hnames]
      exact hnd
    refine ⟨?_, hfalse⟩
    simp only [Options.AddOption.asserted, assert, hfalse false]
    rfl

/-- C20: the definition produced by a registration (its matches, parse errors
and result list) is the same on every registry over the same token sequence,
whatever definitions were registered before and in whatever order, and does
not depend on the description; a registration appends the new definition and
leaves the token sequence and every earlier definition unchanged. -/
theorem C20_independent_scanning {T U : Type} [Converter T] [Converter U]
    (argv : List String) (tail1 tail2 : Nat) (options1 options2 : List Option)
    (names other : List String) (dflt : T) (dflt2 : U) (description description2 : String)
    (count count2 : Nat) (isFlag isFlag2 : Bool) :
    ((Options.mk argv tail1 options1).AddOption names dflt description count isFlag).2 =
      ((Options.mk argv tail2 options2).AddOption names dflt description count isFlag).2 ∧
    (((Options.mk argv tail1 options1).AddOption other dflt2 description2 count2 isFlag2).1.AddOption
        names dflt description count isFlag).2 =
      ((Options.mk argv tail1 options1).AddOption names dflt description count isFlag).2 ∧
    (((Options.mk argv tail1 options1).AddOption names dflt description2 count isFlag).2.m_matches =
        ((Options.mk argv tail1 options1).AddOption names dflt description count isFlag).2.m_matches ∧
      ((Options.mk argv tail1 options1).AddOption names dflt description2 count
          isFlag).2.m_parseErrors =
        ((Options.mk argv tail1 options1).AddOption names dflt description count
          isFlag).2.m_parseErrors ∧
      ((Options.mk argv tail1 options1).AddOption names dflt description2 count isFlag).2.m_storage =
        ((Options.mk argv tail1 options1).AddOption names dflt description count
          isFlag).2.m_storage) ∧
    ((Options.mk argv tail1 options1).AddOption names dflt description count isFlag).1.m_argv
      = argv ∧
    ((Options.mk argv tail1 options1).AddOption names dflt description count isFlag).1.m_options
      = options1 ++
        [((Options.mk argv tail1 options1).AddOption names dflt description count
          isFlag).2.toOption] ∧
    (∀ i, i < options1.length →
      ((Options.mk argv tail1 options1).AddOption names dflt description count
        isFlag).1.m_options[i]? = options1[i]?) := by
  refine ⟨rfl, rfl, ⟨rfl, rfl, rfl⟩, rfl, rfl, ?_⟩
  intro i hi
  show (options1 ++ _)[i]? = options1[i]?
  exact List.getElem?_append_left hi

/-! ## Sets of `Single` string options -/

theorem boolFromString_fst (s : String) :
    (boolFromString s).1 = true ↔
      (⟨s.data.map Char.toLower⟩ : String) ∈ truthy ∨
      (⟨s.data.map Char.toLower⟩ : String) ∈ falsy := by
  simp only [boolFromString]
  split_ifs with h1 h2
  · simp [h1]
  · simp [h2]
  · simp [h1, h2]

theorem boolFromString_snd (s : String) :
    (boolFromString s).2 = true ↔
      (⟨s.data.map Char.toLower⟩ : String) ∈ truthy ∨
      (⟨s.data.map Char.toLower⟩ : String) ∉ falsy := by
  simp only [boolFromString]
  split_ifs with h1 h2
  · simp [h1]
  · simp [h1, h2]
  · simp [h1, h2]

/-- C21: for every string `s`, `FromString<bool>(s)` succeeds iff the lower-cased
`s` is one of `true, 1, on, yes, y` or one of `false, 0, off, no, n`; on success
the value is `true` iff the lower-cased `s` is in the first set; when it fails
the value left in the output is `true`. The tokens of the test "Parse bools"
and an unrecognised text are instances. -/
theorem C21_bool_conversion (s : String) :
    ((Converter.FromString s : Bool × Bool).1 = true ↔
      (⟨s.data.map Char.toLower⟩ : String) ∈ ["true", "1", "on", "yes", "y"] ∨
      (⟨s.data.map Char.toLower⟩ : String) ∈ ["false", "0", "off", "no", "n"]) ∧
    ((Converter.FromString s : Bool × Bool).1 = true →
      ((Converter.FromString s : Bool × Bool).2 = true ↔
        (⟨s.data.map Char.toLower⟩ : String) ∈ ["true", "1", "on", "yes", "y"])) ∧
    ((Converter.FromString s : Bool × Bool).1 = false →
      (Converter.FromString s : Bool × Bool).2 = true) ∧
    (Converter.FromString "1" : Bool × Bool) = (true, true) ∧
    (Converter.FromString "0" : Bool × Bool) = (true, false) ∧
    (Converter.FromString "tRuE" : Bool × Bool) = (true, true) ∧
    (Converter.FromString "yeS" : Bool × Bool) = (true, true) ∧
    (Converter.FromString "OFF" : Bool × Bool) = (true, false) ∧
    (Converter.FromString "maybe" : Bool × Bool) = (false, true) ∧
    (Converter.FromString "" : Bool × Bool) = (false, true) := by
  refine ⟨boolFromString_fst s, ?_, ?_, by decide, by decide, by decide, by decide, by decide,
    by decide, by decide⟩
  · intro hs
    show (boolFromString s).2 = true ↔ _ ∈ truthy
    rw [boolFromString_snd]
    constructor
    · rintro (h | h)
      · exact h
      · rcases (boolFromString_fst s).1 hs with h2 | h2
        · exact h2
        · exact absurd h2 h
    · intro h
      exact Or.inl h
  · intro hs
    show (boolFromString s).2 = true
    rw [boolFromString_snd]
    right
    intro hf
    have hs2 : (boolFromString s).1 = false := hs
    rw [(boolFromString_fst s).2 (Or.inr hf)] at hs2
    exact Bool.noConfusion hs2

theorem regex_match_duration_eq (digits unit : String) (hne : digits ≠ "")
    (hdigits : ∀ c ∈ digits.data, c.isDigit = true)
    (hunit : unit ∈ ["d", "h", "m", "s", "ms", "ns"]) :
    regex_match_duration (digits ++ unit) = (true, digits, unit) := by
  have hu : ∀ u ∈ ["d", "h", "m", "s", "ms", "ns"],
      u.data.takeWhile Char.isDigit = [] := by
    decide
  have htake : (digits ++ unit).data.takeWhile Char.isDigit = digits.data := by
    rw [String.data_append, List.takeWhile_append_of_pos hdigits, hu unit hunit,
      List.append_nil]
  have hlen : ∃ n, digits.data.length = n + 1 := by
    cases hd : digits.data with
    | nil => exact absurd (String.ext hd) hne
    | cons c cs => exact ⟨cs.length, rfl⟩
  obtain ⟨n, hn⟩ := hlen
  have hdrop : (digits ++ unit).data.drop (n + 1) = unit.data := by
    rw [String.data_append, ← hn, List.drop_left]
  have htk : (digits ++ unit).data.take (n + 1) = digits.data := by
    rw [String.data_append, ← hn, List.take_left]
  simp only [regex_match_duration, htake, hn, List.range_succ_eq_map, List.map_cons,
    Nat.sub_zero]
  rw [List.find?_cons_of_pos _ (by rw [hdrop]; exact decide_eq_true hunit)]
  simp only [htk, hdrop]

theorem regex_match_duration_iff (data : String) :
    (regex_match_duration data).1 = true ↔
      ∃ digits unit : String, data = digits ++ unit ∧ digits ≠ "" ∧
        (∀ c ∈ digits.data, c.isDigit = true) ∧ unit ∈ ["d", "h", "m", "s", "ms", "ns"] := by
  constructor
  · intro h
    simp only [regex_match_duration] at h
    split at h
    · rename_i n hfound
      have hp := List.find?_some hfound
      have hmem := List.mem_of_find?_eq_some hfound
      simp only [List.mem_map, List.mem_range] at hmem
      obtain ⟨k, hk, rfl⟩ := hmem
      refine ⟨⟨data.data.take ((data.data.takeWhile Char.isDigit).length - k)⟩,
        ⟨data.data.drop ((data.data.takeWhile Char.isDigit).length - k)⟩, ?_, ?_, ?_,
        of_decide_eq_true hp⟩
      · apply String.ext
        rw [String.data_append]
        exact (List.take_append_drop _ _).symm
      · intro h0
        have h1 : data.data.take ((data.data.takeWhile Char.isDigit).length - k) = [] :=
          congrArg String.data h0
        rw [List.take_eq_nil_iff] at h1
        rcases h1 with h1 | h1
        · omega
        · rw [h1] at hk
          simp at hk
      · intro c hc
        have hpre : data.data.take ((data.data.takeWhile Char.isDigit).length - k) =
            (data.data.takeWhile Char.isDigit).take
              ((data.data.takeWhile Char.isDigit).length - k) := by
          have h2 := @List.take_append_of_le_length _ (data.data.takeWhile Char.isDigit)
            (data.data.dropWhile Char.isDigit) _
            (Nat.sub_le (data.data.takeWhile Char.isDigit).length k)
          rw [List.takeWhile_append_dropWhile] at h2
          exact h2
        rw [hpre] at hc
        exact List.mem_takeWhile_imp (List.mem_of_mem_take hc)
    · exact absurd h (by decide)
  · rintro ⟨digits, unit, rfl, hne, hdigits, hunit⟩
    rw [regex_match_duration_eq digits unit hne hdigits hunit]
theorem durationFromString_fst {LD : Type} (from_chars : String → LD)
    (seconds : Nat → Nat → LD → LD) (data : String) (out : LD) :
    (durationFromString from_chars seconds data out).1 = (regex_match_duration data).1 := by
  by_cases hm : (regex_match_duration data).1 = true
  · obtain ⟨digits, unit, rfl, hne, hdigits, hunit⟩ := (regex_match_duration_iff data).1 hm
    simp only [durationFromString]
    rw [regex_match_duration_eq digits unit hne hdigits hunit]
    simp only [List.mem_cons, List.mem_singleton, List.not_mem_nil, or_false] at hunit
    rcases hunit with h | h | h | h | h | h <;> rw [h] <;> rfl
  · have hm2 : (regex_match_duration data).1 = false := by simpa using hm
    simp only [durationFromString]
    rw [hm2]
    rfl

/-- The value stored by a successful duration conversion: the number read from
the digits by `std::from_chars`, held in the period of the unit and converted
to seconds. -/
theorem durationFromString_value {LD : Type} (from_chars : String → LD)
    (seconds : Nat → Nat → LD → LD) (digits : String) (out : LD) (hne : digits ≠ "")
    (hdigits : ∀ c ∈ digits.data, c.isDigit = true) :
    durationFromString from_chars seconds (digits ++ "d") out
      = (true, seconds 86400 1 (from_chars digits)) ∧
    durationFromString from_chars seconds (digits ++ "h") out
      = (true, seconds 3600 1 (from_chars digits)) ∧
    durationFromString from_chars seconds (digits ++ "m") out
      = (true, seconds 60 1 (from_chars digits)) ∧
    durationFromString from_chars seconds (digits ++ "s") out
      = (true, seconds 1 1 (from_chars digits)) ∧
    durationFromString from_chars seconds (digits ++ "ms") out
      = (true, seconds 1 1000 (from_chars digits)) ∧
    durationFromString from_chars seconds (digits ++ "ns") out
      = (true, seconds 1 1000000000 (from_chars digits)) := by
  refine ⟨?_, ?_, ?_, ?_, ?_, ?_⟩ <;>
    · simp only [durationFromString]
      rw [regex_match_duration_eq digits _ hne hdigits (by decide)]
      rfl

/-- C22: the duration conversion succeeds exactly on the texts made of one or
more decimal digits followed by one of the units `ns, ms, s, m, h, d` and
nothing else, whatever the arithmetic of the value type; `42ns`, `43ms` and
`47d` are accepted, and a text without unit (`42`), without digits (`xns`),
with a fraction, a sign, two units or surrounding blanks is rejected and the
output is left as it was. -/
theorem C22_duration_accepts {LD : Type} (from_chars : String → LD)
    (seconds : Nat → Nat → LD → LD) (data : String) (out : LD) :
    ((durationFromString from_chars seconds data out).1 = true ↔
      ∃ digits unit : String, data = digits ++ unit ∧ digits ≠ "" ∧
        (∀ c ∈ digits.data, c.isDigit = true) ∧
        unit ∈ ["ns", "ms", "s", "m", "h", "d"]) ∧
    (durationFromString from_chars seconds "42ns" out).1 = true ∧
    (durationFromString from_chars seconds "43ms" out).1 = true ∧
    (durationFromString from_chars seconds "47d" out).1 = true ∧
    durationFromString from_chars seconds "42" out = (false, out) ∧
    durationFromString from_chars seconds "xns" out = (false, out) ∧
    durationFromString from_chars seconds "1.5s" out = (false, out) ∧
    durationFromString from_chars seconds "-5s" out = (false, out) ∧
    durationFromString from_chars seconds "+5s" out = (false, out) ∧
    durationFromString from_chars seconds "1h30m" out = (false, out) ∧
    durationFromString from_chars seconds "5 s" out = (false, out) ∧
    durationFromString from_chars seconds " 5s" out = (false, out) ∧
    durationFromString from_chars seconds "5s " out = (false, out) ∧
    durationFromString from_chars seconds "5S" out = (false, out) ∧
    durationFromString from_chars seconds "" out = (false, out) := by
  refine ⟨?_, rfl, rfl, rfl, rfl, rfl, rfl, rfl, rfl, rfl, rfl, rfl, rfl, rfl, rfl⟩
  rw [durationFromString_fst, regex_match_duration_iff]
  constructor
  · rintro ⟨digits, unit, h1, h2, h3, h4⟩
    refine ⟨digits, unit, h1, h2, h3, ?_⟩
    revert h4
    simp only [List.mem_cons, List.mem_singleton, List.not_mem_nil, or_false]
    tauto
  · rintro ⟨digits, unit, h1, h2, h3, h4⟩
    refine ⟨digits, unit, h1, h2, h3, ?_⟩
    revert h4
    simp only [List.mem_cons, List.mem_singleton, List.not_mem_nil, or_false]
    tauto

/-! ## The tail cursor -/

theorem foldr_max_concat (l : List Nat) (x : Nat) :
    (l ++ [x]).foldr max 0 = max x (l.foldr max 0) := by
  induction l with
  | nil => simp
  | cons a rest ih =>
    simp only [List.cons_append, List.foldr_cons, ih]
    omega

theorem foldr_max_perm (l1 l2 : List Nat) (h : l1.Perm l2) :
    l1.foldr max 0 = l2.foldr max 0 := by
  induction h with
  | nil => rfl
  | cons a _ ih => simp only [List.foldr_cons, ih]
  | swap a b l =>
    simp only [List.foldr_cons]
    omega
  | trans _ _ ih1 ih2 => exact ih1.trans ih2

theorem le_foldr_max (l : List Nat) (x : Nat) (hx : x ∈ l) : x ≤ l.foldr max 0 := by
  induction l with
  | nil => simp at hx
  | cons a rest ih =>
    simp only [List.foldr_cons]
    rcases List.mem_cons.1 hx with rfl | h
    · exact le_max_left _ _
    · exact le_trans (ih h) (le_max_right _ _)

theorem foldr_max_le (l : List Nat) (b : Nat) (hb : ∀ x ∈ l, x ≤ b) : l.foldr max 0 ≤ b := by
  induction l with
  | nil => simp
  | cons a rest ih =>
    simp only [List.foldr_cons]
    exact max_le (hb a (List.mem_cons_self _ _))
      (ih (fun x hx => hb x (List.mem_cons_of_mem _ hx)))

theorem recomputedTail_concat (options : List Option) (o : Option) :
    recomputedTail (options ++ [o]) =
      if o.m_matches.length > 0 then max (o.m_matches.getLastD 0 + 1) (recomputedTail options)
      else recomputedTail options := by
  simp only [recomputedTail, List.filter_append, List.map_append]
  by_cases h : o.m_matches = []
  · simp [h]
  · have hlen : o.m_matches.length > 0 := List.length_pos.2 h
    rw [if_pos hlen]
    have hf : List.filter (fun option => decide (option.m_matches ≠ [])) [o] = [o] := by
      simp [h]
    rw [hf, List.map_singleton, foldr_max_concat]

theorem AddOption_tail {T : Type} [Converter T] (self : Options) (names : List String)
    (dflt : T) (description : String) (count : Nat) (isFlag : Bool) :
    (self.AddOption names dflt description count isFlag).1.m_tail =
      if (self.AddOption names dflt description count isFlag).2.m_matches.length > 0 then
        max ((self.AddOption names dflt description count isFlag).2.m_matches.getLastD 0 + 1)
          self.m_tail
      else self.m_tail := rfl

theorem Reachable_tail (r : Options) (hr : r.Reachable) :
    r.m_tail = recomputedTail r.m_options := by
  induction hr with
  | new argv => rfl
  | AddOption self names dflt description count isFlag _ ih =>
    rw [(AddOption_fields self names dflt description count isFlag).2.2.2.2,
      recomputedTail_concat, AddOption_tail, ih]

theorem recomputedTail_perm (l1 l2 : List Option) (h : l1.Perm l2) :
    recomputedTail l1 = recomputedTail l2 :=
  foldr_max_perm _ _ ((h.filter _).map _)

/-- C25: on a registry built by registrations the incrementally updated tail
cursor equals the value recomputed from the definitions, the largest
`last match + 1` over the definitions with a match and `0` without one; so two
registries holding the same definitions in different orders have the same
cursor, registering two definitions in either order gives the same cursor, and
a further registration never decreases it. -/
theorem C25_tail_recomputed {T U : Type} [Converter T] [Converter U] (r : Options)
    (hr : r.Reachable) :
    r.m_tail = recomputedTail r.m_options ∧
    r.m_tail = ((r.m_options.filter (fun option => decide (option.m_matches ≠ []))).map
      (fun option => option.m_matches.getLastD 0 + 1)).foldr max 0 ∧
    (∀ r2 : Options, r2.Reachable → r2.m_options.Perm r.m_options → r2.m_tail = r.m_tail) ∧
    (∀ (names1 names2 : List String) (dflt1 : T) (dflt2 : U) (description1 description2 : String)
      (count1 count2 : Nat) (isFlag1 isFlag2 : Bool),
      ((r.AddOption names1 dflt1 description1 count1 isFlag1).1.AddOption names2 dflt2
          description2 count2 isFlag2).1.m_tail =
        ((r.AddOption names2 dflt2 description2 count2 isFlag2).1.AddOption names1 dflt1
          description1 count1 isFlag1).1.m_tail) ∧
    (∀ (names : List String) (dflt : T) (description : String) (count : Nat) (isFlag : Bool),
      r.m_tail ≤ (r.AddOption names dflt description count isFlag).1.m_tail) := by
  refine ⟨Reachable_tail r hr, Reachable_tail r hr, ?_, ?_, ?_⟩
  · intro r2 hr2 hperm
    rw [Reachable_tail r hr, Reachable_tail r2 hr2]
    exact recomputedTail_perm _ _ hperm
  · intro names1 names2 dflt1 dflt2 description1 description2 count1 count2 isFlag1 isFlag2
    have h1 := Options.Reachable.AddOption _ names2 dflt2 description2 count2 isFlag2
      (Options.Reachable.AddOption r names1 dflt1 description1 count1 isFlag1 hr)
    have h2 := Options.Reachable.AddOption _ names1 dflt1 description1 count1 isFlag1
      (Options.Reachable.AddOption r names2 dflt2 description2 count2 isFlag2 hr)
    rw [Reachable_tail _ h1, Reachable_tail _ h2]
    apply recomputedTail_perm
    show (r.m_options ++ [_] ++ [_]).Perm (r.m_options ++ [_] ++ [_])
    rw [List.append_assoc, List.append_assoc]
    exact List.Perm.append_left _ (List.Perm.swap _ _ _)
  · intro names dflt description count isFlag
    rw [AddOption_tail]
    split_ifs
    · exact le_max_right _ _
    · exact le_refl _

/-- Witness of C25 on the nomenclature command line of `test.cpp`, with the
string option `--name` and the flag `--flag` registered. -/
theorem C25_tail_recomputed_witness :
    (((Options.new ["./cmd", "--name", "argument", "--flag", "positio", "nal"]).String_
        ["--name"] "" "").1.Flag ["--flag"] "").1.m_tail =
      recomputedTail (((Options.new ["./cmd", "--name", "argument", "--flag", "positio",
        "nal"]).String_ ["--name"] "" "").1.Flag ["--flag"] "").1.m_options :=
  (C25_tail_recomputed (T := String) (U := Bool)
    (((Options.new ["./cmd", "--name", "argument", "--flag", "positio", "nal"]).String_
        ["--name"] "" "").1.Flag ["--flag"] "").1
    (Options.Reachable.AddOption _ ["--flag"] false "" Option.Single true
      (Options.Reachable.AddOption _ ["--name"] "" "" Option.Single false
        (Options.Reachable.new _)))).1

/-- C26 (code at the failing inputs): on `cmd -v` with the flag `-v`, and on
`cmd -u` with the string option `-u`, the only match is `2 = N`, the
past-the-end position, and the tail cursor becomes `3 = N + 1`: `Tail` is the
pair `(3, 2)`, whose begin lies behind its end, not a suffix of the tokens. A
flag in the middle of `cmd -v x y` moves the cursor to `3`, past the token
`x` that nothing consumed. -/
theorem C26_tail_past_end :
    ((Options.new ["cmd", "-v"]).AddOption ["-v"] false "" Option.Single true).2.m_matches
      = [2] ∧
    ((Options.new ["cmd", "-v"]).Flag ["-v"] "").1.m_tail = 3 ∧
    ((Options.new ["cmd", "-v"]).Flag ["-v"] "").1.m_argv.length = 2 ∧
    ((Options.new ["cmd", "-v"]).Flag ["-v"] "").1.Tail = { m_cbegin := 3, m_cend := 2 } ∧
    ((Options.new ["cmd", "-u"]).String_ ["-u"] "foobar" "").1.Tail
      = { m_cbegin := 3, m_cend := 2 } ∧
    ((Options.new ["cmd", "-u"]).Strings ["-u"] "").1.Tail = { m_cbegin := 3, m_cend := 2 } ∧
    ((Options.new ["cmd", "-v", "x", "y"]).Flags ["-v"] "").1.Tail
      = { m_cbegin := 3, m_cend := 4 } ∧
    ¬ (∀ r : Options, r.Reachable → r.m_tail ≤ r.m_argv.length) := by
  refine ⟨by decide, by decide, by decide, by decide, by decide, by decide, by decide, ?_⟩
  intro h
  have h2 := h _ (Options.Reachable.AddOption (Options.new ["cmd", "-v"]) ["-v"] false ""
    Option.Single true (Options.Reachable.new _))
  revert h2
  decide

/-- C27: on a registry built by registrations in which no definition has a
match, the tail cursor is still at index `0`, and `Tail` is the range
`[0, N)`, the whole token sequence with the program invocation name. -/
theorem C27_tail_without_matches (r : Options) (hr : r.Reachable)
    (hno : ∀ o ∈ r.m_options, o.m_matches = []) :
    r.m_tail = 0 ∧
    r.Tail = { m_cbegin := 0, m_cend := r.m_argv.length } ∧
    (r.m_argv.drop r.Tail.m_cbegin).take (r.Tail.m_cend - r.Tail.m_cbegin) = r.m_argv ∧
    r.m_argv.head? = (r.m_argv.drop r.Tail.m_cbegin).head? := by
  have h0 : r.m_tail = 0 := by
    rw [Reachable_tail r hr, recomputedTail]
    have hf : r.m_options.filter (fun option => decide (option.m_matches ≠ [])) = [] := by
      rw [List.filter_eq_nil_iff]
      intro o ho
      simp [hno o ho]
    rw [hf]
    rfl
  have ht : r.Tail = { m_cbegin := 0, m_cend := r.m_argv.length } := by
    simp only [Options.Tail, h0]
  refine ⟨h0, ht, ?_, ?_⟩
  · rw [ht]
    simp
  · rw [ht]
    simp

/-- Witness of C27: `path/cmd a b` with the flag `-f` and the string option
`-o` registered, neither of which occurs; and the registry before any
registration. -/
theorem C27_tail_without_matches_witness :
    (((Options.new ["path/cmd", "a", "b"]).Flag ["-f"] "").1.String_ ["-o"] "" "").1.Tail
      = { m_cbegin := 0, m_cend := 3 } ∧
    (Options.new ["path/cmd", "a", "b"]).Tail = { m_cbegin := 0, m_cend := 3 } :=
  ⟨(C27_tail_without_matches
      (((Options.new ["path/cmd", "a", "b"]).Flag ["-f"] "").1.String_ ["-o"] "" "").1
      (Options.Reachable.AddOption _ ["-o"] "" "" Option.Single false
        (Options.Reachable.AddOption _ ["-f"] false "" Option.Single true
          (Options.Reachable.new _)))
      (by decide)).2.1,
   (C27_tail_without_matches (Options.new ["path/cmd", "a", "b"])
      (Options.Reachable.new _) (by decide)).2.1⟩

/-! ## Well-formed command lines: `prog n1 v1 ... nk vk r1 ... rm` -/

theorem pairTokens_length (pairs : List (String × String)) :
    (pairs.flatMap (fun nv => [nv.1, nv.2])).length = 2 * pairs.length := by
  induction pairs with
  | nil => rfl
  | cons nv ps ih =>
    simp only [List.flatMap_cons, List.length_append, List.length_cons, List.length_nil, ih]
    omega

theorem pairTokens_getD (pairs : List (String × String)) (i : Nat) (hi : i < pairs.length) :
    (pairs.flatMap (fun nv => [nv.1, nv.2])).getD (2 * i) "" = (pairs.getD i ("", "")).1 ∧
    (pairs.flatMap (fun nv => [nv.1, nv.2])).getD (2 * i + 1) "" = (pairs.getD i ("", "")).2 := by
  induction pairs generalizing i with
  | nil => simp at hi
  | cons nv ps ih =>
    cases i with
    | zero => exact ⟨rfl, rfl⟩
    | succ i =>
      have hi2 : i < ps.length := by simpa using hi
      have e1 : 2 * (i + 1) = 2 * i + 1 + 1 := by omega
      rw [e1, List.flatMap_cons]
      simp only [List.cons_append, List.nil_append, List.getD_cons_succ]
      exact ih i hi2

theorem getD_mem_of_lt {α : Type} (l : List α) (d : α) (i : Nat) (hi : i < l.length) :
    l.getD i d ∈ l := by
  rw [List.getD_eq_getElem l d hi]
  exact List.getElem_mem hi

theorem wellFormed_tokens (prog : String) (pairs : List (String × String))
    (rest : List String) (i : Nat) (hi : i < pairs.length) :
    (prog :: (pairs.flatMap (fun nv => [nv.1, nv.2]) ++ rest)).getD (2 * i + 1) ""
      = (pairs.getD i ("", "")).1 ∧
    (prog :: (pairs.flatMap (fun nv => [nv.1, nv.2]) ++ rest)).getD (2 * i + 2) ""
      = (pairs.getD i ("", "")).2 ∧
    2 * i + 2 < (prog :: (pairs.flatMap (fun nv => [nv.1, nv.2]) ++ rest)).length := by
  have hlen := pairTokens_length pairs
  have h := pairTokens_getD pairs i hi
  refine ⟨?_, ?_, ?_⟩
  · rw [List.getD_cons_succ, List.getD_append _ _ _ _ (by omega)]
    exact h.1
  · rw [List.getD_cons_succ, List.getD_append _ _ _ _ (by omega)]
    exact h.2
  · simp only [List.length_cons, List.length_append, hlen]
    omega

theorem wellFormed_name_index (prog : String) (pairs : List (String × String))
    (rest : List String) (names : List String)
    (hvalues : ∀ nv ∈ pairs, nv.2 ∉ names) (hrest : ∀ t ∈ rest, t ∉ names)
    (p : Nat) (h1 : 1 ≤ p)
    (h2 : p < (prog :: (pairs.flatMap (fun nv => [nv.1, nv.2]) ++ rest)).length)
    (h3 : (prog :: (pairs.flatMap (fun nv => [nv.1, nv.2]) ++ rest)).getD p "" ∈ names) :
    ∃ i, i < pairs.length ∧ p = 2 * i + 1 ∧ (pairs.getD i ("", "")).1 ∈ names := by
  have hlen := pairTokens_length pairs
  obtain ⟨q, rfl⟩ : ∃ q, p = q + 1 := ⟨p - 1, by omega⟩
  rw [List.getD_cons_succ] at h3
  simp only [List.length_cons, List.length_append, hlen] at h2
  by_cases hq : q < 2 * pairs.length
  · rw [List.getD_append _ _ _ _ (by omega)] at h3
    have hi : q / 2 < pairs.length := by omega
    have h := pairTokens_getD pairs (q / 2) hi
    rcases Nat.mod_two_eq_zero_or_one q with hm | hm
    · have e : 2 * (q / 2) = q := by omega
      rw [e] at h
      refine ⟨q / 2, hi, by omega, ?_⟩
      rw [← h.1]
      exact h3
    · have e : 2 * (q / 2) + 1 = q := by omega
      rw [e] at h
      rw [h.2] at h3
      exact absurd h3 (hvalues _ (getD_mem_of_lt pairs _ _ hi))
  · rw [List.getD_append_right _ _ _ _ (by omega)] at h3
    exact absurd h3 (hrest _ (getD_mem_of_lt rest _ _ (by omega)))

theorem owner_unique (pairs : List (String × String)) (names : List String)
    (hdifferent : pairs.Pairwise (fun a b => ¬ (a.1 ∈ names ∧ b.1 ∈ names)))
    (i j : Nat) (hi : i < pairs.length) (hj : j < pairs.length)
    (h1 : (pairs.getD i ("", "")).1 ∈ names) (h2 : (pairs.getD j ("", "")).1 ∈ names) :
    i = j := by
  rw [List.getD_eq_getElem pairs _ hi] at h1
  rw [List.getD_eq_getElem pairs _ hj] at h2
  rw [List.pairwise_iff_getElem] at hdifferent
  rcases Nat.lt_trichotomy i j with h | h | h
  · exact absurd ⟨h1, h2⟩ (hdifferent i j hi hj h)
  · exact h
  · exact absurd ⟨h2, h1⟩ (hdifferent j i hj hi h)

theorem eq_singleton_of_nodup {α : Type} (l : List α) (a : α) (hnd : l.Nodup) (ha : a ∈ l)
    (hall : ∀ x ∈ l, x = a) : l = [a] := by
  match l, hnd, ha, hall with
  | [], _, ha, _ => simp at ha
  | [x], _, _, hall => rw [hall x (List.mem_singleton_self x)]
  | x :: y :: rest, hnd, _, hall =>
    have hx := hall x (List.mem_cons_self _ _)
    have hy := hall y (List.mem_cons_of_mem _ (List.mem_cons_self _ _))
    rw [List.nodup_cons] at hnd
    exact absurd (List.mem_cons_self _ _) (hx.trans hy.symm ▸ hnd.1)

/-- On a well-formed command line the names of an option that owns `n_i` occur
at index `2 i + 1` and nowhere else. -/
theorem wellFormed_namePositions (prog : String) (pairs : List (String × String))
    (rest : List String) (names : List String)
    (hdifferent : pairs.Pairwise (fun a b => ¬ (a.1 ∈ names ∧ b.1 ∈ names)))
    (hvalues : ∀ nv ∈ pairs, nv.2 ∉ names) (hrest : ∀ t ∈ rest, t ∉ names)
    (i : Nat) (hi : i < pairs.length) (hown : (pairs.getD i ("", "")).1 ∈ names) :
    namePositions (prog :: (pairs.flatMap (fun nv => [nv.1, nv.2]) ++ rest)) names
      = [2 * i + 1] := by
  have ht := wellFormed_tokens prog pairs rest i hi
  apply eq_singleton_of_nodup _ _ (namePositions_nodup _ _)
  · rw [mem_namePositions]
    exact ⟨by omega, by omega, by rw [ht.1]; exact hown⟩
  · intro p hp
    rw [mem_namePositions] at hp
    obtain ⟨j, hj, rfl, hjn⟩ := wellFormed_name_index prog pairs rest names hvalues hrest p
      hp.1 hp.2.1 hp.2.2
    rw [owner_unique pairs names hdifferent j i hj hi hjn hown]

/-- On a well-formed command line an option none of whose names is one of the
`n_i` has no name position. -/
theorem wellFormed_namePositions_nil (prog : String) (pairs : List (String × String))
    (rest : List String) (names : List String)
    (hvalues : ∀ nv ∈ pairs, nv.2 ∉ names) (hrest : ∀ t ∈ rest, t ∉ names)
    (hnone : ∀ nv ∈ pairs, nv.1 ∉ names) :
    namePositions (prog :: (pairs.flatMap (fun nv => [nv.1, nv.2]) ++ rest)) names = [] := by
  rw [List.eq_nil_iff_forall_not_mem]
  intro p hp
  rw [mem_namePositions] at hp
  obtain ⟨j, hj, _, hjn⟩ := wellFormed_name_index prog pairs rest names hvalues hrest p
    hp.1 hp.2.1 hp.2.2
  exact hnone _ (getD_mem_of_lt pairs _ _ hj) hjn

theorem getLastD_mem_of_ne_nil {α : Type} (l : List α) (d : α) (h : l ≠ []) :
    l.getLastD d ∈ l := by
  rw [List.getLastD_eq_getLast?, List.getLast?_eq_getLast l h]
  exact List.getLast_mem h

theorem registerStringOptions_step (self : Options) (d : List String × Bool × String × String) :
    (if d.2.1 then (self.Strings d.1 d.2.2.2).1 else (self.String_ d.1 d.2.2.1 d.2.2.2).1) =
      (self.AddOption d.1 (if d.2.1 then "" else d.2.2.1) d.2.2.2
        (if d.2.1 then Option.Many else Option.Single) false).1 := by
  cases d.2.1 <;> rfl

theorem registerStringOptions_reachable (self : Options) (hs : self.Reachable)
    (defs : List (List String × Bool × String × String)) :
    (registerStringOptions self defs).Reachable := by
  induction defs generalizing self with
  | nil => exact hs
  | cons d rest ih =>
    simp only [registerStringOptions]
    rw [registerStringOptions_step]
    exact ih _ (Options.Reachable.AddOption self _ _ _ _ false hs)

theorem registerStringOptions_argv (self : Options)
    (defs : List (List String × Bool × String × String)) :
    (registerStringOptions self defs).m_argv = self.m_argv := by
  induction defs generalizing self with
  | nil => rfl
  | cons d rest ih =>
    simp only [registerStringOptions]
    rw [registerStringOptions_step, ih]
    rfl

theorem registerStringOptions_options (self : Options)
    (defs : List (List String × Bool × String × String)) :
    (registerStringOptions self defs).m_options =
      self.m_options ++ defs.map (fun d =>
        (self.AddOption d.1 (if d.2.1 then "" else d.2.2.1) d.2.2.2
          (if d.2.1 then Option.Many else Option.Single) false).2.toOption) := by
  induction defs generalizing self with
  | nil => simp [registerStringOptions]
  | cons d rest ih =>
    simp only [registerStringOptions]
    rw [registerStringOptions_step, ih]
    simp only [List.map_cons]
    rw [(AddOption_fields self d.1 (if d.2.1 then "" else d.2.2.1) d.2.2.2
      (if d.2.1 then Option.Many else Option.Single) false).2.2.2.2, List.append_assoc]
    rfl

theorem registerStringOptions_mem (argv : List String) (hN : argv ≠ [])
    (defs : List (List String × Bool × String × String))
    (o : Option) (ho : o ∈ (registerStringOptions (Options.new argv) defs).m_options) :
    ∃ d ∈ defs, o.m_names = d.1 ∧ o.m_isFlag = false ∧
      o.m_count = (if d.2.1 then Option.Many else Option.Single) ∧
      o.m_matches = (namePositions argv d.1).map (fun p => p + 1) ∧
      o.m_parseErrors = o.m_matches.filter (fun m => decide (m = argv.length)) := by
  rw [registerStringOptions_options] at ho
  simp only [Options.new, List.nil_append, List.mem_map] at ho
  obtain ⟨d, hd, rfl⟩ := ho
  refine ⟨d, hd, rfl, rfl, rfl, ?_, ?_⟩
  · exact AddOption_matches (Options.mk argv 0 []) d.1 _ d.2.2.2 _ false hN
  · have h := AddOption_value_parseErrors (Options.mk argv 0 []) d.1
      (if d.2.1 then "" else d.2.2.1) d.2.2.2 (if d.2.1 then Option.Many else Option.Single)
    rw [h]
    apply List.filter_congr
    intro m _
    simp [Converter.FromString]

theorem registerStringOptions_names (argv : List String)
    (defs : List (List String × Bool × String × String)) :
    (registerStringOptions (Options.new argv) defs).m_options.flatMap
        (fun option => option.m_names) = defs.flatMap (fun d => d.1) := by
  rw [registerStringOptions_options]
  simp only [Options.new, List.nil_append, List.flatMap_map]
  rfl

theorem registerStringOptions_mem_of (argv : List String)
    (defs : List (List String × Bool × String × String))
    (d : List String × Bool × String × String) (hd : d ∈ defs) :
    ∃ o ∈ (registerStringOptions (Options.new argv) defs).m_options,
      o.m_names = d.1 ∧ o.m_isFlag = false := by
  refine ⟨((Options.new argv).AddOption d.1 (if d.2.1 then "" else d.2.2.1) d.2.2.2
    (if d.2.1 then Option.Many else Option.Single) false).2.toOption, ?_, rfl, rfl⟩
  rw [registerStringOptions_options]
  exact List.mem_append_right _ (List.mem_map.2 ⟨d, hd, rfl⟩)

/-- The value reported by `Options::String` and `Options::Strings` for a
definition with exactly one name position `p`, not the final token. -/
theorem string_report_single (self : Options) (names : List String) (dflt description : String)
    (p : Nat) (hN : self.m_argv ≠ []) (hp : p + 1 < self.m_argv.length)
    (hpos : namePositions self.m_argv names = [p]) :
    (self.String_ names dflt description).2 = some (self.m_argv.getD (p + 1) "") ∧
    (self.Strings names description).2 = [self.m_argv.getD (p + 1) ""] := by
  have hne : p + 1 ≠ self.m_argv.length := by omega
  constructor
  · show front (self.AddOption names dflt description Option.Single false).2.m_storage = _
    rw [AddOption_value_storage, AddOption_matches self names dflt description _ false hN, hpos]
    simp [front, Converter.FromString, hne]
  · show (self.AddOption names "" description Option.Many false).2.m_storage = _
    rw [AddOption_value_storage, AddOption_matches self names "" description _ false hN, hpos]
    simp [Converter.FromString, hne, Option.Many, Option.Single]

/-- The value reported by `Options::String` and `Options::Strings` for a
definition without a name position. -/
theorem string_report_none (self : Options) (names : List String) (dflt description : String)
    (hN : self.m_argv ≠ []) (hpos : namePositions self.m_argv names = []) :
    (self.String_ names dflt description).2 = some dflt ∧
    (self.Strings names description).2 = [] := by
  constructor
  · show front (self.AddOption names dflt description Option.Single false).2.m_storage = _
    rw [AddOption_value_storage, AddOption_matches self names dflt description _ false hN, hpos]
    simp [front]
  · show (self.AddOption names "" description Option.Many false).2.m_storage = _
    rw [AddOption_value_storage, AddOption_matches self names "" description _ false hN, hpos]
    simp [Option.Many, Option.Single]

theorem wellFormed_matches (prog : String) (pairs : List (String × String))
    (rest : List String) (defs : List (List String × Bool × String × String))
    (argv : List String)
    (hargv : argv = prog :: (pairs.flatMap (fun nv => [nv.1, nv.2]) ++ rest))
    (hvalues : ∀ nv ∈ pairs, ∀ d ∈ defs, nv.2 ∉ d.1)
    (hrest : ∀ t ∈ rest, ∀ d ∈ defs, t ∉ d.1)
    (o : Option) (ho : o ∈ (registerStringOptions (Options.new argv) defs).m_options)
    (m : Nat) (hm : m ∈ o.m_matches) :
    ∃ i, i < pairs.length ∧ m = 2 * i + 2 ∧ (pairs.getD i ("", "")).1 ∈ o.m_names ∧
      m < argv.length := by
  have hN : argv ≠ [] := by rw [hargv]; exact List.cons_ne_nil _ _
  obtain ⟨d, hd, hnm, _, _, hms, _⟩ := registerStringOptions_mem argv hN defs o ho
  rw [hms, List.mem_map] at hm
  obtain ⟨p, hp, rfl⟩ := hm
  rw [mem_namePositions] at hp
  subst hargv
  obtain ⟨i, hi, rfl, hin⟩ := wellFormed_name_index prog pairs rest d.1
    (fun nv hnv => hvalues nv hnv d hd) (fun t ht => hrest t ht d hd) p hp.1 hp.2.1 hp.2.2
  exact ⟨i, hi, rfl, hnm ▸ hin, (wellFormed_tokens prog pairs rest i hi).2.2⟩

theorem wellFormed_matches_length (prog : String) (pairs : List (String × String))
    (rest : List String) (defs : List (List String × Bool × String × String))
    (argv : List String)
    (hargv : argv = prog :: (pairs.flatMap (fun nv => [nv.1, nv.2]) ++ rest))
    (hdifferent : pairs.Pairwise (fun a b => ∀ d ∈ defs, ¬ (a.1 ∈ d.1 ∧ b.1 ∈ d.1)))
    (hvalues : ∀ nv ∈ pairs, ∀ d ∈ defs, nv.2 ∉ d.1)
    (hrest : ∀ t ∈ rest, ∀ d ∈ defs, t ∉ d.1)
    (o : Option) (ho : o ∈ (registerStringOptions (Options.new argv) defs).m_options) :
    o.m_matches.length ≤ 1 := by
  have hN : argv ≠ [] := by rw [hargv]; exact List.cons_ne_nil _ _
  obtain ⟨d, hd, hnm, _, _, hms, _⟩ := registerStringOptions_mem argv hN defs o ho
  rw [hms, List.length_map]
  subst hargv
  by_cases hex : ∃ i, i < pairs.length ∧ (pairs.getD i ("", "")).1 ∈ d.1
  · obtain ⟨i, hi, hin⟩ := hex
    rw [wellFormed_namePositions prog pairs rest d.1
      (hdifferent.imp (fun h => h d hd)) (fun nv hnv => hvalues nv hnv d hd)
      (fun t ht => hrest t ht d hd) i hi hin]
    exact le_refl _
  · have hnil : namePositions (prog :: (pairs.flatMap (fun nv => [nv.1, nv.2]) ++ rest)) d.1
        = [] := by
      rw [List.eq_nil_iff_forall_not_mem]
      intro p hp
      rw [mem_namePositions] at hp
      obtain ⟨j, hj, _, hjn⟩ := wellFormed_name_index prog pairs rest d.1
        (fun nv hnv => hvalues nv hnv d hd) (fun t ht => hrest t ht d hd) p hp.1 hp.2.1 hp.2.2
      exact hex ⟨j, hj, hjn⟩
    rw [hnil]
    exact Nat.zero_le _

theorem wellFormed_owner_match (prog : String) (pairs : List (String × String))
    (rest : List String) (defs : List (List String × Bool × String × String))
    (argv : List String)
    (hargv : argv = prog :: (pairs.flatMap (fun nv => [nv.1, nv.2]) ++ rest))
    (howner : ∀ nv ∈ pairs, ∃ d ∈ defs, nv.1 ∈ d.1)
    (i : Nat) (hi : i < pairs.length) :
    ∃ o ∈ (registerStringOptions (Options.new argv) defs).m_options,
      o.m_isFlag = false ∧ 2 * i + 2 ∈ o.m_matches := by
  obtain ⟨d, hd, hin⟩ := howner _ (getD_mem_of_lt pairs ("", "") i hi)
  obtain ⟨o, ho, hnm, hflag⟩ := registerStringOptions_mem_of argv defs d hd
  have hr : (registerStringOptions (Options.new argv) defs).Reachable :=
    registerStringOptions_reachable _ (Options.Reachable.new argv) defs
  have ha : (registerStringOptions (Options.new argv) defs).m_argv = argv :=
    registerStringOptions_argv _ defs
  have ht := wellFormed_tokens prog pairs rest i hi
  rw [← hargv] at ht
  refine ⟨o, ho, hflag, ?_⟩
  exact Reachable_mem_matches _ hr o ho (2 * i + 1) (by omega) (by rw [ha]; omega)
    (by rw [ha, ht.1, hnm]; exact hin)

theorem wellFormed_queries (prog : String) (pairs : List (String × String))
    (rest : List String) (defs : List (List String × Bool × String × String))
    (argv : List String)
    (hargv : argv = prog :: (pairs.flatMap (fun nv => [nv.1, nv.2]) ++ rest))
    (hnames : (defs.flatMap (fun d => d.1)).Nodup)
    (howner : ∀ nv ∈ pairs, ∃ d ∈ defs, nv.1 ∈ d.1)
    (hdifferent : pairs.Pairwise (fun a b => ∀ d ∈ defs, ¬ (a.1 ∈ d.1 ∧ b.1 ∈ d.1)))
    (hvalues : ∀ nv ∈ pairs, ∀ d ∈ defs, nv.2 ∉ d.1)
    (hrest : ∀ t ∈ rest, ∀ d ∈ defs, t ∉ d.1)
    (NDEBUG out : Bool) :
    ((registerStringOptions (Options.new argv) defs).HasErrorMatches out).1 = false ∧
    ∃ text, (registerStringOptions (Options.new argv) defs).HasConsistentTail NDEBUG out
      = Except.ok (true, text) := by
  have hN : argv ≠ [] := by rw [hargv]; exact List.cons_ne_nil _ _
  have hr : (registerStringOptions (Options.new argv) defs).Reachable :=
    registerStringOptions_reachable _ (Options.Reachable.new argv) defs
  have ha : (registerStringOptions (Options.new argv) defs).m_argv = argv :=
    registerStringOptions_argv _ defs
  have hne : (registerStringOptions (Options.new argv) defs).m_argv ≠ [] := by
    rw [ha]; exact hN
  have hnd : ((registerStringOptions (Options.new argv) defs).m_options.flatMap
      (fun option => option.m_names)).Nodup := by
    rw [registerStringOptions_names]; exact hnames
  have hmatch := wellFormed_matches prog pairs rest defs argv hargv hvalues hrest
  have hlen := wellFormed_matches_length prog pairs rest defs argv hargv hdifferent hvalues hrest
  have hcons : ∀ i, i < pairs.length →
      2 * i + 1 ∈ (registerStringOptions (Options.new argv) defs).m_options.flatMap consumed ∧
      2 * i + 2 ∈ (registerStringOptions (Options.new argv) defs).m_options.flatMap consumed := by
    intro i hi
    obtain ⟨o, ho, hflag, hm⟩ := wellFormed_owner_match prog pairs rest defs argv hargv howner i hi
    constructor
    · exact List.mem_flatMap.2 ⟨o, ho, (mem_consumed _ _).2 ⟨2 * i + 2, hm, Or.inl (by omega)⟩⟩
    · exact List.mem_flatMap.2 ⟨o, ho, (mem_consumed _ _).2 ⟨2 * i + 2, hm, Or.inr ⟨hflag, rfl⟩⟩⟩
  have hasserted : tailAsserted (registerStringOptions (Options.new argv) defs).m_argv
      (registerStringOptions (Options.new argv) defs).m_options := by
    intro o ho _ hm
    obtain ⟨i, _, _, _, hlt⟩ := hmatch o ho _ hm
    rw [ha] at hlt
    omega
  have hlt : ∀ x ∈ (registerStringOptions (Options.new argv) defs).m_options.flatMap consumed,
      x < (registerStringOptions (Options.new argv) defs).m_argv.length := by
    intro x hx
    obtain ⟨o, ho, hxo⟩ := List.mem_flatMap.1 hx
    obtain ⟨m, hm, hcase⟩ := (mem_consumed o x).1 hxo
    obtain ⟨i, _, rfl, _, hlt⟩ := hmatch o ho m hm
    rw [ha]
    rcases hcase with rfl | ⟨_, rfl⟩ <;> omega
  constructor
  · rw [Bool.eq_false_iff]
    intro htrue
    rcases (HasErrorMatches_iff _ out).1 htrue with ⟨o, ho, hf⟩ | hdup
    · obtain ⟨d, hd, _, _, _, _, herr⟩ := registerStringOptions_mem argv hN defs o ho
      rcases hf with hf | ⟨_, hf⟩
      · obtain ⟨e, he⟩ := List.exists_mem_of_ne_nil _ hf
        rw [herr, List.mem_filter] at he
        obtain ⟨i, _, _, _, hlt2⟩ := hmatch o ho e he.1
        have h2 : e = argv.length := by simpa using he.2
        omega
      · have := hlen o ho
        omega
    · apply hdup
      rw [(allClaimed_perm _).nodup_iff, List.nodup_append]
      refine ⟨Reachable_valuePositions_nodup _ hr hne hnd,
        Reachable_nameClaims_nodup _ hr hne hnd, ?_⟩
      intro x hv hn
      simp only [valuePositions, List.mem_flatMap] at hv
      obtain ⟨a, ha1, hxa⟩ := hv
      have hxa2 : x ∈ a.m_matches := by
        by_cases hf : a.m_isFlag = true
        · simp [hf] at hxa
        · simpa [hf] using hxa
      simp only [nameClaims, List.mem_flatMap, List.mem_map] at hn
      obtain ⟨b, hb, m, hm, rfl⟩ := hn
      obtain ⟨i, _, hi2, _, _⟩ := hmatch a ha1 _ hxa2
      obtain ⟨j, _, rfl, _, _⟩ := hmatch b hb m hm
      omega
  · obtain ⟨res, hres, hiff⟩ := HasConsistentTail_false_iff _ NDEBUG out (Or.inr hasserted) hlt
    have htrue : res.1 = true := by
      rw [← Bool.not_eq_false]
      intro hfalse
      obtain ⟨x, hx, a, ha1, b, hb, h1, h2⟩ := hiff.1 hfalse
      obtain ⟨oa, hoa, hxa⟩ := List.mem_flatMap.1 ha1
      obtain ⟨ma, hma, hcasea⟩ := (mem_consumed oa a).1 hxa
      obtain ⟨ia, hia, rfl, _, _⟩ := hmatch oa hoa ma hma
      obtain ⟨ob, hob, hxb⟩ := List.mem_flatMap.1 hb
      obtain ⟨mb, hmb, hcaseb⟩ := (mem_consumed ob b).1 hxb
      obtain ⟨ib, hib, rfl, _, _⟩ := hmatch ob hob mb hmb
      have hx1 : 1 ≤ x := by rcases hcasea with rfl | ⟨_, rfl⟩ <;> omega
      have hx2 : x ≤ 2 * pairs.length := by rcases hcaseb with rfl | ⟨_, rfl⟩ <;> omega
      rcases Nat.mod_two_eq_zero_or_one x with hm | hm
      · have hc := (hcons (x / 2 - 1) (by omega)).2
        have e : 2 * (x / 2 - 1) + 2 = x := by omega
        rw [e] at hc
        exact hx hc
      · have hc := (hcons (x / 2) (by omega)).1
        have e : 2 * (x / 2) + 1 = x := by omega
        rw [e] at hc
        exact hx hc
    refine ⟨res.2, ?_⟩
    rw [hres, ← htrue]

theorem wellFormed_tail (prog : String) (pairs : List (String × String))
    (rest : List String) (defs : List (List String × Bool × String × String))
    (argv : List String)
    (hargv : argv = prog :: (pairs.flatMap (fun nv => [nv.1, nv.2]) ++ rest))
    (hk : pairs ≠ [])
    (howner : ∀ nv ∈ pairs, ∃ d ∈ defs, nv.1 ∈ d.1)
    (hdifferent : pairs.Pairwise (fun a b => ∀ d ∈ defs, ¬ (a.1 ∈ d.1 ∧ b.1 ∈ d.1)))
    (hvalues : ∀ nv ∈ pairs, ∀ d ∈ defs, nv.2 ∉ d.1)
    (hrest : ∀ t ∈ rest, ∀ d ∈ defs, t ∉ d.1) :
    (registerStringOptions (Options.new argv) defs).m_tail = 2 * pairs.length + 1 := by
  have hr : (registerStringOptions (Options.new argv) defs).Reachable :=
    registerStringOptions_reachable _ (Options.Reachable.new argv) defs
  have hmatch := wellFormed_matches prog pairs rest defs argv hargv hvalues hrest
  have hk2 : 0 < pairs.length := List.length_pos.2 hk
  rw [Reachable_tail _ hr, recomputedTail]
  apply le_antisymm
  · apply foldr_max_le
    intro x hx
    simp only [List.mem_map, List.mem_filter] at hx
    obtain ⟨o, ⟨ho, hne⟩, rfl⟩ := hx
    have hne2 : o.m_matches ≠ [] := by simpa using hne
    obtain ⟨i, hi, hlast, _, _⟩ := hmatch o ho _ (getLastD_mem_of_ne_nil o.m_matches 0 hne2)
    omega
  · obtain ⟨o, ho, _, hm⟩ := wellFormed_owner_match prog pairs rest defs argv hargv howner
      (pairs.length - 1) (by omega)
    have hne : o.m_matches ≠ [] := List.ne_nil_of_mem hm
    have hlen := wellFormed_matches_length prog pairs rest defs argv hargv hdifferent hvalues
      hrest o ho
    have hlast : o.m_matches.getLastD 0 = 2 * (pairs.length - 1) + 2 := by
      match hms : o.m_matches with
      | [] => exact absurd hms hne
      | [m] =>
        rw [hms] at hm
        simp only [List.mem_singleton] at hm
        rw [hm]
        rfl
      | _ :: _ :: _ => rw [hms] at hlen; simp at hlen
    apply le_foldr_max
    simp only [List.mem_map, List.mem_filter]
    refine ⟨o, ⟨ho, by simpa using hne⟩, ?_⟩
    rw [hlast]
    omega

/-- C24: on a token sequence `prog n1 v1 ... nk vk r1 ... rm` with `k ≥ 1`, and
string value options (`Single`, registered with `String`, or multi-valued,
registered with `Strings`) whose concatenated name lists have no repeated
string, such that every `ni` is a name of an option, different `ni` belong to
different options, and no `vi` and no `rj` is a name of an option: the
registration of the option owning `ni` reports `vi` (the list `[vi]` when
multi-valued) on every registry over these tokens, so in every order; the
registration of an option without an occurrence reports its default, or the
empty list; after all registrations `HasErrorMatches` and `HasDuplicateNames`
are false, `HasConsistentTail` is true, the tail cursor is `2 k + 1` and
`Tail` is the range holding exactly `r1 ... rm`. -/
theorem C24_well_formed_command_line (prog : String) (pairs : List (String × String))
    (rest : List String) (defs : List (List String × Bool × String × String))
    (argv : List String)
    (hargv : argv = prog :: (pairs.flatMap (fun nv => [nv.1, nv.2]) ++ rest))
    (hk : pairs ≠ [])
    (hnames : (defs.flatMap (fun d => d.1)).Nodup)
    (howner : ∀ nv ∈ pairs, ∃ d ∈ defs, nv.1 ∈ d.1)
    (hdifferent : pairs.Pairwise (fun a b => ∀ d ∈ defs, ¬ (a.1 ∈ d.1 ∧ b.1 ∈ d.1)))
    (hvalues : ∀ nv ∈ pairs, ∀ d ∈ defs, nv.2 ∉ d.1)
    (hrest : ∀ t ∈ rest, ∀ d ∈ defs, t ∉ d.1)
    (NDEBUG out : Bool) :
    (∀ nv ∈ pairs, ∀ d ∈ defs, nv.1 ∈ d.1 → ∀ self : Options, self.m_argv = argv →
      (self.String_ d.1 d.2.2.1 d.2.2.2).2 = some nv.2 ∧
      (self.Strings d.1 d.2.2.2).2 = [nv.2]) ∧
    (∀ d ∈ defs, (∀ nv ∈ pairs, nv.1 ∉ d.1) → ∀ self : Options, self.m_argv = argv →
      (self.String_ d.1 d.2.2.1 d.2.2.2).2 = some d.2.2.1 ∧
      (self.Strings d.1 d.2.2.2).2 = []) ∧
    ((registerStringOptions (Options.new argv) defs).HasErrorMatches out).1 = false ∧
    ((registerStringOptions (Options.new argv) defs).HasDuplicateNames out).1 = false ∧
    (∃ text, (registerStringOptions (Options.new argv) defs).HasConsistentTail NDEBUG out
      = Except.ok (true, text)) ∧
    (registerStringOptions (Options.new argv) defs).Tail
      = { m_cbegin := 2 * pairs.length + 1, m_cend := argv.length } ∧
    (argv.drop (registerStringOptions (Options.new argv) defs).Tail.m_cbegin).take
      ((registerStringOptions (Options.new argv) defs).Tail.m_cend
        - (registerStringOptions (Options.new argv) defs).Tail.m_cbegin) = rest := by
  have hN : argv ≠ [] := by rw [hargv]; exact List.cons_ne_nil _ _
  have hq := wellFormed_queries prog pairs rest defs argv hargv hnames howner hdifferent
    hvalues hrest NDEBUG out
  have htail := wellFormed_tail prog pairs rest defs argv hargv hk howner hdifferent hvalues
    hrest
  have hT : (registerStringOptions (Options.new argv) defs).Tail
      = { m_cbegin := 2 * pairs.length + 1, m_cend := argv.length } := by
    simp only [Options.Tail, htail, registerStringOptions_argv]
    rfl
  refine ⟨?_, ?_, hq.1, ?_, hq.2, hT, ?_⟩
  · intro nv hnv d hd hown self hself
    obtain ⟨i, hi, rfl⟩ := List.getElem_of_mem hnv
    have hown2 : (pairs.getD i ("", "")).1 ∈ d.1 := by
      rw [List.getD_eq_getElem pairs _ hi]; exact hown
    have hpos := wellFormed_namePositions prog pairs rest d.1
      (hdifferent.imp (fun h => h d hd)) (fun nv hnv => hvalues nv hnv d hd)
      (fun t ht => hrest t ht d hd) i hi hown2
    have ht := wellFormed_tokens prog pairs rest i hi
    rw [← hargv, ← hself] at hpos ht
    have hrep := string_report_single self d.1 d.2.2.1 d.2.2.2 (2 * i + 1)
      (by rw [hself]; exact hN) ht.2.2 hpos
    rw [ht.2.1, List.getD_eq_getElem pairs _ hi] at hrep
    exact hrep
  · intro d hd hnone self hself
    have hpos := wellFormed_namePositions_nil prog pairs rest d.1
      (fun nv hnv => hvalues nv hnv d hd) (fun t ht => hrest t ht d hd) hnone
    rw [← hargv, ← hself] at hpos
    exact string_report_none self d.1 d.2.2.1 d.2.2.2 (by rw [hself]; exact hN) hpos
  · rw [HasDuplicateNames_false_iff, registerStringOptions_names]
    exact hnames
  · rw [hT]
    show (argv.drop (2 * pairs.length + 1)).take (argv.length - (2 * pairs.length + 1)) = rest
    have hdrop : argv.drop (2 * pairs.length + 1) = rest := by
      rw [hargv, List.drop_succ_cons, ← pairTokens_length, List.drop_left]
    rw [hdrop]
    apply List.take_of_length_le
    rw [hargv]
    simp only [List.length_cons, List.length_append, pairTokens_length]
    omega

/-- Witness of C24: `path/cmd -f fn --alt fn2 pos1 pos2` with the `Single`
string options `-f` and `-x, --alt`, the multi-valued `-I` and the `Single`
`-o`, the last two without an occurrence. -/
theorem C24_well_formed_command_line_witness :
    (∀ self : Options, self.m_argv = ["path/cmd", "-f", "fn", "--alt", "fn2", "pos1", "pos2"] →
      (self.String_ ["-x", "--alt"] "yy" "alt").2 = some "fn2" ∧
      (self.Strings ["-x", "--alt"] "alt").2 = ["fn2"]) ∧
    (∀ self : Options, self.m_argv = ["path/cmd", "-f", "fn", "--alt", "fn2", "pos1", "pos2"] →
      (self.String_ ["-I"] "" "include").2 = some "" ∧
      (self.Strings ["-I"] "include").2 = []) ∧
    ((registerStringOptions (Options.new ["path/cmd", "-f", "fn", "--alt", "fn2", "pos1", "pos2"])
      [(["-f"], false, "xx", "file"), (["-x", "--alt"], false, "yy", "alt"),
       (["-I"], true, "", "include"), (["-o"], false, "--", "out")]).HasErrorMatches false).1
      = false ∧
    (registerStringOptions (Options.new ["path/cmd", "-f", "fn", "--alt", "fn2", "pos1", "pos2"])
      [(["-f"], false, "xx", "file"), (["-x", "--alt"], false, "yy", "alt"),
       (["-I"], true, "", "include"), (["-o"], false, "--", "out")]).Tail
      = { m_cbegin := 5, m_cend := 7 } :=
  have h := C24_well_formed_command_line "path/cmd" [("-f", "fn"), ("--alt", "fn2")]
    ["pos1", "pos2"]
    [(["-f"], false, "xx", "file"), (["-x", "--alt"], false, "yy", "alt"),
     (["-I"], true, "", "include"), (["-o"], false, "--", "out")]
    ["path/cmd", "-f", "fn", "--alt", "fn2", "pos1", "pos2"]
    rfl (by decide) (by decide) (by decide) (by decide) (by decide) (by decide) false false
  ⟨h.1 ("--alt", "fn2") (by decide) (["-x", "--alt"], false, "yy", "alt") (by decide)
      (by decide),
   h.2.1 (["-I"], true, "", "include") (by decide) (by decide),
   h.2.2.1, h.2.2.2.2.2.1⟩

/-! ## The sizes of a definition's lists -/

/-- C28: after a registration, with `d = 1` for a `Single` definition and `0`
otherwise, a value option has `|result list| + |parse_errors| = |matches| + d`
and a flag has `|result list| = |matches| + d` and no parse errors, also when
its name is the final token (`cmd -v`); so the result list of a `Single`
definition is never empty, and `MakeOption` and `Flag` read its first
element. -/
theorem C28_list_sizes {T : Type} [Converter T] (self : Options) (names : List String)
    (dflt : T) (description : String) (count : Nat) (isFlag : Bool) :
    ((self.AddOption names dflt description count false).2.m_storage.length
        + (self.AddOption names dflt description count false).2.m_parseErrors.length
      = (self.AddOption names dflt description count false).2.m_matches.length
        + (if count = Option.Single then 1 else 0)) ∧
    ((self.AddOption names dflt description count true).2.m_storage.length
      = (self.AddOption names dflt description count true).2.m_matches.length
        + (if count = Option.Single then 1 else 0)) ∧
    (self.AddOption names dflt description count true).2.m_parseErrors = [] ∧
    (self.AddOption names dflt description Option.Single isFlag).2.m_storage ≠ [] ∧
    (∃ value, (self.MakeOption names dflt description).2 = some value) ∧
    (∃ value, (self.Flag names description).2 = some value) ∧
    ((Options.new ["cmd", "-v"]).AddOption ["-v"] false "" Option.Single true).2.m_matches
      = [2] ∧
    ((Options.new ["cmd", "-v"]).AddOption ["-v"] false "" Option.Single true).2.m_storage
      = [true, false] ∧
    ((Options.new ["cmd", "-v"]).AddOption ["-v"] false "" Option.Single true).2.m_parseErrors
      = [] := by
  have hsingle : ∀ {U : Type} [Converter U] (d : U) (f : Bool),
      (self.AddOption names d description Option.Single f).2.m_storage ≠ [] := by
    intro U _ d f
    cases f
    · rw [AddOption_value_storage]
      simp
    · rw [(AddOption_flag_storage self names d description Option.Single).1]
      simp
  have hfront : ∀ {U : Type} (l : List U), l ≠ [] → ∃ value, front l = some value := by
    intro U l hl
    cases l with
    | nil => exact absurd rfl hl
    | cons a rest => exact ⟨a, rfl⟩
  refine ⟨?_, ?_, (AddOption_flag_storage self names dflt description count).2, hsingle dflt isFlag,
    hfront _ (hsingle dflt false), hfront _ (hsingle false true), by decide, by decide,
    by decide⟩
  · rw [AddOption_value_storage, AddOption_value_parseErrors]
    rw [List.length_append, List.length_map]
    have h := List.length_eq_length_filter_add
      (l := (self.AddOption names dflt description count false).2.m_matches)
      (fun m => decide (m ≠ self.m_argv.length) &&
        (Converter.FromString (self.m_argv.getD m "") : Bool × T).1)
    split_ifs <;> simp only [List.length_singleton, List.length_nil] <;> omega
  · rw [(AddOption_flag_storage self names dflt description count).1]
    rw [List.length_append, List.length_replicate]
    split_ifs <;> rfl

/-! ## `Options::HasDuplicateNames` as a count -/

theorem not_nodup_iff_count {α : Type} [DecidableEq α] (l : List α) :
    ¬ l.Nodup ↔ ∃ a, 2 ≤ l.count a := by
  rw [List.nodup_iff_count_le_one]
  push_neg
  constructor
  · rintro ⟨a, ha⟩
    exact ⟨a, ha⟩
  · rintro ⟨a, ha⟩
    exact ⟨a, ha⟩

theorem HasDuplicateNames_perm (r1 r2 : Options) (out1 out2 : Bool)
    (h : (r1.m_options.map (fun option => option.m_names)).Perm
      (r2.m_options.map (fun option => option.m_names))) :
    (r1.HasDuplicateNames out1).1 = (r2.HasDuplicateNames out2).1 := by
  apply bool_eq_of_false_iff _ _ _ (HasDuplicateNames_false_iff r1 out1)
  rw [HasDuplicateNames_false_iff, List.flatMap_def, List.flatMap_def]
  exact (List.Perm.flatten h).nodup_iff.symm

/-- C29: `HasDuplicateNames` returns true iff some string occurs at least twice
in the concatenation of the name lists of all registered definitions, so a
definition that lists one alias twice makes it true; the result is the same
for two registries whose name lists agree up to their order, whatever their
token sequences, matches and tail cursors, and so the same when two
definitions are registered in either order on any two token sequences. -/
theorem C29_duplicate_names_count {T U : Type} [Converter T] [Converter U] (r : Options)
    (out : Bool) :
    ((r.HasDuplicateNames out).1 = true ↔
      ∃ name, 2 ≤ (r.m_options.flatMap (fun option => option.m_names)).count name) ∧
    (∀ o ∈ r.m_options, ∀ name, 2 ≤ o.m_names.count name →
      (r.HasDuplicateNames out).1 = true) ∧
    (((Options.new ["cmd"]).Flag ["-f", "-f"] "").1.HasDuplicateNames false).1 = true ∧
    (∀ (r2 : Options) (out2 : Bool),
      (r2.m_options.map (fun option => option.m_names)).Perm
        (r.m_options.map (fun option => option.m_names)) →
      (r2.HasDuplicateNames out2).1 = (r.HasDuplicateNames out).1) ∧
    (∀ (argv1 argv2 : List String) (names1 names2 : List String) (dflt1 : T) (dflt2 : U)
      (description1 description2 : String) (count1 count2 : Nat) (isFlag1 isFlag2 : Bool),
      ((((Options.mk argv1 r.m_tail r.m_options).AddOption names1 dflt1 description1 count1
          isFlag1).1.AddOption names2 dflt2 description2 count2 isFlag2).1.HasDuplicateNames
            out).1 =
        ((((Options.mk argv2 r.m_tail r.m_options).AddOption names2 dflt2 description2 count2
          isFlag2).1.AddOption names1 dflt1 description1 count1 isFlag1).1.HasDuplicateNames
            out).1) := by
  have hcount : (r.HasDuplicateNames out).1 = true ↔
      ∃ name, 2 ≤ (r.m_options.flatMap (fun option => option.m_names)).count name := by
    rw [HasDuplicateNames_true_iff, not_nodup_iff_count]
  refine ⟨hcount, ?_, by decide, ?_, ?_⟩
  · intro o ho name hname
    rw [hcount]
    refine ⟨name, le_trans hname ?_⟩
    obtain ⟨l1, l2, hsplit⟩ := List.append_of_mem ho
    rw [hsplit]
    simp only [List.flatMap_append, List.flatMap_cons, List.count_append]
    omega
  · intro r2 out2 h
    exact HasDuplicateNames_perm r2 r out2 out h
  · intro argv1 argv2 names1 names2 dflt1 dflt2 description1 description2 count1 count2
      isFlag1 isFlag2
    apply HasDuplicateNames_perm
    have h1 : ∀ (argv : List String) {A B : Type} [Converter A] [Converter B] (na nb : List String)
        (da : A) (db : B) (sa sb : String) (ca cb : Nat) (fa fb : Bool),
        (((Options.mk argv r.m_tail r.m_options).AddOption na da sa ca fa).1.AddOption
          nb db sb cb fb).1.m_options.map (fun option => option.m_names)
          = r.m_options.map (fun option => option.m_names) ++ [na, nb] := by
      intro argv A B _ _ na nb da db sa sb ca cb fa fb
      obtain ⟨hn2, _, _, _, ho2⟩ := AddOption_fields
        ((Options.mk argv r.m_tail r.m_options).AddOption na da sa ca fa).1 nb db sb cb fb
      obtain ⟨hn1, _, _, _, ho1⟩ := AddOption_fields
        (Options.mk argv r.m_tail r.m_options) na da sa ca fa
      rw [ho2, ho1]
      simp only [List.map_append, List.map_cons, List.map_nil, List.append_assoc,
        List.singleton_append]
      rw [show ((Options.mk argv r.m_tail r.m_options).AddOption na da sa ca fa).2.toOption.m_names
        = na from hn1]
      rw [show (((Options.mk argv r.m_tail r.m_options).AddOption na da sa ca fa).1.AddOption
        nb db sb cb fb).2.toOption.m_names = nb from hn2]
    rw [h1 argv1 names1 names2, h1 argv2 names2 names1]
    exact List.Perm.append_left _ (List.Perm.swap _ _ _)

/-! ## `Options::Description` -/

theorem Description_lines_eq (colWidth : Nat) (options : List Option) (entry : Option → String)
    (ss : String) :
    Options.Description.lines colWidth options (options.map entry) ss =
      (options.map (fun option =>
        Options.Description.left (colWidth + 4) (entry option) ++ option.m_description
          ++ "\n")).foldl (fun text line => text ++ line) ss := by
  induction options generalizing ss with
  | nil => rfl
  | cons option rest ih =>
    simp only [List.map_cons, Options.Description.lines, List.foldl_cons]
    rw [ih]
    simp only [String.append_assoc]

theorem namesAndDefaults_eq (o : Option)
    (hcount : o.m_count = Option.Single ∨ o.m_count = Option.Many) :
    Options.Description.namesAndDefaults o =
      Options.Description.names o.m_names
        ++ (if o.m_count = Option.Many then " (...)" else "")
        ++ (if o.m_count = Option.Single ∧ o.m_isFlag = false then
              " [=" ++ o.m_defaultString ++ "]" else "") := by
  have hempty : ∀ s : String, s ++ "" = s := by
    intro s
    apply String.ext
    simp [String.data_append]
  simp only [Options.Description.namesAndDefaults]
  rcases hcount with h | h
  · rw [h]
    cases hf : o.m_isFlag
    · simp [Option.Single, Option.Many, hempty, String.append_assoc]
    · simp [Option.Single, Option.Many, hempty]
  · rw [h]
    cases hf : o.m_isFlag
    · simp [Option.Single, Option.Many, hempty]
    · simp [Option.Single, Option.Many, hempty]

/-- C30: on a registry whose definitions are `Single` or `Many` (the two
arities the public registration functions pass), the entry `Description`
renders for a definition is its names joined by `", "`, then ` (...)` iff the
definition is multi-valued, then ` [=<default>]` iff it is `Single` and not a
flag; the text of `Description` is the usage line followed by one line per
definition in registration order, the entry padded to the column width and
followed by the description. -/
theorem C30_description_markers (r : Options)
    (hcount : ∀ o ∈ r.m_options, o.m_count = Option.Single ∨ o.m_count = Option.Many) :
    (∀ o ∈ r.m_options,
      Options.Description.namesAndDefaults o =
        Options.Description.names o.m_names
          ++ (if o.m_count = Option.Many then " (...)" else "")
          ++ (if o.m_count = Option.Single ∧ o.m_isFlag = false then
                " [=" ++ o.m_defaultString ++ "]" else "")) ∧
    r.Description =
      (r.m_options.map (fun o =>
        Options.Description.left
            (((r.m_options.map Options.Description.namesAndDefaults).map
              String.utf8ByteSize).foldl max 0 + 4)
            (Options.Description.namesAndDefaults o)
          ++ o.m_description ++ "\n")).foldl (fun text line => text ++ line)
        ("Usage '" ++ Options.Description.cmdName (r.m_argv.getD 0 "") ++ "' [options]\n") := by
  refine ⟨fun o ho => namesAndDefaults_eq o (hcount o ho), ?_⟩
  simp only [Options.Description]
  rw [Description_lines_eq]

/-- Witness of C30: a flag, a `Single` string option, a multi-valued string
option and a multi-valued flag; the entries are `-h, --help`,
`-i, --infile [=--]`, `-I (...)` and `-v (...)`; and the whole text for a
flag followed by a `Single` string option. -/
theorem C30_description_markers_witness :
    (((((Options.new ["path/to/cmd", "-v"]).Flag ["-h", "--help"] "Show this help").1.String_
        ["-i", "--infile"] "--" "Specify input").1.Strings ["-I"] "Include").1.Flags
          ["-v"] "Toggle verbosity").1.m_options.map Options.Description.namesAndDefaults
      = ["-h, --help", "-i, --infile [=--]", "-I (...)", "-v (...)"] ∧
    (∀ o ∈ (((((Options.new ["path/to/cmd", "-v"]).Flag ["-h", "--help"]
        "Show this help").1.String_ ["-i", "--infile"] "--" "Specify input").1.Strings
          ["-I"] "Include").1.Flags ["-v"] "Toggle verbosity").1.m_options,
      Options.Description.namesAndDefaults o =
        Options.Description.names o.m_names
          ++ (if o.m_count = Option.Many then " (...)" else "")
          ++ (if o.m_count = Option.Single ∧ o.m_isFlag = false then
                " [=" ++ o.m_defaultString ++ "]" else "")) ∧
    (((Options.new ["path/to/cmd"]).Flag ["-h", "--help"] "Show this help").1.String_
        ["-i"] "--" "in").1.Description
      = "Usage 'cmd' [options]\n-h, --help    Show this help\n-i [=--]      in\n" :=
  ⟨by decide,
   (C30_description_markers
    (((((Options.new ["path/to/cmd", "-v"]).Flag ["-h", "--help"] "Show this help").1.String_
        ["-i", "--infile"] "--" "Specify input").1.Strings ["-I"] "Include").1.Flags
          ["-v"] "Toggle verbosity").1
    (by decide)).1,
   by decide⟩

/-! ## The read of `**duplicateIt` in `Options::HasErrorMatches` -/

theorem duplicates_nosink (argv : List String) (L : List Nat) (fuel it : Nat) (h : Bool)
    (text : String) :
    (Options.HasErrorMatches.duplicates argv false L fuel it h text).2.2 = false := by
  cases fuel with
  | zero => rfl
  | succ fuel =>
    simp only [Options.HasErrorMatches.duplicates]
    split_ifs <;> simp_all

theorem options_loop_sink (argv : List String) (opts : List Option) (h : Bool)
    (all : List Nat) (text : String) :
    (Options.HasErrorMatches.options argv true opts h all text).2.1 =
      all ++ opts.flatMap claimed := by
  induction opts generalizing h all text with
  | nil => simp [Options.HasErrorMatches.options]
  | cons o rest ih =>
    simp only [Options.HasErrorMatches.options, Options.HasErrorMatches.checkErrors,
      Options.HasErrorMatches.checkSingle]
    have e : ∀ (c : Prop) [Decidable c] (x y : Bool × String × Bool),
        x.2.2 = false → y.2.2 = false → (if c then x else y).2.2 = false := by
      intro c _ x y hx hy
      split_ifs <;> assumption
    rw [if_neg (by simp [e]), if_neg (by simp [e])]
    rw [ih, pushMatches_eq]
    simp [claimed, List.append_assoc]

theorem adjacent_find_offset_le {α : Type} [DecidableEq α] (l : List α) :
    adjacent_find.offset l ≤ l.length := by
  induction l with
  | nil => simp [adjacent_find.offset]
  | cons a rest ih =>
    cases rest with
    | nil => simp [adjacent_find.offset]
    | cons b rest =>
      simp only [adjacent_find.offset, List.length_cons]
      split_ifs
      · omega
      · simp only [List.length_cons] at ih
        omega

theorem pastEndPair_offset (N : Nat) (l : List Nat) :
    (adjacent_find.offset l = l.length → pastEndPair N l = false) ∧
    (adjacent_find.offset l ≠ l.length →
      pastEndPair N l = (decide (N ≤ l.getD (adjacent_find.offset l) 0) ||
        pastEndPair N (l.drop (adjacent_find.offset l + 1)))) := by
  induction l with
  | nil => simp [adjacent_find.offset, pastEndPair]
  | cons a rest ih =>
    cases rest with
    | nil => simp [adjacent_find.offset, pastEndPair]
    | cons b rest =>
      by_cases hab : a = b
      · subst hab
        simp [adjacent_find.offset, pastEndPair]
      · simp only [adjacent_find.offset, hab, if_false, List.length_cons, pastEndPair,
          decide_False, Bool.false_and, Bool.false_or, List.getD_cons_succ, List.drop_succ_cons]
        constructor
        · intro h
          exact ih.1 (by simp only [List.length_cons]; omega)
        · intro h
          exact ih.2 (by simp only [List.length_cons]; omega)

theorem getD_drop_add {α : Type} (l : List α) (s j : Nat) (d : α) :
    (l.drop s).getD j d = l.getD (s + j) d := by
  simp only [List.getD_eq_getElem?_getD, List.getElem?_drop]

theorem duplicates_sink (argv : List String) (L : List Nat) :
    ∀ (fuel s : Nat) (h : Bool) (text : String), s ≤ L.length → L.length - s < fuel →
    (Options.HasErrorMatches.duplicates argv true L fuel (adjacent_find L s) h text).2.2 =
      pastEndPair argv.length (L.drop s) := by
  intro fuel
  induction fuel with
  | zero => intro s h text _ hf; omega
  | succ fuel ih =>
    intro s h text hs hf
    have hlen : (L.drop s).length = L.length - s := List.length_drop s L
    have hle := adjacent_find_offset_le (L.drop s)
    have hp := pastEndPair_offset argv.length (L.drop s)
    simp only [Options.HasErrorMatches.duplicates, adjacent_find]
    by_cases hj : adjacent_find.offset (L.drop s) = (L.drop s).length
    · rw [if_pos (by omega), hp.1 hj]
    · rw [if_neg (by omega), hp.2 hj, getD_drop_add, List.drop_drop]
      simp only [Bool.not_true, Bool.false_eq_true, if_false]
      by_cases hread : L.getD (s + adjacent_find.offset (L.drop s)) 0 < argv.length
      · rw [if_pos hread]
        have h2 := ih (s + adjacent_find.offset (L.drop s) + 1) true
          (text ++ "Name consumed as argument before: '"
            ++ argv.getD (L.getD (s + adjacent_find.offset (L.drop s)) 0) "" ++ "'\n")
          (by omega) (by omega)
        simp only [adjacent_find] at h2
        rw [h2]
        have hn : ¬ argv.length ≤ L.getD (s + adjacent_find.offset (L.drop s)) 0 := by omega
        rw [decide_eq_false hn, Bool.false_or, Nat.add_assoc]
      · rw [if_neg hread]
        have hn : argv.length ≤ L.getD (s + adjacent_find.offset (L.drop s)) 0 := by omega
        rw [decide_eq_true hn, Bool.true_or]

theorem pastEndPair_of_all (N : Nat) (l : List Nat) (hall : ∀ x ∈ l, N ≤ x) :
    pastEndPair N l = true ↔ ¬ l.Chain' (fun a b => a ≠ b) := by
  induction l with
  | nil => simp [pastEndPair]
  | cons a rest ih =>
    cases rest with
    | nil => simp [pastEndPair]
    | cons b rest =>
      have ih2 := ih (fun x hx => hall x (List.mem_cons_of_mem _ hx))
      have ha := hall a (List.mem_cons_self _ _)
      simp only [pastEndPair, List.chain'_cons, Bool.or_eq_true, Bool.and_eq_true,
        decide_eq_true_eq, ih2]
      tauto

theorem pastEndPair_filter (N : Nat) (l : List Nat) (hs : l.Pairwise (fun a b => a ≤ b)) :
    pastEndPair N l = pastEndPair N (l.filter (fun x => decide (N ≤ x))) := by
  induction l with
  | nil => rfl
  | cons a rest ih =>
    have hrest := ih (List.Pairwise.of_cons hs)
    by_cases ha : N ≤ a
    · have hall : ∀ x ∈ a :: rest, decide (N ≤ x) = true := by
        intro x hx
        rcases List.mem_cons.1 hx with rfl | hx
        · simpa using ha
        · have := List.rel_of_pairwise_cons hs hx
          simp only [decide_eq_true_eq]
          omega
      rw [List.filter_eq_self.2 hall]
    · rw [List.filter_cons_of_neg (by simpa using ha), ← hrest]
      cases rest with
      | nil => rfl
      | cons b rest => simp [pastEndPair, ha]

/-- With a sink the run of `Options::HasErrorMatches` stops at the read of
`**duplicateIt` iff a position at or beyond `m_argv.cend()` was pushed twice
onto `allMatches`; without a sink it never does. -/
theorem HasErrorMatches_read_iff (r : Options) (out : Bool) :
    (r.HasErrorMatches out).2.2 = true ↔
      out = true ∧ ¬ ((r.m_options.flatMap claimed).filter
        (fun x => decide (r.m_argv.length ≤ x))).Nodup := by
  cases out with
  | false =>
    simp only [Options.HasErrorMatches, duplicates_nosink]
    simp
  | true =>
    simp only [Options.HasErrorMatches, true_and]
    rw [duplicates_sink _ _ _ 0 _ _ (Nat.zero_le _) (by omega), List.drop_zero,
      options_loop_sink, List.nil_append,
      pastEndPair_filter _ _ (List.sorted_insertionSort _ _),
      pastEndPair_of_all _ _ (fun x hx => by simpa using (List.mem_filter.1 hx).2),
      chain_ne_iff_nodup_of_sorted _
        ((List.sorted_insertionSort _ _).filter _),
      ((List.perm_insertionSort _ _).filter _).nodup_iff]

/-- C18 (code at the failing input): on `cmd -u` with the string option `-u`
registered twice (a release build, in which the assertion of `AddOption` is
compiled out), `HasErrorMatches` without a sink returns true, while with a
sink, after the two parse errors and the duplicated name position `1` are
reported, the run stops at the read `**duplicateIt` of the token at the
duplicated position `2 = m_argv.cend()` and returns no boolean. On every
registry built by registrations `HasDuplicateNames` and `HasConsistentTail`
return the same boolean with and without a sink, the run of `HasErrorMatches`
without a sink never reaches the read, and `HasErrorMatches` returns the same
boolean with a sink whenever that run does not reach the read. -/
theorem C18_sink_undefined_read :
    (((Options.new ["cmd", "-u"]).String_ ["-u"] "" "").1.String_
        ["-u"] "" "").1.HasErrorMatches false = (true, "", false) ∧
    (((Options.new ["cmd", "-u"]).String_ ["-u"] "" "").1.String_
        ["-u"] "" "").1.HasErrorMatches true =
      (true,
       "error matches for option '-u': <null>\nerror matches for option '-u': <null>\n"
         ++ "Name consumed as argument before: '-u'\n",
       true) ∧
    (((Options.new ["cmd", "-u"]).String_ ["-u"] "" "").1.String_
        ["-u"] "" "").1.m_argv.length = 2 ∧
    (∀ (r : Options) (NDEBUG : Bool), r.Reachable →
      (r.HasDuplicateNames true).1 = (r.HasDuplicateNames false).1 ∧
      (r.HasErrorMatches false).2.2 = false ∧
      ((r.HasErrorMatches true).2.2 = false →
        (r.HasErrorMatches true).1 = (r.HasErrorMatches false).1) ∧
      (r.HasConsistentTail NDEBUG true).map Prod.fst =
        (r.HasConsistentTail NDEBUG false).map Prod.fst) := by
  refine ⟨by decide, by decide, by decide, ?_⟩
  intro r NDEBUG _
  refine ⟨?_, ?_, ?_, ?_⟩
  · exact bool_eq_of_false_iff _ _ _ (HasDuplicateNames_false_iff r true)
      (HasDuplicateNames_false_iff r false)
  · rw [← Bool.not_eq_true, HasErrorMatches_read_iff]
    simp
  · intro _
    exact Bool.eq_iff_iff.2 ((HasErrorMatches_iff r true).trans (HasErrorMatches_iff r false).symm)
  · simp only [Options.HasConsistentTail]
    cases Options.HasConsistentTail.options NDEBUG r.m_argv r.m_options [] with
    | error e => rfl
    | ok allConsumed =>
      simp only []
      split_ifs
      · rfl
      · simp only [Except.map, Except.ok.injEq]
        rw [tail_loop_sink r.m_argv _ false "" ""]

end popts
